import Mathlib

/-!
# scribeconf: lexer and parser of Scribe configuration text

A shallow embedding of `lex.go` and `parse.go`.

* A Go string is a `List Char` (valid UTF-8 text); a rune is an `Option Char`,
  `none` being the constant `eof = -1`.
* The lexer record keeps the two slices of the input that the code ever looks
  at: `pending = input[start:pos]` and `rest = input[pos:]`; `width` counts
  runes (0 or 1) instead of bytes.  `items` is the sequence of tokens sent on
  the channel so far.
* `run` executes the chain of state functions; one step of the embedding is
  one call of `lexBlock`, or one iteration of the `for` loop of the other
  state functions (with the code after its `break`).
* A Go map is an association list kept sorted by key, hence canonical.
* Behaviour that belongs to the Go standard library (Unicode tables,
  `fmt.Errorf` on a format without operands) is a parameter, `GoLib`.
-/

namespace Scribeconf

/-! ## Standard library -/

/-- Go `unicode.IsSpace`: the Unicode White_Space property. -/
def IsSpace (c : Char) : Bool :=
  let n := c.toNat
  (9 ≤ n && n ≤ 13) || n == 32 || n == 0x85 || n == 0xA0 || n == 0x1680 ||
    (0x2000 ≤ n && n ≤ 0x200a) || n == 0x2028 || n == 0x2029 || n == 0x202f ||
    n == 0x205f || n == 0x3000

/-- Go `strings.TrimSpace`: remove leading and trailing white space. -/
def TrimSpace (s : List Char) : List Char :=
  (s.dropWhile IsSpace).rdropWhile IsSpace

/-- The parts of the Go standard library the package calls whose tables are
not reproduced here, with the facts about them that are used. -/
structure GoLib where
  /-- Go `unicode.IsLetter`. -/
  IsLetter : Char → Bool
  /-- Go `unicode.IsDigit`. -/
  IsDigit : Char → Bool
  /-- Go `strconv.IsPrint`. -/
  IsPrint : Char → Bool
  /-- The message of `fmt.Errorf(format)` called with no operand. -/
  Errorf : List Char → List Char
  letter_ascii : ∀ c : Char, c.toNat < 128 → IsLetter c = c.isAlpha
  digit_ascii : ∀ c : Char, c.toNat < 128 → IsDigit c = c.isDigit
  print_ascii : ∀ c : Char, c.toNat < 128 → IsPrint c = (decide (32 ≤ c.toNat) && decide (c.toNat < 127))
  letter_not_space : ∀ c : Char, IsLetter c = true → IsSpace c = false
  digit_not_space : ∀ c : Char, IsDigit c = true → IsSpace c = false
  /-- Text in front of the first `%` of a format is copied. -/
  errorf_plain : ∀ a b : List Char, '%' ∉ a → Errorf (a ++ b) = a ++ Errorf b
  errorf_nil : Errorf [] = []
  /-- A verb without operand is reported as missing. -/
  errorf_missing : Errorf ['%', Char.ofNat 39] = ['%', '!', Char.ofNat 39] ++ "(MISSING)".toList

/-- Upper-case hexadecimal digits of `n`, at least four of them. -/
def hex4 (n : Nat) : List Char :=
  let ds := (Nat.toDigits 16 n).map Char.toUpper
  List.replicate (4 - ds.length) '0' ++ ds

/-- Go `%#U` of a rune: `U+0041 'A'`; `eof` is the integer -1. -/
def fmtSharpU (T : GoLib) : Option Char → List Char
  | none => "U+FFFFFFFFFFFFFFFF".toList
  | some c =>
    "U+".toList ++ hex4 c.toNat ++
      (if T.IsPrint c then [' ', Char.ofNat 39, c, Char.ofNat 39] else [])

/-- Go `%d` of a non-negative integer. -/
def fmtD (n : Nat) : List Char := Nat.toDigits 10 n

/-! ## lex.go -/

inductive itemType where
  | itemError
  | itemEOF
  | itemKey
  | itemEqual
  | itemVal
  | itemLeftMeta
  | itemRightMeta
  deriving DecidableEq, Repr

structure item where
  typ : itemType
  val : List Char
  deriving DecidableEq, Repr

/-- Method `String` of `item`. -/
def item.String (i : item) : List Char :=
  match i.typ with
  | .itemError => i.val
  | .itemEOF => "EOF".toList
  | .itemKey => "Key: ".toList ++ i.val
  | .itemEqual => "=".toList
  | .itemVal => "Val: ".toList ++ i.val
  | .itemLeftMeta => i.val
  | .itemRightMeta => i.val

/-- The constant `eof`. -/
def eof : Option Char := none

structure lexer where
  /-- The text `input[start:pos]`. -/
  pending : List Char
  /-- The text `input[pos:]`. -/
  rest : List Char
  width : Nat
  items : List item
  deriving DecidableEq, Repr

/-- The control points of the scanner: the state functions, and the loops of
`lexMeta` and `lexEqual` (the latter with its counter `eqNum`). -/
inductive stateFn where
  | lexBlock
  | lexMeta
  | lexMetaLoop
  | lexComment
  | lexKey
  | lexEqual
  | lexEqualLoop (eqNum : Nat)
  | lexVal
  deriving DecidableEq, Repr

/-- What a state function hands back to `run`: the next state, `nil`, or a
run-time panic (index out of range). -/
inductive Next where
  | state (f : stateFn)
  | done
  | panic
  deriving DecidableEq, Repr

def lexer.next (l : lexer) : Option Char × lexer :=
  match l.rest with
  | [] => (eof, { l with width := 0 })
  | c :: cs => (some c, { l with pending := l.pending ++ [c], rest := cs, width := 1 })

def lexer.emit (l : lexer) (t : itemType) : lexer :=
  { l with items := l.items ++ [⟨t, l.pending⟩], pending := [] }

def lexer.ignore (l : lexer) : lexer :=
  { l with pending := [] }

def lexer.backup (l : lexer) : lexer :=
  match l.width, l.pending.getLast? with
  | _ + 1, some c => { l with pending := l.pending.dropLast, rest := c :: l.rest }
  | _, _ => l

def lexer.peek (l : lexer) : Option Char :=
  (l.next).1

/-- Go `strings.IndexRune(valid, r) >= 0`. -/
def indexRuneFound (valid : List Char) : Option Char → Bool
  | none => false
  | some c => valid.contains c

def lexer.accept (l : lexer) (valid : List Char) : Bool × lexer :=
  let (r, l) := l.next
  if indexRuneFound valid r then (true, l) else (false, l.backup)

def lexer.errorf (l : lexer) (msg : List Char) : Next × lexer :=
  (.done, { l with items := l.items ++ [⟨.itemError, msg⟩] })

def isSpace (r : Option Char) : Bool :=
  r == some ' ' || r == some '\t'

def isEndOfLine (r : Option Char) : Bool :=
  r == some '\r' || r == some '\n'

/-- Go `unicode.IsLetter` on a rune; `eof` is no letter. -/
def isLetter (T : GoLib) : Option Char → Bool
  | none => false
  | some c => T.IsLetter c

/-- Go `unicode.IsDigit` on a rune; `eof` is no digit. -/
def isDigit (T : GoLib) : Option Char → Bool
  | none => false
  | some c => T.IsDigit c

def isAlphaNumeric (T : GoLib) (r : Option Char) : Bool :=
  r == some '_' || isLetter T r || isDigit T r

def lexBlock (T : GoLib) (l : lexer) : Next × lexer :=
  let (r, l) := l.next
  if r = eof then (.done, l.emit .itemEOF)
  else if isSpace r || isEndOfLine r then (.state .lexBlock, l.ignore)
  else if r = some '<' then (.state .lexMeta, l)
  else if r = some '#' then (.state .lexComment, l)
  else if isLetter T r then (.state .lexKey, l.backup)
  else l.errorf ("unrecognized character in action: ".toList ++ fmtSharpU T r)

/-- One iteration of the loop of `lexMeta`, and the code after the loop. -/
def lexMetaLoop (T : GoLib) (l : lexer) : Next × lexer :=
  let (r, l) := l.next
  if !isAlphaNumeric T r then
    if r ≠ some '>' then l.errorf ("unclosed meta tag ".toList ++ fmtSharpU T r)
    else
      match (l.pending ++ l.rest)[1]? with
      | none => (.panic, l)
      | some b =>
        if b = '/' then (.state .lexBlock, l.emit .itemRightMeta)
        else (.state .lexBlock, l.emit .itemLeftMeta)
  else (.state .lexMetaLoop, l)

def lexMeta (T : GoLib) (l : lexer) : Next × lexer :=
  lexMetaLoop T (l.accept ['/']).2

def lexComment (l : lexer) : Next × lexer :=
  let (r, l) := l.next
  if isEndOfLine r || r = eof then (.state .lexBlock, l.ignore)
  else (.state .lexComment, l)

def lexKey (T : GoLib) (l : lexer) : Next × lexer :=
  let (r, l) := l.next
  if !isAlphaNumeric T r then (.state .lexEqual, l.backup.emit .itemKey)
  else (.state .lexKey, l)

/-- One iteration of the loop of `lexEqual`, and the code after the loop. -/
def lexEqualLoop (eqNum : Nat) (l : lexer) : Next × lexer :=
  let (r, l) := l.next
  if r = some '=' then (.state (.lexEqualLoop (eqNum + 1)), l)
  else if isSpace r then (.state (.lexEqualLoop eqNum), l)
  else
    let l := l.backup
    if eqNum ≠ 1 then l.errorf ("error equal symbol occurrence: ".toList ++ fmtD eqNum)
    else (.state .lexVal, l.emit .itemEqual)

def lexEqual (l : lexer) : Next × lexer :=
  lexEqualLoop 0 l

def lexVal (l : lexer) : Next × lexer :=
  let (r, l) := l.next
  if isEndOfLine r || r = eof then (.state .lexBlock, l.emit .itemVal)
  else (.state .lexVal, l)

/-- Calling a state function. -/
def call (T : GoLib) : stateFn → lexer → Next × lexer
  | .lexBlock, l => lexBlock T l
  | .lexMeta, l => lexMeta T l
  | .lexMetaLoop, l => lexMetaLoop T l
  | .lexComment, l => lexComment l
  | .lexKey, l => lexKey T l
  | .lexEqual, l => lexEqual l
  | .lexEqualLoop n, l => lexEqualLoop n l
  | .lexVal, l => lexVal l

/-- What the scanning goroutine has done when it stops: the tokens sent before
the channel is closed, or before an index went out of range. -/
structure Scan where
  items : List item
  panicked : Bool
  deriving DecidableEq, Repr

/-- The loop of `run`, with a bound on the number of steps. -/
def run (T : GoLib) : Nat → stateFn → lexer → Option Scan
  | 0, _, _ => none
  | n + 1, f, l =>
    match call T f l with
    | (.state g, l) => run T n g l
    | (.done, l) => some ⟨l.items, false⟩
    | (.panic, l) => some ⟨l.items, true⟩

/-- The function `lex`: the tokens of `input`. -/
def lex (T : GoLib) (input : List Char) : Option Scan :=
  run T (5 * input.length + 5) .lexBlock ⟨[], input, 0, []⟩

/-! ## parse.go -/

/-- The type `Store`: `Name`, the map `Fields` (sorted by key) and `Stores`. -/
inductive Store where
  | mk (Name : List Char) (Fields : List (List Char × List Char)) (Stores : List Store)
  deriving Repr

def Store.Name : Store → List Char
  | .mk n _ _ => n

def Store.Fields : Store → List (List Char × List Char)
  | .mk _ f _ => f

def Store.Stores : Store → List Store
  | .mk _ _ ss => ss

/-- Go string comparison `a < b` (byte order, which on UTF-8 text is the order
of code points). -/
def strLt : List Char → List Char → Bool
  | [], [] => false
  | [], _ :: _ => true
  | _ :: _, [] => false
  | a :: as, b :: bs => decide (a.toNat < b.toNat) || (a == b && strLt as bs)

/-- The map assignment `m[k] = v`. -/
def setField (k v : List Char) : List (List Char × List Char) → List (List Char × List Char)
  | [] => [(k, v)]
  | (k1, v1) :: m =>
    if k = k1 then (k, v) :: m
    else if strLt k k1 then (k, v) :: (k1, v1) :: m
    else (k1, v1) :: setField k v m

/-- The map index `m[k]`, `none` when the key is absent. -/
def getField (k : List Char) : List (List Char × List Char) → Option (List Char)
  | [] => none
  | (k1, v1) :: m => if k = k1 then some v1 else getField k m

def newStore : Store :=
  .mk [] [] []

/-- Go `%v` of a `map[string]string`: `map[k1:v1 k2:v2]`, keys in order. -/
def fmtMap (m : List (List Char × List Char)) : List Char :=
  "map[".toList ++ List.intercalate [' '] (m.map fun kv => kv.1 ++ [':'] ++ kv.2) ++ [']']

mutual
/-- Go `%v` of a `Store` value: `\x7bName map[...] [...]\x7d`. -/
def fmtStore : Store → List Char
  | .mk n f ss =>
    [Char.ofNat 123] ++ n ++ [' '] ++ fmtMap f ++ " [".toList ++ fmtStores ss ++ [']', Char.ofNat 125]
/-- Go `%v` of the elements of a `[]Store`, separated by a blank. -/
def fmtStores : List Store → List Char
  | [] => []
  | [s] => fmtStore s
  | s :: t :: ss => fmtStore s ++ [' '] ++ fmtStores (t :: ss)
end

/-- Go `%v` of a `*Store`. -/
def fmtStorePtr (s : Store) : List Char :=
  '&' :: fmtStore s

/-- A Go slice expression `s[lo:hi]` of a string; `none` is the run-time
panic "slice bounds out of range". -/
def slice (s : List Char) (lo hi : Int) : Option (List Char) :=
  if 0 ≤ lo ∧ lo ≤ hi ∧ hi ≤ s.length then some ((s.take hi.toNat).drop lo.toNat) else none

/-- A receive `<-items`: the next token, or the zero `item` when the channel
is closed. -/
def recv : List item → item × List item
  | [] => (⟨.itemError, []⟩, [])
  | i :: items => (i, items)

/-- How a call of `parse` ends: `nil` with the store as it leaves it and the
tokens not yet received, an error, or a run-time panic. -/
inductive Ret where
  | nil (s : Store) (items : List item)
  | error (msg : List Char)
  | panic
  deriving Repr

/-- The function `parse`; the first argument bounds the number of loop
iterations and nested calls. -/
def parse (T : GoLib) : Nat → Store → List item → Option Ret
  | 0, _, _ => none
  | _ + 1, s, [] => some (.error ("unexpected EOF for store: ".toList ++ fmtStorePtr s))
  | n + 1, s, i :: items =>
    match i.typ with
    | .itemError => some (.error (T.Errorf i.val))
    | .itemKey =>
      let (eq, items) := recv items
      if eq.typ ≠ .itemEqual then
        some (.error (i.String ++ " not followed by eq, but by ".toList ++ eq.String))
      else
        let (val, items) := recv items
        if val.typ ≠ .itemVal then
          some (.error (i.String ++ " not followed by a value, but by ".toList ++ val.String))
        else
          parse T n (.mk s.Name (setField (TrimSpace i.val) (TrimSpace val.val) s.Fields) s.Stores)
            items
    | .itemLeftMeta =>
      match slice i.val 1 (i.val.length - 1) with
      | none => some .panic
      | some name =>
        match parse T n (.mk name [] []) items with
        | none => none
        | some (.error msg) => some (.error msg)
        | some .panic => some .panic
        | some (.nil ss items) => parse T n (.mk s.Name s.Fields (s.Stores ++ [ss])) items
    | .itemRightMeta =>
      match slice i.val 2 (i.val.length - 1) with
      | none => some .panic
      | some closeName =>
        if closeName ≠ s.Name then
          some (.error ("store ".toList ++ fmtStorePtr s ++ " closed with </".toList ++
            closeName ++ ['>']))
        else some (.nil s items)
    | .itemEOF => some (.nil s items)
    | .itemEqual => parse T n s items
    | .itemVal => parse T n s items

/-- What a caller of `Parse` observes. -/
inductive Outcome where
  | ok (s : Store)
  | error (msg : List Char)
  | panic
  deriving Repr

/-- The function `Parse`.  `none` would mean that a step bound was too small;
`Parse_total` shows that it is not. -/
def Parse (T : GoLib) (input : List Char) : Option Outcome :=
  match lex T input with
  | none => none
  | some sc =>
    if sc.panicked then some .panic
    else
      match parse T (sc.items.length + 1) newStore sc.items with
      | none => none
      | some (.nil s _) => some (.ok s)
      | some (.error msg) => some (.error msg)
      | some .panic => some .panic

/-! ## An instance of the library parameter -/

/-- A rendering of `fmt.Errorf` without operands for formats whose verbs carry
no flag, width or index: `%%` is a percent sign, any other verb is missing its
operand. -/
def errorfAscii : List Char → List Char
  | [] => []
  | [c] => if c = '%' then "%!(NOVERB)".toList else [c]
  | c :: d :: ds =>
    if c = '%' then
      if d = '%' then '%' :: errorfAscii ds
      else ['%', '!', d] ++ "(MISSING)".toList ++ errorfAscii ds
    else c :: errorfAscii (d :: ds)

/-- The library restricted to ASCII letters and digits. -/
def asciiLib : GoLib where
  IsLetter := Char.isAlpha
  IsDigit := Char.isDigit
  IsPrint := fun c => decide (32 ≤ c.toNat) && decide (c.toNat < 127)
  Errorf := errorfAscii
  letter_ascii := fun _ _ => rfl
  digit_ascii := fun _ _ => rfl
  print_ascii := fun _ _ => rfl
  letter_not_space := by
    intro c h
    simp only [Char.isAlpha, Char.isUpper, Char.isLower, Bool.or_eq_true, Bool.and_eq_true,
      decide_eq_true_eq] at h
    have h1 : (c.val ≥ 65 ∧ c.val ≤ 90) ∨ (c.val ≥ 97 ∧ c.val ≤ 122) := h
    simp only [ge_iff_le, UInt32.le_def, Fin.le_def] at h1
    have h2 : c.toNat = c.val.val.val := rfl
    have h3 : 65 ≤ c.toNat ∧ c.toNat ≤ 122 := by
      rw [h2]
      rcases h1 with ⟨a, b⟩ | ⟨a, b⟩
      · exact ⟨a, le_trans b (by decide)⟩
      · exact ⟨le_trans (by decide) a, b⟩
    simp [IsSpace]
    omega
  digit_not_space := by
    intro c h
    simp only [Char.isDigit, Bool.and_eq_true, decide_eq_true_eq] at h
    have h1 : c.val ≥ 48 ∧ c.val ≤ 57 := h
    simp only [ge_iff_le, UInt32.le_def, Fin.le_def] at h1
    have h2 : c.toNat = c.val.val.val := rfl
    have h3 : 48 ≤ c.toNat ∧ c.toNat ≤ 57 := by rw [h2]; exact h1
    simp [IsSpace]
    omega
  errorf_plain := by
    intro a b h
    induction a with
    | nil => rfl
    | cons c cs ih =>
      simp only [List.mem_cons, not_or] at h
      have hc : c ≠ '%' := fun e => h.1 e.symm
      have ih2 := ih h.2
      rw [List.cons_append]
      cases hx : cs ++ b with
      | nil =>
        rw [hx] at ih2
        simp only [errorfAscii, if_neg hc, List.cons_append]
        rw [← ih2]; rfl
      | cons d ds =>
        rw [hx] at ih2
        simp only [errorfAscii, if_neg hc, List.cons_append]
        rw [← ih2]
  errorf_nil := rfl
  errorf_missing := by decide

/-! ## Step bounds -/

/-- A bound on the number of steps `run` takes from a control point. -/
def stepsBound (T : GoLib) (f : stateFn) (l : lexer) : Nat :=
  5 * l.rest.length +
    match f with
    | .lexBlock => 1
    | .lexKey => if isAlphaNumeric T l.rest.head? then 0 else 4
    | .lexEqual => 3
    | .lexEqualLoop _ => 3
    | .lexVal => 2
    | .lexComment => 2
    | .lexMeta => 4
    | .lexMetaLoop => 4

/-- The scan from a control point, run for as many steps as it needs. -/
def scan (T : GoLib) (f : stateFn) (l : lexer) : Scan :=
  (run T (stepsBound T f l) f l).getD ⟨[], false⟩

/-- The call `parse(s, items)` with as many steps as it needs. -/
def parseAll (T : GoLib) (s : Store) (items : List item) : Option Ret :=
  parse T (items.length + 1) s items

/-- An identifier character: underscore, letter or digit. -/
def identChar (T : GoLib) (c : Char) : Bool :=
  isAlphaNumeric T (some c)

/-! ## The texts the statements speak about -/

/-- A blank or a tab. -/
def spTab (c : Char) : Bool :=
  c == ' ' || c == '\t'

/-- A carriage return or a line feed. -/
def eolChar (c : Char) : Bool :=
  c == '\r' || c == '\n'

/-- A text without carriage return and line feed. -/
def noEOL (s : List Char) : Bool :=
  s.all fun c => !eolChar c

/-- A letter followed by identifier characters. -/
def isKeyText (T : GoLib) : List Char → Bool
  | [] => false
  | c :: cs => T.IsLetter c && cs.all (identChar T)

/-- A (possibly empty) string of identifier characters. -/
def isName (T : GoLib) (n : List Char) : Bool :=
  n.all (identChar T)

/-- A piece of text that carries no token: one blank, tab, carriage return
or line feed, or a comment with the line end that closes it. -/
inductive Piece where
  | blank (c : Char)
  | comment (body : List Char) (e : Char)
  deriving DecidableEq, Repr

def Piece.text : Piece → List Char
  | .blank c => [c]
  | .comment body e => '#' :: body ++ [e]

def Piece.ok : Piece → Bool
  | .blank c => spTab c || eolChar c
  | .comment body e => noEOL body && eolChar e

/-- The text of a sequence of pieces. -/
def piecesText (ps : List Piece) : List Char :=
  (ps.map Piece.text).flatten

/-- A comment that the end of the input closes, if there is one. -/
def lastComment : Option (List Char) → List Char
  | none => []
  | some body => '#' :: body

/-- A value that does not begin with a blank, a tab or an equals sign. -/
def plainStart (v : List Char) : Bool :=
  match v.head? with
  | none => true
  | some c => c != ' ' && c != '\t' && c != '='

/-- A value without leading or trailing white space that does not begin with
an equals sign. -/
def cleanValue (v : List Char) : Bool :=
  (match v.head? with
    | none => true
    | some c => !IsSpace c && c != '=') &&
  (match v.getLast? with
    | none => true
    | some c => !IsSpace c)

/-- The line `key=value` followed by a line feed. -/
def fieldLine (kv : List Char × List Char) : List Char :=
  kv.1 ++ '=' :: (kv.2 ++ ['\n'])

/-- The lines of a sequence of fields. -/
def fieldsText (fs : List (List Char × List Char)) : List Char :=
  (fs.map fieldLine).flatten

/-- The map that holds the given entries, later entries winning. -/
def mapOf (fs : List (List Char × List Char)) : List (List Char × List Char) :=
  fs.foldl (fun m kv => setField kv.1 kv.2 m) []

/-- A store tree as a configuration describes it: a name, the fields in the
order in which they are written, and the children. -/
inductive Tree where
  | node (name : List Char) (fields : List (List Char × List Char)) (children : List Tree)
  deriving Repr

def Tree.name : Tree → List Char
  | .node n _ _ => n

mutual
/-- The canonical rendering of what a store holds: its fields as lines
`key=value`, then each child between its opening and closing tag. -/
def Tree.render : Tree → List Char
  | .node _ fs cs => fieldsText fs ++ Tree.renderAll cs
/-- The canonical rendering of a sequence of children. -/
def Tree.renderAll : List Tree → List Char
  | [] => []
  | .node n fs cs :: ts =>
    '<' :: (n ++ '>' :: '\n' :: ((Tree.node n fs cs).render ++
      ('<' :: '/' :: (n ++ '>' :: '\n' :: Tree.renderAll ts))))
end

mutual
/-- The store a tree describes. -/
def Tree.toStore : Tree → Store
  | .node n fs cs => .mk n (mapOf fs) (Tree.toStores cs)
def Tree.toStores : List Tree → List Store
  | [] => []
  | t :: ts => t.toStore :: Tree.toStores ts
end

/-- A field as the canonical rendering admits it. -/
def fieldOk (T : GoLib) (kv : List Char × List Char) : Bool :=
  isKeyText T kv.1 && noEOL kv.2 && cleanValue kv.2

mutual
/-- The fields of every store of the tree are admissible and have distinct
keys, and every store below the root has a non-empty name of identifier
characters. -/
def Tree.ok (T : GoLib) : Tree → Bool
  | .node _ fs cs => fs.all (fieldOk T) && decide ((fs.map Prod.fst).Nodup) && Tree.allOk T cs
def Tree.allOk (T : GoLib) : List Tree → Bool
  | [] => true
  | .node n fs cs :: ts =>
    !n.isEmpty && isName T n && (Tree.node n fs cs).ok T && Tree.allOk T ts
end

/-- The tokens of a line `key=value`. -/
def fieldToks (kv : List Char × List Char) : List item :=
  [⟨.itemKey, kv.1⟩, ⟨.itemEqual, ['=']⟩, ⟨.itemVal, kv.2 ++ ['\n']⟩]

def fieldsToks (fs : List (List Char × List Char)) : List item :=
  (fs.map fieldToks).flatten

mutual
/-- The tokens of the canonical rendering of a tree. -/
def Tree.toks : Tree → List item
  | .node _ fs cs => fieldsToks fs ++ Tree.toksAll cs
def Tree.toksAll : List Tree → List item
  | [] => []
  | .node n fs cs :: ts =>
    ⟨.itemLeftMeta, '<' :: (n ++ ['>'])⟩ :: ((Tree.node n fs cs).toks ++
      ⟨.itemRightMeta, '<' :: '/' :: (n ++ ['>'])⟩ :: Tree.toksAll ts)
end

/-- The text of a sequence of empty blocks: for each name, the opening tag and
the closing tag, each on a line. -/
def blocksText (ns : List (List Char)) : List Char :=
  (ns.map fun n => '<' :: (n ++ '>' :: '\n' :: '<' :: '/' :: (n ++ ['>', '\n']))).flatten

/-- A well-formed line `key=value`: the key is a letter followed by identifier
characters, the value has no line end and does not begin with a blank, a tab
or an equals sign. -/
def lineOk (T : GoLib) (kv : List Char × List Char) : Bool :=
  isKeyText T kv.1 && noEOL kv.2 && plainStart kv.2

/-- The text of a sequence of opening tags, each on a line. -/
def opensText (ns : List (List Char)) : List Char :=
  (ns.map fun n => '<' :: (n ++ ['>', '\n'])).flatten

/-- The tokens of a sequence of opening tags. -/
def opensToks (ns : List (List Char)) : List item :=
  ns.map fun n => ⟨.itemLeftMeta, '<' :: (n ++ ['>'])⟩

/-- The outcome is an error whose message begins with "unclosed meta tag". -/
def isUnclosedTagError (o : Option Outcome) : Prop :=
  ∃ msg, o = some (.error msg) ∧ "unclosed meta tag".toList <+: msg

/-- An entry of a configuration: text without tokens, a line `key=value`, or
a block with its entries between the opening and the closing tag. -/
inductive Entry where
  | noise (p : Piece)
  | field (k v : List Char)
  | block (n : List Char) (es : List Entry)
  deriving Repr

mutual
/-- The text of an entry. -/
def Entry.text : Entry → List Char
  | .noise p => p.text
  | .field k v => fieldLine (k, v)
  | .block n es => '<' :: (n ++ '>' :: (Entry.textAll es ++ '<' :: '/' :: (n ++ ['>'])))
def Entry.textAll : List Entry → List Char
  | [] => []
  | e :: es => e.text ++ Entry.textAll es
end

mutual
/-- The text of an entry cut into its tags, lines and pieces. -/
def Entry.chunks : Entry → List (List Char)
  | .noise p => [p.text]
  | .field k v => [fieldLine (k, v)]
  | .block n es =>
    ('<' :: (n ++ ['>'])) :: (Entry.chunksAll es ++ ['<' :: '/' :: (n ++ ['>'])])
def Entry.chunksAll : List Entry → List (List Char)
  | [] => []
  | e :: es => e.chunks ++ Entry.chunksAll es
end

mutual
/-- The tokens of an entry. -/
def Entry.toks : Entry → List item
  | .noise _ => []
  | .field k v => fieldToks (k, v)
  | .block n es =>
    ⟨.itemLeftMeta, '<' :: (n ++ ['>'])⟩ ::
      (Entry.toksAll es ++ [⟨.itemRightMeta, '<' :: '/' :: (n ++ ['>'])⟩])
def Entry.toksAll : List Entry → List item
  | [] => []
  | e :: es => e.toks ++ Entry.toksAll es
end

mutual
/-- The entries are well formed: admissible pieces and fields, names of
identifier characters. -/
def Entry.ok (T : GoLib) : Entry → Bool
  | .noise p => p.ok
  | .field k v => fieldOk T (k, v)
  | .block n es => isName T n && Entry.allOk T es
def Entry.allOk (T : GoLib) : List Entry → Bool
  | [] => true
  | e :: es => e.ok T && Entry.allOk T es
end

mutual
/-- What an entry does to the store it stands in. -/
def Entry.apply : Store → Entry → Store
  | s, .noise _ => s
  | s, .field k v => .mk s.Name (setField k v s.Fields) s.Stores
  | s, .block n es => .mk s.Name s.Fields (s.Stores ++ [Entry.applyAll (.mk n [] []) es])
def Entry.applyAll : Store → List Entry → Store
  | s, [] => s
  | s, e :: es => Entry.applyAll (Entry.apply s e) es
end

/-- The configuration text of `TestParse`, cut after each line and tag. -/
def testParseChunks : List (List Char) :=
  ["\n".toList,
   "##  Copyright (c) 2007-2008 Facebook\n".toList,
   "##\n".toList,
   "##  Licensed under the Apache License, Version 2.0 (the \"License\");\n".toList,
   "##  you may not use this file except in compliance with the License.\n".toList,
   "##  You may obtain a copy of the License at\n".toList,
   "##\n".toList,
   "##      http://www.apache.org/licenses/LICENSE-2.0\n".toList,
   "##\n".toList,
   "##  Unless required by applicable law or agreed to in writing, software\n".toList,
   "##  distributed under the License is distributed on an \"AS IS\" BASIS,\n".toList,
   "##  WITHOUT WARRANTIES OR CONDITIONS OF ANY KIND, either express or implied.\n".toList,
   "##  See the License for the specific language governing permissions and\n".toList,
   "##  limitations under the License.\n".toList,
   "##\n".toList,
   "## See accompanying file LICENSE or visit the Scribe site at:\n".toList,
   "## http://developers.facebook.com/scribe/\n".toList,
   "\n".toList,
   "\n".toList,
   "##\n".toList,
   "## Sample Scribe configuration\n".toList,
   "##\n".toList,
   "\n".toList,
   "# This file configures Scribe to listen for messages on port 1463 and write\n".toList,
   "# them to /tmp/scribetest\n".toList,
   "#\n".toList,
   "# This configuration also tells Scribe to discard messages with a category\n".toList,
   "# that begins with 'ignore'.\n".toList,
   "#\n".toList,
   "# If the message category is 'bucket_me', Scribe will hash this message to\n".toList,
   "# 1 of 5 buckets.\n".toList,
   "\n".toList,
   "port=1463\n".toList,
   "max_msg_per_second=2000000\n".toList,
   "check_interval=3\n".toList,
   "\n".toList,
   "# IGNORE* - discards messages for categories that begin with 'ignore'\n".toList,
   "<store>".toList,
   "\n".toList,
   "category=ignore*\n".toList,
   "type=null\n".toList,
   "</store>".toList,
   "\n".toList,
   "\n".toList,
   "\n".toList,
   "# BUCKET_ME - write 'bucket_me' messages to 1 of 5 subdirectories\n".toList,
   "<store>".toList,
   "\n".toList,
   "category=bucket_me\n".toList,
   "type=buffer\n".toList,
   "\n".toList,
   "target_write_size=20480\n".toList,
   "max_write_interval=1\n".toList,
   "buffer_send_rate=2\n".toList,
   "retry_interval=30\n".toList,
   "retry_interval_range=10\n".toList,
   "\n".toList,
   "<primary>".toList,
   "\n".toList,
   "type=bucket\n".toList,
   "num_buckets=5\n".toList,
   "bucket_subdir=bucket\n".toList,
   "bucket_type=key_hash\n".toList,
   "delimiter=58\n".toList,
   "# This will hash based on the part of the message before the first ':' (char(58))\n".toList,
   "\n".toList,
   "<bucket>".toList,
   "\n".toList,
   "type=file\n".toList,
   "fs_type=std\n".toList,
   "file_path=/tmp/scribetest\n".toList,
   "base_filename=bucket_me\n".toList,
   "max_size=10000\n".toList,
   "</bucket>".toList,
   "\n".toList,
   "</primary>".toList,
   "\n".toList,
   "\n".toList,
   "<secondary>".toList,
   "\n".toList,
   "type=file\n".toList,
   "fs_type=std\n".toList,
   "file_path=/tmp\n".toList,
   "base_filename=bucket_me\n".toList,
   "max_size=30000\n".toList,
   "</secondary>".toList,
   "\n".toList,
   "</store>".toList,
   "\n".toList,
   "\n".toList,
   "\n".toList,
   "# DEFAULT - write all other categories to /tmp/scribetest\n".toList,
   "<store>".toList,
   "\n".toList,
   "category=default\n".toList,
   "type=buffer\n".toList,
   "\n".toList,
   "target_write_size=20480\n".toList,
   "max_write_interval=1\n".toList,
   "buffer_send_rate=2\n".toList,
   "retry_interval=30\n".toList,
   "retry_interval_range=10\n".toList,
   "\n".toList,
   "<primary>".toList,
   "\n".toList,
   "type=file\n".toList,
   "fs_type=std\n".toList,
   "file_path=/tmp/scribetest\n".toList,
   "base_filename=thisisoverwritten\n".toList,
   "max_size=1000000\n".toList,
   "</primary>".toList,
   "\n".toList,
   "\n".toList,
   "<secondary>".toList,
   "\n".toList,
   "type=file\n".toList,
   "fs_type=std\n".toList,
   "file_path=/tmp\n".toList,
   "base_filename=thisisoverwritten\n".toList,
   "max_size=3000000\n".toList,
   "</secondary>".toList,
   "\n".toList,
   "</store>".toList,
   "\n".toList,
   " ".toList,
   " ".toList]

/-- The configuration text of `TestParse`. -/
def testParseInput : List Char :=
  testParseChunks.flatten

/-- The configuration of `TestParse`, entry by entry. -/
def testParseDoc : List Entry :=
  [.noise (.blank '\n'),
   .noise (.comment "#  Copyright (c) 2007-2008 Facebook".toList '\n'),
   .noise (.comment "#".toList '\n'),
   .noise (.comment "#  Licensed under the Apache License, Version 2.0 (the \"License\");".toList '\n'),
   .noise (.comment "#  you may not use this file except in compliance with the License.".toList '\n'),
   .noise (.comment "#  You may obtain a copy of the License at".toList '\n'),
   .noise (.comment "#".toList '\n'),
   .noise (.comment "#      http://www.apache.org/licenses/LICENSE-2.0".toList '\n'),
   .noise (.comment "#".toList '\n'),
   .noise (.comment "#  Unless required by applicable law or agreed to in writing, software".toList '\n'),
   .noise (.comment "#  distributed under the License is distributed on an \"AS IS\" BASIS,".toList '\n'),
   .noise (.comment "#  WITHOUT WARRANTIES OR CONDITIONS OF ANY KIND, either express or implied.".toList '\n'),
   .noise (.comment "#  See the License for the specific language governing permissions and".toList '\n'),
   .noise (.comment "#  limitations under the License.".toList '\n'),
   .noise (.comment "#".toList '\n'),
   .noise (.comment "# See accompanying file LICENSE or visit the Scribe site at:".toList '\n'),
   .noise (.comment "# http://developers.facebook.com/scribe/".toList '\n'),
   .noise (.blank '\n'),
   .noise (.blank '\n'),
   .noise (.comment "#".toList '\n'),
   .noise (.comment "# Sample Scribe configuration".toList '\n'),
   .noise (.comment "#".toList '\n'),
   .noise (.blank '\n'),
   .noise (.comment " This file configures Scribe to listen for messages on port 1463 and write".toList '\n'),
   .noise (.comment " them to /tmp/scribetest".toList '\n'),
   .noise (.comment "".toList '\n'),
   .noise (.comment " This configuration also tells Scribe to discard messages with a category".toList '\n'),
   .noise (.comment " that begins with 'ignore'.".toList '\n'),
   .noise (.comment "".toList '\n'),
   .noise (.comment " If the message category is 'bucket_me', Scribe will hash this message to".toList '\n'),
   .noise (.comment " 1 of 5 buckets.".toList '\n'),
   .noise (.blank '\n'),
   .field "port".toList "1463".toList,
   .field "max_msg_per_second".toList "2000000".toList,
   .field "check_interval".toList "3".toList,
   .noise (.blank '\n'),
   .noise (.comment " IGNORE* - discards messages for categories that begin with 'ignore'".toList '\n'),
   .block "store".toList
     [.noise (.blank '\n'),
      .field "category".toList "ignore*".toList,
      .field "type".toList "null".toList],
   .noise (.blank '\n'),
   .noise (.blank '\n'),
   .noise (.blank '\n'),
   .noise (.comment " BUCKET_ME - write 'bucket_me' messages to 1 of 5 subdirectories".toList '\n'),
   .block "store".toList
     [.noise (.blank '\n'),
      .field "category".toList "bucket_me".toList,
      .field "type".toList "buffer".toList,
      .noise (.blank '\n'),
      .field "target_write_size".toList "20480".toList,
      .field "max_write_interval".toList "1".toList,
      .field "buffer_send_rate".toList "2".toList,
      .field "retry_interval".toList "30".toList,
      .field "retry_interval_range".toList "10".toList,
      .noise (.blank '\n'),
      .block "primary".toList
        [.noise (.blank '\n'),
         .field "type".toList "bucket".toList,
         .field "num_buckets".toList "5".toList,
         .field "bucket_subdir".toList "bucket".toList,
         .field "bucket_type".toList "key_hash".toList,
         .field "delimiter".toList "58".toList,
         .noise (.comment " This will hash based on the part of the message before the first ':' (char(58))".toList '\n'),
         .noise (.blank '\n'),
         .block "bucket".toList
           [.noise (.blank '\n'),
            .field "type".toList "file".toList,
            .field "fs_type".toList "std".toList,
            .field "file_path".toList "/tmp/scribetest".toList,
            .field "base_filename".toList "bucket_me".toList,
            .field "max_size".toList "10000".toList],
         .noise (.blank '\n')],
      .noise (.blank '\n'),
      .noise (.blank '\n'),
      .block "secondary".toList
        [.noise (.blank '\n'),
         .field "type".toList "file".toList,
         .field "fs_type".toList "std".toList,
         .field "file_path".toList "/tmp".toList,
         .field "base_filename".toList "bucket_me".toList,
         .field "max_size".toList "30000".toList],
      .noise (.blank '\n')],
   .noise (.blank '\n'),
   .noise (.blank '\n'),
   .noise (.blank '\n'),
   .noise (.comment " DEFAULT - write all other categories to /tmp/scribetest".toList '\n'),
   .block "store".toList
     [.noise (.blank '\n'),
      .field "category".toList "default".toList,
      .field "type".toList "buffer".toList,
      .noise (.blank '\n'),
      .field "target_write_size".toList "20480".toList,
      .field "max_write_interval".toList "1".toList,
      .field "buffer_send_rate".toList "2".toList,
      .field "retry_interval".toList "30".toList,
      .field "retry_interval_range".toList "10".toList,
      .noise (.blank '\n'),
      .block "primary".toList
        [.noise (.blank '\n'),
         .field "type".toList "file".toList,
         .field "fs_type".toList "std".toList,
         .field "file_path".toList "/tmp/scribetest".toList,
         .field "base_filename".toList "thisisoverwritten".toList,
         .field "max_size".toList "1000000".toList],
      .noise (.blank '\n'),
      .noise (.blank '\n'),
      .block "secondary".toList
        [.noise (.blank '\n'),
         .field "type".toList "file".toList,
         .field "fs_type".toList "std".toList,
         .field "file_path".toList "/tmp".toList,
         .field "base_filename".toList "thisisoverwritten".toList,
         .field "max_size".toList "3000000".toList],
      .noise (.blank '\n')],
   .noise (.blank '\n'),
   .noise (.blank ' '),
   .noise (.blank ' ')]

/-- The store `TestParse` expects. -/
def testParseStore : Store :=
  .mk []
    [("check_interval".toList, "3".toList),
     ("max_msg_per_second".toList, "2000000".toList),
     ("port".toList, "1463".toList)]
    [.mk "store".toList
      [("category".toList, "ignore*".toList),
       ("type".toList, "null".toList)]
      [],
     .mk "store".toList
      [("buffer_send_rate".toList, "2".toList),
       ("category".toList, "bucket_me".toList),
       ("max_write_interval".toList, "1".toList),
       ("retry_interval".toList, "30".toList),
       ("retry_interval_range".toList, "10".toList),
       ("target_write_size".toList, "20480".toList),
       ("type".toList, "buffer".toList)]
      [.mk "primary".toList
        [("bucket_subdir".toList, "bucket".toList),
         ("bucket_type".toList, "key_hash".toList),
         ("delimiter".toList, "58".toList),
         ("num_buckets".toList, "5".toList),
         ("type".toList, "bucket".toList)]
        [.mk "bucket".toList
          [("base_filename".toList, "bucket_me".toList),
           ("file_path".toList, "/tmp/scribetest".toList),
           ("fs_type".toList, "std".toList),
           ("max_size".toList, "10000".toList),
           ("type".toList, "file".toList)]
          []],
       .mk "secondary".toList
        [("base_filename".toList, "bucket_me".toList),
         ("file_path".toList, "/tmp".toList),
         ("fs_type".toList, "std".toList),
         ("max_size".toList, "30000".toList),
         ("type".toList, "file".toList)]
        []],
     .mk "store".toList
      [("buffer_send_rate".toList, "2".toList),
       ("category".toList, "default".toList),
       ("max_write_interval".toList, "1".toList),
       ("retry_interval".toList, "30".toList),
       ("retry_interval_range".toList, "10".toList),
       ("target_write_size".toList, "20480".toList),
       ("type".toList, "buffer".toList)]
      [.mk "primary".toList
        [("base_filename".toList, "thisisoverwritten".toList),
         ("file_path".toList, "/tmp/scribetest".toList),
         ("fs_type".toList, "std".toList),
         ("max_size".toList, "1000000".toList),
         ("type".toList, "file".toList)]
        [],
       .mk "secondary".toList
        [("base_filename".toList, "thisisoverwritten".toList),
         ("file_path".toList, "/tmp".toList),
         ("fs_type".toList, "std".toList),
         ("max_size".toList, "3000000".toList),
         ("type".toList, "file".toList)]
        []]]

/-! ## Token streams -/

/-- A character on which the Block state goes on: blank, tab, line end, `#`,
`<` or a letter. -/
def blockStart (T : GoLib) (c : Char) : Bool :=
  spTab c || eolChar c || c == '#' || c == '<' || T.IsLetter c

/-- The payload of an Equals token: equals signs, blanks and tabs, with
exactly one equals sign. -/
def eqRun (e : List Char) : Bool :=
  e.all (fun c => c == '=' || spTab c) && e.count '=' == 1

/-- The payload of a Value token: a text whose only line end, if any, is its
last character. -/
def valText (v : List Char) : Bool :=
  noEOL v.dropLast

/-- The texts of the Error tokens of the Block and Meta states. -/
inductive ScanError (T : GoLib) : List Char → Prop where
  | badChar (c : Char) :
      ScanError T ("unrecognized character in action: ".toList ++ fmtSharpU T (some c))
  | unclosed (r : Option Char) :
      ScanError T ("unclosed meta tag ".toList ++ fmtSharpU T r)

/-- The text of the Error token of the Equals state. -/
def equalError (n : Nat) : List Char :=
  "error equal symbol occurrence: ".toList ++ fmtD n

/-- The shape of the token streams of the lexer: fields (Key, Equals, Value),
opening and closing tags, ended by EndOfStream, by an Error token, or by a Key
token and an Error token.  `N` is a condition on the names of opening tags. -/
inductive Stream (T : GoLib) (N : List Char → Bool) : List item → Prop where
  | eof : Stream T N [⟨.itemEOF, []⟩]
  | error (msg : List Char) : ScanError T msg → Stream T N [⟨.itemError, msg⟩]
  | keyError (k : List Char) (n : Nat) : isKeyText T k = true → n ≠ 1 →
      Stream T N [⟨.itemKey, k⟩, ⟨.itemError, equalError n⟩]
  | field (k e v : List Char) (rest : List item) : isKeyText T k = true → eqRun e = true →
      valText v = true → Stream T N rest →
      Stream T N (⟨.itemKey, k⟩ :: ⟨.itemEqual, e⟩ :: ⟨.itemVal, v⟩ :: rest)
  | openTag (n : List Char) (rest : List item) : isName T n = true → N n = true →
      Stream T N rest → Stream T N (⟨.itemLeftMeta, '<' :: (n ++ ['>'])⟩ :: rest)
  | closeTag (n : List Char) (rest : List item) : isName T n = true →
      Stream T N rest → Stream T N (⟨.itemRightMeta, '<' :: '/' :: (n ++ ['>'])⟩ :: rest)

/-- Any name. -/
def anyName (_ : List Char) : Bool := true

/-- What follows a Key token. -/
def AfterKey (T : GoLib) (suf : List item) : Prop :=
  (∃ n, n ≠ 1 ∧ suf = [⟨.itemError, equalError n⟩]) ∨
    ∃ e v rest, suf = ⟨.itemEqual, e⟩ :: ⟨.itemVal, v⟩ :: rest ∧ eqRun e = true ∧
      valText v = true ∧ Stream T anyName rest

/-- What follows an Equals token. -/
def AfterEqual (T : GoLib) (suf : List item) : Prop :=
  ∃ v rest, suf = ⟨.itemVal, v⟩ :: rest ∧ valText v = true ∧ Stream T anyName rest

/-- What the pending text is at each control point of the scanner. -/
def Inv (T : GoLib) : stateFn → List Char → List Char → Prop
  | .lexBlock, p, _ => p = []
  | .lexMeta, p, _ => p = ['<']
  | .lexMetaLoop, p, _ => ∃ n, isName T n = true ∧ (p = '<' :: n ∨ p = '<' :: '/' :: n)
  | .lexComment, _, _ => True
  | .lexKey, p, r => isKeyText T (p ++ r.takeWhile (identChar T)) = true
  | .lexEqual, p, _ => p = []
  | .lexEqualLoop n, p, _ => (∀ c ∈ p, c = '=' ∨ c = ' ' ∨ c = '\t') ∧ p.count '=' = n
  | .lexVal, p, _ => noEOL p = true

/-- What the scanner still sends from each control point. -/
def Post (T : GoLib) : stateFn → List item → Prop
  | .lexEqual, suf => AfterKey T suf
  | .lexEqualLoop _, suf => AfterKey T suf
  | .lexVal, suf => AfterEqual T suf
  | _, suf => Stream T anyName suf

/-- From every control point within `n` steps of its end, the scan ends
without panic and sends tokens of the expected shape. -/
def ScanOk (T : GoLib) (n : Nat) : Prop :=
  ∀ (f : stateFn) (p r : List Char) (w : Nat) (xs : List item),
    stepsBound T f ⟨p, r, w, xs⟩ ≤ n → Inv T f p r →
      ∃ suf, scan T f ⟨p, r, w, xs⟩ = ⟨xs ++ suf, false⟩ ∧ Post T f suf

/-! ## Stores as the parser builds them -/

/-- The keys of the map are in strictly increasing order. -/
def Sorted (m : List (List Char × List Char)) : Prop :=
  m.Pairwise fun a b => strLt a.1 b.1 = true

/-- A value that `TrimSpace` leaves unchanged. -/
def trimmed (v : List Char) : Bool :=
  decide (TrimSpace v = v)

/-- A field as the parser stores it: the key is a letter followed by
identifier characters, the value has no line end and no white space at either
end. -/
def entryGood (T : GoLib) (kv : List Char × List Char) : Bool :=
  isKeyText T kv.1 && noEOL kv.2 && trimmed kv.2

/-- A field map as the parser builds it. -/
def FieldsGood (T : GoLib) (f : List (List Char × List Char)) : Prop :=
  Sorted f ∧ ∀ kv ∈ f, entryGood T kv = true

mutual
/-- What holds of every store the parser builds: its field map is well formed
and every store below it has a name of identifier characters that satisfies
`N`. -/
def Store.good (T : GoLib) (N : List Char → Bool) : Store → Prop
  | .mk _ f ss => FieldsGood T f ∧ Store.goodAll T N ss
def Store.goodAll (T : GoLib) (N : List Char → Bool) : List Store → Prop
  | [] => True
  | s :: ss =>
    N s.Name = true ∧ isName T s.Name = true ∧ Store.good T N s ∧ Store.goodAll T N ss
end

/-- The messages of the errors `parse` returns on the token streams of the
lexer, one form for each `return` that is reached. -/
inductive ParseError (T : GoLib) : List Char → Prop where
  | scan (e : List Char) : ScanError T e → ParseError T (T.Errorf e)
  | noEqual (k : List Char) (n : Nat) : isKeyText T k = true → n ≠ 1 →
      ParseError T ("Key: ".toList ++ k ++ " not followed by eq, but by ".toList ++ equalError n)
  | closed (s : Store) (n : List Char) :
      ParseError T ("store ".toList ++ fmtStorePtr s ++ " closed with </".toList ++ n ++ ['>'])
  | eof (s : Store) : ParseError T ("unexpected EOF for store: ".toList ++ fmtStorePtr s)

/-- What a call of `parse` on a token stream of the lexer returns, for the
store `s` it is called with. -/
def RetOk (T : GoLib) (N : List Char → Bool) (s : Store) : Ret → Prop
  | .panic => False
  | .error msg => ParseError T msg
  | .nil s1 r =>
    (r = [] ∨ Stream T N r) ∧ s1.Name = s.Name ∧ (s.good T N → s1.good T N)

/-- A name that is not empty. -/
def nonEmptyName (n : List Char) : Bool :=
  !n.isEmpty

mutual
/-- Every store below this one has a non-empty name. -/
def Store.named : Store → Bool
  | .mk _ _ ss => Store.namedAll ss
def Store.namedAll : List Store → Bool
  | [] => true
  | s :: ss => !s.Name.isEmpty && Store.named s && Store.namedAll ss
end

/-- No opening tag with the empty name, `<>`, is among the tokens of the
input. -/
def noEmptyTag (T : GoLib) (input : List Char) : Bool :=
  match lex T input with
  | none => true
  | some sc => !sc.items.contains ⟨.itemLeftMeta, ['<', '>']⟩

/-- A tidy field: `TrimSpace` leaves key and value unchanged, the key is a
letter followed by identifier characters, the value has no line end. -/
def fieldTidy (T : GoLib) (kv : List Char × List Char) : Bool :=
  decide (TrimSpace kv.1 = kv.1) && decide (TrimSpace kv.2 = kv.2) && isKeyText T kv.1 &&
    noEOL kv.2

mutual
/-- Every field of every store of the tree is tidy and every name consists of
identifier characters. -/
def Store.tidy (T : GoLib) : Store → Bool
  | .mk n f ss => isName T n && f.all (fieldTidy T) && Store.tidyAll T ss
def Store.tidyAll (T : GoLib) : List Store → Bool
  | [] => true
  | s :: ss => Store.tidy T s && Store.tidyAll T ss
end

/-! ## Writing a store down -/

/-- A field whose value does not begin with an equals sign. -/
def plainValue (kv : List Char × List Char) : Bool :=
  kv.2.head? != some '='

mutual
/-- No field value of the store or of a store below it begins with an equals
sign. -/
def Store.plain : Store → Bool
  | .mk _ f ss => f.all plainValue && Store.plainAll ss
def Store.plainAll : List Store → Bool
  | [] => true
  | s :: ss => Store.plain s && Store.plainAll ss
end

mutual
/-- Every store of the tree lists each of its keys once. -/
def Tree.distinct : Tree → Bool
  | .node _ fs cs => decide ((fs.map Prod.fst).Nodup) && Tree.distinctAll cs
def Tree.distinctAll : List Tree → Bool
  | [] => true
  | t :: ts => Tree.distinct t && Tree.distinctAll ts
end

mutual
/-- The fields of every store of the tree are admissible and the names of the
stores below the root consist of identifier characters. -/
def Tree.fit (T : GoLib) : Tree → Bool
  | .node _ fs cs => fs.all (fieldOk T) && Tree.fitAll T cs
def Tree.fitAll (T : GoLib) : List Tree → Bool
  | [] => true
  | .node n fs cs :: ts => isName T n && (Tree.node n fs cs).fit T && Tree.fitAll T ts
end

mutual
/-- The tree that writes a store down with the fields of every store in the
order of its map. -/
def Store.tree : Store → Tree
  | .mk n f ss => .node n f (Store.trees ss)
def Store.trees : List Store → List Tree
  | [] => []
  | s :: ss => Store.tree s :: Store.trees ss
end

/-! ## Primitive operations of the lexer -/

@[simp] theorem next_nil (p : List Char) (w : Nat) (xs : List item) :
    (lexer.mk p [] w xs).next = (none, ⟨p, [], 0, xs⟩) := rfl

@[simp] theorem next_cons (p : List Char) (c : Char) (cs : List Char) (w : Nat)
    (xs : List item) :
    (lexer.mk p (c :: cs) w xs).next = (some c, ⟨p ++ [c], cs, 1, xs⟩) := rfl

@[simp] theorem backup_zero (p r : List Char) (xs : List item) :
    (lexer.mk p r 0 xs).backup = ⟨p, r, 0, xs⟩ := by
  simp [lexer.backup]

@[simp] theorem backup_one (p : List Char) (c : Char) (cs : List Char) (xs : List item) :
    (lexer.mk (p ++ [c]) cs 1 xs).backup = ⟨p, c :: cs, 1, xs⟩ := by
  simp [lexer.backup]

@[simp] theorem emit_mk (p r : List Char) (w : Nat) (xs : List item) (t : itemType) :
    (lexer.mk p r w xs).emit t = ⟨[], r, w, xs ++ [⟨t, p⟩]⟩ := rfl

@[simp] theorem ignore_mk (p r : List Char) (w : Nat) (xs : List item) :
    (lexer.mk p r w xs).ignore = ⟨[], r, w, xs⟩ := rfl

@[simp] theorem accept_nil (p : List Char) (w : Nat) (xs : List item) (v : List Char) :
    (lexer.mk p [] w xs).accept v = (false, ⟨p, [], 0, xs⟩) := by
  simp [lexer.accept, indexRuneFound, eof]

theorem accept_cons (p : List Char) (c : Char) (cs : List Char) (w : Nat) (xs : List item)
    (v : List Char) :
    (lexer.mk p (c :: cs) w xs).accept v =
      if v.contains c then (true, ⟨p ++ [c], cs, 1, xs⟩) else (false, ⟨p, c :: cs, 1, xs⟩) := by
  simp only [lexer.accept, next_cons, indexRuneFound, backup_one]

theorem lexMeta_nil (T : GoLib) (p : List Char) (w : Nat) (xs : List item) :
    lexMeta T ⟨p, [], w, xs⟩ = lexMetaLoop T ⟨p, [], 0, xs⟩ := by
  simp [lexMeta]

theorem lexMeta_cons (T : GoLib) (p : List Char) (c : Char) (cs : List Char) (w : Nat)
    (xs : List item) :
    lexMeta T ⟨p, c :: cs, w, xs⟩ =
      if c = '/' then lexMetaLoop T ⟨p ++ [c], cs, 1, xs⟩
      else lexMetaLoop T ⟨p, c :: cs, 1, xs⟩ := by
  simp only [lexMeta, accept_cons]
  by_cases h : c = '/'
  · subst h; simp
  · have : (['/'].contains c) = false := by simp [h]
    simp [this, h]

theorem lexMetaLoop_decreases (T : GoLib) (g : stateFn) (l l1 : lexer)
    (h : lexMetaLoop T l = (.state g, l1)) :
    stepsBound T g l1 < 5 * l.rest.length := by
  obtain ⟨p, r, w, xs⟩ := l
  cases r with
  | nil =>
    simp only [lexMetaLoop, lexer.errorf, next_nil, emit_mk] at h
    repeat' split at h
    all_goals simp_all [isAlphaNumeric, isLetter, isDigit]
  | cons c cs =>
    simp only [lexMetaLoop, lexer.errorf, next_cons, emit_mk] at h
    repeat' split at h
    all_goals simp only [Prod.mk.injEq, Next.state.injEq, reduceCtorEq, false_and] at h
    all_goals obtain ⟨rfl, rfl⟩ := h
    all_goals simp only [stepsBound, List.length_cons]
    all_goals omega

theorem call_decreases (T : GoLib) (f g : stateFn) (l l1 : lexer)
    (h : call T f l = (.state g, l1)) : stepsBound T g l1 < stepsBound T f l := by
  obtain ⟨p, r, w, xs⟩ := l
  cases f
  case lexMeta =>
    cases r with
    | nil =>
      rw [call, lexMeta_nil] at h
      have := lexMetaLoop_decreases T g _ l1 h
      simp at this
    | cons c cs =>
      rw [call, lexMeta_cons] at h
      split at h
      · have := lexMetaLoop_decreases T g _ l1 h
        simp only [stepsBound, List.length_cons] at this ⊢
        omega
      · have := lexMetaLoop_decreases T g _ l1 h
        simp only [stepsBound, List.length_cons] at this ⊢
        omega
  case lexMetaLoop =>
    have := lexMetaLoop_decreases T g _ l1 h
    simp only [stepsBound] at this ⊢
    omega
  all_goals cases r
  all_goals
    simp only [call, lexBlock, lexComment, lexKey, lexEqual, lexEqualLoop,
      lexVal, lexer.errorf, next_nil, next_cons, backup_zero, backup_one, emit_mk,
      ignore_mk] at h
  all_goals repeat' split at h
  all_goals simp only [Prod.mk.injEq, Next.state.injEq, reduceCtorEq, false_and] at h
  all_goals obtain ⟨rfl, rfl⟩ := h
  all_goals simp only [stepsBound, List.length_cons, List.length_nil, List.head?_cons, List.head?_nil]
  all_goals first
    | omega
    | (simp_all [eof, isSpace, isEndOfLine, isAlphaNumeric, isLetter, isDigit]; done)
    | (simp_all [eof, isSpace, isEndOfLine, isAlphaNumeric, isLetter, isDigit]; omega)
    | (split <;> simp_all [eof, isSpace, isEndOfLine, isAlphaNumeric, isLetter, isDigit] <;> omega)

theorem stepsBound_pos (T : GoLib) (f : stateFn) (l : lexer) : 0 < stepsBound T f l := by
  obtain ⟨p, r, w, xs⟩ := l
  cases f <;> cases r <;> simp [stepsBound, isAlphaNumeric, isLetter, isDigit]

theorem run_stable (T : GoLib) (n : Nat) :
    ∀ f l, stepsBound T f l ≤ n →
      ∃ sc, ∀ m, stepsBound T f l ≤ m → run T m f l = some sc := by
  induction n with
  | zero =>
    intro f l h
    have := stepsBound_pos T f l
    omega
  | succ n ih =>
    intro f l h
    rcases hc : call T f l with ⟨nx, l1⟩
    cases nx with
    | state g =>
      have hd := call_decreases T f g l l1 hc
      obtain ⟨sc, hsc⟩ := ih g l1 (by omega)
      refine ⟨sc, fun m hm => ?_⟩
      cases m with
      | zero => omega
      | succ m => simp only [run, hc]; exact hsc m (by omega)
    | done =>
      refine ⟨⟨l1.items, false⟩, fun m hm => ?_⟩
      have := stepsBound_pos T f l
      cases m with
      | zero => omega
      | succ m => simp only [run, hc]
    | panic =>
      refine ⟨⟨l1.items, true⟩, fun m hm => ?_⟩
      have := stepsBound_pos T f l
      cases m with
      | zero => omega
      | succ m => simp only [run, hc]

theorem run_eq_scan (T : GoLib) (f : stateFn) (l : lexer) (m : Nat)
    (h : stepsBound T f l ≤ m) : run T m f l = some (scan T f l) := by
  obtain ⟨sc, hsc⟩ := run_stable T _ f l le_rfl
  rw [hsc m h, scan, hsc _ le_rfl]
  rfl

theorem scan_eq (T : GoLib) (f : stateFn) (l : lexer) :
    scan T f l =
      match call T f l with
      | (.state g, l1) => scan T g l1
      | (.done, l1) => ⟨l1.items, false⟩
      | (.panic, l1) => ⟨l1.items, true⟩ := by
  have h1 := run_eq_scan T f l (stepsBound T f l + 1) (by omega)
  rw [run] at h1
  rcases hc : call T f l with ⟨nx, l1⟩
  rw [hc] at h1
  cases nx with
  | state g =>
    have hd := call_decreases T f g l l1 hc
    simp only at h1 ⊢
    rw [run_eq_scan T g l1 _ (by omega)] at h1
    exact (Option.some.inj h1).symm
  | done => simp only at h1 ⊢; exact (Option.some.inj h1).symm
  | panic => simp only at h1 ⊢; exact (Option.some.inj h1).symm

theorem lex_eq_scan (T : GoLib) (input : List Char) :
    lex T input = some (scan T .lexBlock ⟨[], input, 0, []⟩) := by
  apply run_eq_scan
  simp only [stepsBound]
  omega

/-! ## The scanner does not look at `width` before `next` sets it -/

theorem call_width (T : GoLib) (f : stateFn) (p r : List Char) (w : Nat) (xs : List item) :
    call T f ⟨p, r, w, xs⟩ = call T f ⟨p, r, 0, xs⟩ := by
  cases f <;> cases r <;>
    simp only [call, lexBlock, lexMeta, lexMetaLoop, lexComment, lexKey, lexEqual, lexEqualLoop,
      lexVal, lexer.errorf, next_nil, next_cons, accept_nil, accept_cons]

theorem scan_width (T : GoLib) (f : stateFn) (p r : List Char) (w : Nat) (xs : List item) :
    scan T f ⟨p, r, w, xs⟩ = scan T f ⟨p, r, 0, xs⟩ := by
  rw [scan_eq, call_width, ← scan_eq]

/-- One step of the scan, with the width of the next state forgotten. -/
theorem scan_step (T : GoLib) (f g : stateFn) (l : lexer) (p r : List Char) (w : Nat)
    (xs : List item) (h : call T f l = (.state g, ⟨p, r, w, xs⟩)) :
    scan T f l = scan T g ⟨p, r, 0, xs⟩ := by
  rw [scan_eq, h]
  exact scan_width T g p r w xs

theorem scan_done (T : GoLib) (f : stateFn) (l l1 : lexer)
    (h : call T f l = (.done, l1)) : scan T f l = ⟨l1.items, false⟩ := by
  rw [scan_eq, h]

/-! ## Character classes -/

theorem identChar_ascii (T : GoLib) (c : Char) (h : c.toNat < 128) :
    identChar T c = (c == '_' || c.isAlpha || c.isDigit) := by
  simp [identChar, isAlphaNumeric, isLetter, isDigit, T.letter_ascii c h, T.digit_ascii c h]

theorem identChar_ne (T : GoLib) (c x : Char) (hx : x.toNat < 128)
    (hx2 : (x == '_' || x.isAlpha || x.isDigit) = false) (h : identChar T c = true) : c ≠ x := by
  rintro rfl
  rw [identChar_ascii T c hx, hx2] at h
  exact Bool.false_ne_true h

theorem identChar_of_letter (T : GoLib) (c : Char) (h : T.IsLetter c = true) :
    identChar T c = true := by
  simp [identChar, isAlphaNumeric, isLetter, h]

theorem letter_ne (T : GoLib) (c x : Char) (hx : x.toNat < 128)
    (hx2 : (x == '_' || x.isAlpha || x.isDigit) = false) (h : T.IsLetter c = true) : c ≠ x :=
  identChar_ne T c x hx hx2 (identChar_of_letter T c h)

theorem identChar_not_space (T : GoLib) (c : Char) (h : identChar T c = true) :
    IsSpace c = false := by
  simp only [identChar, isAlphaNumeric, isLetter, isDigit, Bool.or_eq_true, beq_iff_eq,
    Option.some.injEq] at h
  rcases h with (h | h) | h
  · subst h; decide
  · exact T.letter_not_space c h
  · exact T.digit_not_space c h

/-! ## Single steps of the scan -/

theorem scan_block_nil (T : GoLib) (p : List Char) (w : Nat) (xs : List item) :
    scan T .lexBlock ⟨p, [], w, xs⟩ = ⟨xs ++ [⟨.itemEOF, p⟩], false⟩ := by
  rw [scan_done T .lexBlock _ ⟨[], [], 0, xs ++ [⟨.itemEOF, p⟩]⟩]
  simp [call, lexBlock, eof]

theorem scan_block_ws (T : GoLib) (p : List Char) (c : Char) (cs : List Char) (w : Nat)
    (xs : List item) (h : c = ' ' ∨ c = '\t' ∨ c = '\r' ∨ c = '\n') :
    scan T .lexBlock ⟨p, c :: cs, w, xs⟩ = scan T .lexBlock ⟨[], cs, 0, xs⟩ := by
  apply scan_step T .lexBlock .lexBlock _ _ _ 1
  rcases h with rfl | rfl | rfl | rfl <;> simp [call, lexBlock, eof, isSpace, isEndOfLine]

theorem scan_block_lt (T : GoLib) (p : List Char) (cs : List Char) (w : Nat)
    (xs : List item) :
    scan T .lexBlock ⟨p, '<' :: cs, w, xs⟩ = scan T .lexMeta ⟨p ++ ['<'], cs, 0, xs⟩ := by
  apply scan_step T .lexBlock .lexMeta _ _ _ 1
  simp [call, lexBlock, eof, isSpace, isEndOfLine]

theorem scan_block_hash (T : GoLib) (p : List Char) (cs : List Char) (w : Nat)
    (xs : List item) :
    scan T .lexBlock ⟨p, '#' :: cs, w, xs⟩ = scan T .lexComment ⟨p ++ ['#'], cs, 0, xs⟩ := by
  apply scan_step T .lexBlock .lexComment _ _ _ 1
  simp [call, lexBlock, eof, isSpace, isEndOfLine]

theorem scan_block_letter (T : GoLib) (p : List Char) (c : Char) (cs : List Char) (w : Nat)
    (xs : List item) (h : T.IsLetter c = true) :
    scan T .lexBlock ⟨p, c :: cs, w, xs⟩ = scan T .lexKey ⟨p, c :: cs, 0, xs⟩ := by
  apply scan_step T .lexBlock .lexKey _ _ _ 1
  have h1 := letter_ne T c ' ' (by decide) (by decide) h
  have h2 := letter_ne T c '\t' (by decide) (by decide) h
  have h3 := letter_ne T c '\r' (by decide) (by decide) h
  have h4 := letter_ne T c '\n' (by decide) (by decide) h
  have h5 := letter_ne T c '<' (by decide) (by decide) h
  have h6 := letter_ne T c '#' (by decide) (by decide) h
  simp [call, lexBlock, eof, isSpace, isEndOfLine, isLetter, h, h1, h2, h3, h4, h5, h6]

theorem scan_block_bad (T : GoLib) (p : List Char) (c : Char) (cs : List Char) (w : Nat)
    (xs : List item) (h1 : c ≠ ' ') (h2 : c ≠ '\t') (h3 : c ≠ '\r') (h4 : c ≠ '\n')
    (h5 : c ≠ '<') (h6 : c ≠ '#') (h : T.IsLetter c = false) :
    scan T .lexBlock ⟨p, c :: cs, w, xs⟩ =
      ⟨xs ++ [⟨.itemError, "unrecognized character in action: ".toList ++ fmtSharpU T (some c)⟩],
        false⟩ := by
  rw [scan_done T .lexBlock _ ⟨p ++ [c], cs, 1, xs ++ [⟨.itemError,
    "unrecognized character in action: ".toList ++ fmtSharpU T (some c)⟩]⟩]
  simp [call, lexBlock, eof, isSpace, isEndOfLine, isLetter, h, h1, h2, h3, h4, h5, h6,
    lexer.errorf]

theorem scan_comment_step (p : List Char) (T : GoLib) (c : Char) (cs : List Char) (w : Nat)
    (xs : List item) (h1 : c ≠ '\r') (h2 : c ≠ '\n') :
    scan T .lexComment ⟨p, c :: cs, w, xs⟩ = scan T .lexComment ⟨p ++ [c], cs, 0, xs⟩ := by
  apply scan_step T .lexComment .lexComment _ _ _ 1
  simp [call, lexComment, eof, isEndOfLine, h1, h2]

theorem scan_comment_eol (p : List Char) (T : GoLib) (c : Char) (cs : List Char) (w : Nat)
    (xs : List item) (h : c = '\r' ∨ c = '\n') :
    scan T .lexComment ⟨p, c :: cs, w, xs⟩ = scan T .lexBlock ⟨[], cs, 0, xs⟩ := by
  apply scan_step T .lexComment .lexBlock _ _ _ 1
  rcases h with rfl | rfl <;> simp [call, lexComment, eof, isEndOfLine]

theorem scan_comment_nil (p : List Char) (T : GoLib) (w : Nat) (xs : List item) :
    scan T .lexComment ⟨p, [], w, xs⟩ = scan T .lexBlock ⟨[], [], 0, xs⟩ := by
  apply scan_step T .lexComment .lexBlock _ _ _ 0
  simp [call, lexComment, eof, isEndOfLine]

theorem scan_key_step (T : GoLib) (p : List Char) (c : Char) (cs : List Char) (w : Nat)
    (xs : List item) (h : identChar T c = true) :
    scan T .lexKey ⟨p, c :: cs, w, xs⟩ = scan T .lexKey ⟨p ++ [c], cs, 0, xs⟩ := by
  apply scan_step T .lexKey .lexKey _ _ _ 1
  simp only [identChar] at h
  simp [call, lexKey, h]

theorem scan_key_stop (T : GoLib) (p : List Char) (c : Char) (cs : List Char) (w : Nat)
    (xs : List item) (h : identChar T c = false) :
    scan T .lexKey ⟨p, c :: cs, w, xs⟩ =
      scan T .lexEqual ⟨[], c :: cs, 0, xs ++ [⟨.itemKey, p⟩]⟩ := by
  apply scan_step T .lexKey .lexEqual _ _ _ 1
  simp only [identChar] at h
  simp [call, lexKey, h]

theorem scan_key_nil (T : GoLib) (p : List Char) (w : Nat) (xs : List item) :
    scan T .lexKey ⟨p, [], w, xs⟩ = scan T .lexEqual ⟨[], [], 0, xs ++ [⟨.itemKey, p⟩]⟩ := by
  apply scan_step T .lexKey .lexEqual _ _ _ 0
  simp [call, lexKey, isAlphaNumeric, isLetter, isDigit]

theorem scan_equal_entry (T : GoLib) (l : lexer) :
    scan T .lexEqual l = scan T (.lexEqualLoop 0) l := by
  rw [scan_eq, scan_eq T (.lexEqualLoop 0)]
  rfl

theorem scan_equal_eq (T : GoLib) (n : Nat) (p : List Char) (cs : List Char) (w : Nat)
    (xs : List item) :
    scan T (.lexEqualLoop n) ⟨p, '=' :: cs, w, xs⟩ =
      scan T (.lexEqualLoop (n + 1)) ⟨p ++ ['='], cs, 0, xs⟩ := by
  apply scan_step T _ _ _ _ _ 1
  simp [call, lexEqualLoop]

theorem scan_equal_ws (T : GoLib) (n : Nat) (p : List Char) (c : Char) (cs : List Char)
    (w : Nat) (xs : List item) (h : c = ' ' ∨ c = '\t') :
    scan T (.lexEqualLoop n) ⟨p, c :: cs, w, xs⟩ =
      scan T (.lexEqualLoop n) ⟨p ++ [c], cs, 0, xs⟩ := by
  apply scan_step T _ _ _ _ _ 1
  rcases h with rfl | rfl <;> simp [call, lexEqualLoop, isSpace]

theorem scan_equal_stop (T : GoLib) (p : List Char) (c : Char) (cs : List Char)
    (w : Nat) (xs : List item) (h1 : c ≠ '=') (h2 : c ≠ ' ') (h3 : c ≠ '\t') :
    scan T (.lexEqualLoop 1) ⟨p, c :: cs, w, xs⟩ =
      scan T .lexVal ⟨[], c :: cs, 0, xs ++ [⟨.itemEqual, p⟩]⟩ := by
  apply scan_step T _ _ _ _ _ 1
  simp [call, lexEqualLoop, isSpace, h1, h2, h3]

theorem scan_equal_stop_nil (T : GoLib) (p : List Char) (w : Nat) (xs : List item) :
    scan T (.lexEqualLoop 1) ⟨p, [], w, xs⟩ =
      scan T .lexVal ⟨[], [], 0, xs ++ [⟨.itemEqual, p⟩]⟩ := by
  apply scan_step T _ _ _ _ _ 0
  simp [call, lexEqualLoop, isSpace]

theorem scan_equal_bad (T : GoLib) (n : Nat) (p : List Char) (c : Char) (cs : List Char)
    (w : Nat) (xs : List item) (h1 : c ≠ '=') (h2 : c ≠ ' ') (h3 : c ≠ '\t') (hn : n ≠ 1) :
    scan T (.lexEqualLoop n) ⟨p, c :: cs, w, xs⟩ =
      ⟨xs ++ [⟨.itemError, "error equal symbol occurrence: ".toList ++ fmtD n⟩], false⟩ := by
  rw [scan_done T _ _ ⟨p, c :: cs, 1, xs ++ [⟨.itemError,
    "error equal symbol occurrence: ".toList ++ fmtD n⟩]⟩]
  simp [call, lexEqualLoop, isSpace, h1, h2, h3, hn, lexer.errorf]

theorem scan_equal_bad_nil (T : GoLib) (n : Nat) (p : List Char)
    (w : Nat) (xs : List item) (hn : n ≠ 1) :
    scan T (.lexEqualLoop n) ⟨p, [], w, xs⟩ =
      ⟨xs ++ [⟨.itemError, "error equal symbol occurrence: ".toList ++ fmtD n⟩], false⟩ := by
  rw [scan_done T _ _ ⟨p, [], 0, xs ++ [⟨.itemError,
    "error equal symbol occurrence: ".toList ++ fmtD n⟩]⟩]
  simp [call, lexEqualLoop, isSpace, hn, lexer.errorf]

theorem scan_val_step (T : GoLib) (p : List Char) (c : Char) (cs : List Char) (w : Nat)
    (xs : List item) (h1 : c ≠ '\r') (h2 : c ≠ '\n') :
    scan T .lexVal ⟨p, c :: cs, w, xs⟩ = scan T .lexVal ⟨p ++ [c], cs, 0, xs⟩ := by
  apply scan_step T .lexVal .lexVal _ _ _ 1
  simp [call, lexVal, eof, isEndOfLine, h1, h2]

theorem scan_val_eol (T : GoLib) (p : List Char) (c : Char) (cs : List Char) (w : Nat)
    (xs : List item) (h : c = '\r' ∨ c = '\n') :
    scan T .lexVal ⟨p, c :: cs, w, xs⟩ =
      scan T .lexBlock ⟨[], cs, 0, xs ++ [⟨.itemVal, p ++ [c]⟩]⟩ := by
  apply scan_step T .lexVal .lexBlock _ _ _ 1
  rcases h with rfl | rfl <;> simp [call, lexVal, eof, isEndOfLine]

theorem scan_val_nil (T : GoLib) (p : List Char) (w : Nat) (xs : List item) :
    scan T .lexVal ⟨p, [], w, xs⟩ = scan T .lexBlock ⟨[], [], 0, xs ++ [⟨.itemVal, p⟩]⟩ := by
  apply scan_step T .lexVal .lexBlock _ _ _ 0
  simp [call, lexVal, eof, isEndOfLine]

theorem scan_meta_nil (T : GoLib) (p : List Char) (w : Nat) (xs : List item) :
    scan T .lexMeta ⟨p, [], w, xs⟩ = scan T .lexMetaLoop ⟨p, [], 0, xs⟩ := by
  rw [scan_eq, scan_eq T .lexMetaLoop, call, call, lexMeta_nil]

theorem scan_meta_slash (T : GoLib) (p : List Char) (cs : List Char) (w : Nat)
    (xs : List item) :
    scan T .lexMeta ⟨p, '/' :: cs, w, xs⟩ = scan T .lexMetaLoop ⟨p ++ ['/'], cs, 0, xs⟩ := by
  rw [scan_eq, scan_eq T .lexMetaLoop, call, lexMeta_cons, if_pos rfl,
    ← call_width T .lexMetaLoop _ _ 1]
  rfl

theorem scan_meta_other (T : GoLib) (p : List Char) (c : Char) (cs : List Char) (w : Nat)
    (xs : List item) (h : c ≠ '/') :
    scan T .lexMeta ⟨p, c :: cs, w, xs⟩ = scan T .lexMetaLoop ⟨p, c :: cs, 0, xs⟩ := by
  rw [scan_eq, scan_eq T .lexMetaLoop, call, lexMeta_cons, if_neg h,
    ← call_width T .lexMetaLoop _ _ 1]
  rfl

theorem scan_metaLoop_step (T : GoLib) (p : List Char) (c : Char) (cs : List Char) (w : Nat)
    (xs : List item) (h : identChar T c = true) :
    scan T .lexMetaLoop ⟨p, c :: cs, w, xs⟩ = scan T .lexMetaLoop ⟨p ++ [c], cs, 0, xs⟩ := by
  apply scan_step T .lexMetaLoop .lexMetaLoop _ _ _ 1
  simp only [identChar] at h
  simp [call, lexMetaLoop, h]

theorem scan_metaLoop_bad (T : GoLib) (p : List Char) (c : Char) (cs : List Char) (w : Nat)
    (xs : List item) (h : identChar T c = false) (h1 : c ≠ '>') :
    scan T .lexMetaLoop ⟨p, c :: cs, w, xs⟩ =
      ⟨xs ++ [⟨.itemError, "unclosed meta tag ".toList ++ fmtSharpU T (some c)⟩], false⟩ := by
  rw [scan_done T _ _ ⟨p ++ [c], cs, 1, xs ++ [⟨.itemError,
    "unclosed meta tag ".toList ++ fmtSharpU T (some c)⟩]⟩]
  simp only [identChar] at h
  simp [call, lexMetaLoop, h, h1, lexer.errorf]

theorem scan_metaLoop_nil (T : GoLib) (p : List Char) (w : Nat) (xs : List item) :
    scan T .lexMetaLoop ⟨p, [], w, xs⟩ =
      ⟨xs ++ [⟨.itemError, "unclosed meta tag ".toList ++ fmtSharpU T none⟩], false⟩ := by
  rw [scan_done T _ _ ⟨p, [], 0, xs ++ [⟨.itemError,
    "unclosed meta tag ".toList ++ fmtSharpU T none⟩]⟩]
  simp [call, lexMetaLoop, lexer.errorf, isAlphaNumeric, isLetter, isDigit]

theorem identChar_gt (T : GoLib) : identChar T '>' = false := by
  rw [identChar_ascii T _ (by decide)]; decide

theorem scan_metaLoop_gt (T : GoLib) (p : List Char) (b : Char) (cs : List Char) (w : Nat)
    (xs : List item) (h : (p ++ '>' :: cs)[1]? = some b) :
    scan T .lexMetaLoop ⟨p, '>' :: cs, w, xs⟩ =
      scan T .lexBlock ⟨[], cs, 0,
        xs ++ [⟨if b = '/' then .itemRightMeta else .itemLeftMeta, p ++ ['>']⟩]⟩ := by
  apply scan_step T .lexMetaLoop .lexBlock _ _ _ 1
  have h0 := identChar_gt T
  simp only [identChar] at h0
  have h2 : (p ++ ['>'] ++ cs)[1]? = some b := by simpa using h
  simp only [call, lexMetaLoop, next_cons, h0, h2]
  by_cases hb : b = '/' <;> simp [hb]

/-! ## Runs of steps -/

theorem scan_comment_run (T : GoLib) (body : List Char)
    (hb : ∀ c ∈ body, c ≠ '\r' ∧ c ≠ '\n') :
    ∀ (p : List Char) (r : List Char) (w : Nat) (xs : List item),
      (∀ c ∈ r.head?, c = '\r' ∨ c = '\n') →
      scan T .lexComment ⟨p, body ++ r, w, xs⟩ = scan T .lexBlock ⟨[], r.tail, 0, xs⟩ := by
  induction body with
  | nil =>
    intro p r w xs hr
    cases r with
    | nil => exact scan_comment_nil p T w xs
    | cons c cs => exact scan_comment_eol p T c cs w xs (hr c (by simp))
  | cons c cs ih =>
    intro p r w xs hr
    have hc := hb c (by simp)
    rw [List.cons_append, scan_comment_step p T c _ w xs hc.1 hc.2]
    exact ih (fun d hd => hb d (by simp [hd])) _ r 0 xs hr

theorem scan_key_run (T : GoLib) (k : List Char) (hk : ∀ c ∈ k, identChar T c = true) :
    ∀ (p : List Char) (r : List Char) (w : Nat) (xs : List item),
      (∀ c ∈ r.head?, identChar T c = false) →
      scan T .lexKey ⟨p, k ++ r, w, xs⟩ =
        scan T .lexEqual ⟨[], r, 0, xs ++ [⟨.itemKey, p ++ k⟩]⟩ := by
  induction k with
  | nil =>
    intro p r w xs hr
    cases r with
    | nil => simpa using scan_key_nil T p w xs
    | cons c cs => simpa using scan_key_stop T p c cs w xs (hr c (by simp))
  | cons c cs ih =>
    intro p r w xs hr
    rw [List.cons_append, scan_key_step T p c _ w xs (hk c (by simp))]
    simpa using ih (fun d hd => hk d (by simp [hd])) (p ++ [c]) r 0 xs hr

theorem scan_val_run (T : GoLib) (v : List Char) (hv : ∀ c ∈ v, c ≠ '\r' ∧ c ≠ '\n') :
    ∀ (p : List Char) (r : List Char) (w : Nat) (xs : List item),
      (∀ c ∈ r.head?, c = '\r' ∨ c = '\n') →
      scan T .lexVal ⟨p, v ++ r, w, xs⟩ =
        scan T .lexBlock ⟨[], r.tail, 0, xs ++ [⟨.itemVal, p ++ v ++ r.head?.toList⟩]⟩ := by
  induction v with
  | nil =>
    intro p r w xs hr
    cases r with
    | nil => simpa using scan_val_nil T p w xs
    | cons c cs => simpa using scan_val_eol T p c cs w xs (hr c (by simp))
  | cons c cs ih =>
    intro p r w xs hr
    have hc := hv c (by simp)
    rw [List.cons_append, scan_val_step T p c _ w xs hc.1 hc.2]
    simpa using ih (fun d hd => hv d (by simp [hd])) (p ++ [c]) r 0 xs hr

theorem scan_metaLoop_run (T : GoLib) (n : List Char) (hn : ∀ c ∈ n, identChar T c = true) :
    ∀ (p : List Char) (r : List Char) (w : Nat) (xs : List item),
      scan T .lexMetaLoop ⟨p, n ++ r, w, xs⟩ = scan T .lexMetaLoop ⟨p ++ n, r, 0, xs⟩ := by
  induction n with
  | nil =>
    intro p r w xs
    simpa using scan_width T .lexMetaLoop p r w xs
  | cons c cs ih =>
    intro p r w xs
    rw [List.cons_append, scan_metaLoop_step T p c _ w xs (hn c (by simp))]
    simpa using ih (fun d hd => hn d (by simp [hd])) (p ++ [c]) r 0 xs

/-- The scan of a run of equals signs, blanks and tabs. -/
theorem scan_equal_run (T : GoLib) (ws : List Char)
    (hws : ∀ c ∈ ws, c = '=' ∨ c = ' ' ∨ c = '\t') :
    ∀ (n : Nat) (p : List Char) (r : List Char) (w : Nat) (xs : List item),
      (∀ c ∈ r.head?, c ≠ '=' ∧ c ≠ ' ' ∧ c ≠ '\t') →
      scan T (.lexEqualLoop n) ⟨p, ws ++ r, w, xs⟩ =
        if n + ws.count '=' = 1 then
          scan T .lexVal ⟨[], r, 0, xs ++ [⟨.itemEqual, p ++ ws⟩]⟩
        else
          ⟨xs ++ [⟨.itemError, "error equal symbol occurrence: ".toList ++
            fmtD (n + ws.count '=')⟩], false⟩ := by
  induction ws with
  | nil =>
    intro n p r w xs hr
    by_cases hn : n = 1
    · subst hn
      cases r with
      | nil => simpa using scan_equal_stop_nil T p w xs
      | cons c cs =>
        have := hr c (by simp)
        simpa using scan_equal_stop T p c cs w xs this.1 this.2.1 this.2.2
    · cases r with
      | nil => simpa [hn] using scan_equal_bad_nil T n p w xs hn
      | cons c cs =>
        have := hr c (by simp)
        simpa [hn] using scan_equal_bad T n p c cs w xs this.1 this.2.1 this.2.2 hn
  | cons c cs ih =>
    intro n p r w xs hr
    have ih2 := ih (fun d hd => hws d (by simp [hd]))
    rcases hws c (by simp) with rfl | hc
    · rw [List.cons_append, scan_equal_eq, ih2 (n + 1) _ r 0 xs hr]
      simp only [List.count_cons_self, List.append_assoc, List.singleton_append]
      have : n + 1 + List.count '=' cs = n + (List.count '=' cs + 1) := by omega
      rw [this]
    · have hne : c ≠ '=' := by rcases hc with rfl | rfl <;> decide
      rw [List.cons_append, scan_equal_ws T n p c _ w xs hc, ih2 n _ r 0 xs hr]
      simp [List.count_cons, hne, Ne.symm hne]

/-! ## The parser needs no more steps than there are tokens -/

theorem parse_stable (T : GoLib) (k : Nat) :
    ∀ (s : Store) (items : List item), items.length ≤ k →
      ∃ ret, (∀ m, items.length < m → parse T m s items = some ret) ∧
        (∀ s1 r, ret = .nil s1 r → r.length < items.length) := by
  induction k with
  | zero =>
    intro s items h
    have : items = [] := List.length_eq_zero.mp (by omega)
    subst this
    refine ⟨.error ("unexpected EOF for store: ".toList ++ fmtStorePtr s), ?_, ?_⟩
    · intro m hm
      cases m with
      | zero => simp at hm
      | succ m => rfl
    · intro s1 r h; cases h
  | succ k ih =>
    intro s items h
    cases items with
    | nil =>
      refine ⟨.error ("unexpected EOF for store: ".toList ++ fmtStorePtr s), ?_, ?_⟩
      · intro m hm
        cases m with
        | zero => simp at hm
        | succ m => rfl
      · intro s1 r h; cases h
    | cons i items =>
      simp only [List.length_cons, Nat.add_le_add_iff_right] at h
      obtain ⟨t, v⟩ := i
      cases t with
      | itemError =>
        refine ⟨.error (T.Errorf v), ?_, ?_⟩
        · intro m hm
          cases m with
          | zero => simp at hm
          | succ m => rfl
        · intro s1 r h; cases h
      | itemEOF =>
        refine ⟨.nil s items, ?_, ?_⟩
        · intro m hm
          cases m with
          | zero => simp at hm
          | succ m => rfl
        · intro s1 r h
          cases h
          simp
      | itemEqual =>
        obtain ⟨ret, h1, h2⟩ := ih s items h
        refine ⟨ret, ?_, ?_⟩
        · intro m hm
          cases m with
          | zero => simp at hm
          | succ m =>
            simp only [List.length_cons, Nat.add_lt_add_iff_right] at hm
            simp only [parse]
            exact h1 m hm
        · intro s1 r h
          have := h2 s1 r h
          simp only [List.length_cons]
          omega
      | itemVal =>
        obtain ⟨ret, h1, h2⟩ := ih s items h
        refine ⟨ret, ?_, ?_⟩
        · intro m hm
          cases m with
          | zero => simp at hm
          | succ m =>
            simp only [List.length_cons, Nat.add_lt_add_iff_right] at hm
            simp only [parse]
            exact h1 m hm
        · intro s1 r h
          have := h2 s1 r h
          simp only [List.length_cons]
          omega
      | itemRightMeta =>
        cases hsl : slice v 2 (v.length - 1) with
        | none =>
          refine ⟨.panic, ?_, ?_⟩
          · intro m hm
            cases m with
            | zero => simp at hm
            | succ m => simp only [parse, hsl]
          · intro s1 r h; cases h
        | some closeName =>
          by_cases hc : closeName = s.Name
          · refine ⟨.nil s items, ?_, ?_⟩
            · intro m hm
              cases m with
              | zero => simp at hm
              | succ m => simp [parse, hsl, hc]
            · intro s1 r h
              cases h
              simp
          · refine ⟨.error ("store ".toList ++ fmtStorePtr s ++ " closed with </".toList ++
              closeName ++ ['>']), ?_, ?_⟩
            · intro m hm
              cases m with
              | zero => simp at hm
              | succ m => simp [parse, hsl, hc]
            · intro s1 r h; cases h
      | itemLeftMeta =>
        cases hsl : slice v 1 (v.length - 1) with
        | none =>
          refine ⟨.panic, ?_, ?_⟩
          · intro m hm
            cases m with
            | zero => simp at hm
            | succ m => simp only [parse, hsl]
          · intro s1 r h; cases h
        | some name =>
          obtain ⟨ret1, h1, h2⟩ := ih (.mk name [] []) items h
          cases ret1 with
          | error msg =>
            refine ⟨.error msg, ?_, ?_⟩
            · intro m hm
              cases m with
              | zero => simp at hm
              | succ m =>
                simp only [List.length_cons, Nat.add_lt_add_iff_right] at hm
                simp only [parse, hsl, h1 m hm]
            · intro s1 r h; cases h
          | panic =>
            refine ⟨.panic, ?_, ?_⟩
            · intro m hm
              cases m with
              | zero => simp at hm
              | succ m =>
                simp only [List.length_cons, Nat.add_lt_add_iff_right] at hm
                simp only [parse, hsl, h1 m hm]
            · intro s1 r h; cases h
          | nil ss r =>
            have hr := h2 ss r rfl
            obtain ⟨ret2, h3, h4⟩ := ih (.mk s.Name s.Fields (s.Stores ++ [ss])) r (by omega)
            refine ⟨ret2, ?_, ?_⟩
            · intro m hm
              cases m with
              | zero => simp at hm
              | succ m =>
                simp only [List.length_cons, Nat.add_lt_add_iff_right] at hm
                simp only [parse, hsl, h1 m hm]
                exact h3 m (by omega)
            · intro s1 r1 h
              have := h4 s1 r1 h
              simp only [List.length_cons]
              omega
      | itemKey =>
        cases items with
        | nil =>
          refine ⟨.error ((item.mk .itemKey v).String ++ " not followed by eq, but by ".toList ++
            (item.mk .itemError []).String), ?_, ?_⟩
          · intro m hm
            cases m with
            | zero => simp at hm
            | succ m => simp [parse, recv]
          · intro s1 r h; cases h
        | cons e items =>
          by_cases he : e.typ = .itemEqual
          · cases items with
            | nil =>
              refine ⟨.error ((item.mk .itemKey v).String ++
                " not followed by a value, but by ".toList ++ (item.mk .itemError []).String),
                ?_, ?_⟩
              · intro m hm
                cases m with
                | zero => simp at hm
                | succ m => simp [parse, recv, he]
              · intro s1 r h; cases h
            | cons x items =>
              by_cases hx : x.typ = .itemVal
              · simp only [List.length_cons] at h
                obtain ⟨ret, h1, h2⟩ := ih (.mk s.Name
                  (setField (TrimSpace v) (TrimSpace x.val) s.Fields) s.Stores) items (by omega)
                refine ⟨ret, ?_, ?_⟩
                · intro m hm
                  cases m with
                  | zero => simp at hm
                  | succ m =>
                    simp only [List.length_cons] at hm
                    simp only [parse, recv, he, hx, ne_eq, not_true_eq_false, if_false]
                    exact h1 m (by omega)
                · intro s1 r h
                  have := h2 s1 r h
                  simp only [List.length_cons]
                  omega
              · refine ⟨.error ((item.mk .itemKey v).String ++
                  " not followed by a value, but by ".toList ++ x.String), ?_, ?_⟩
                · intro m hm
                  cases m with
                  | zero => simp at hm
                  | succ m => simp [parse, recv, he, hx]
                · intro s1 r h; cases h
          · refine ⟨.error ((item.mk .itemKey v).String ++ " not followed by eq, but by ".toList ++
              e.String), ?_, ?_⟩
            · intro m hm
              cases m with
              | zero => simp at hm
              | succ m => simp [parse, recv, he]
            · intro s1 r h; cases h

theorem parse_eq_parseAll (T : GoLib) (s : Store) (items : List item) (m : Nat)
    (h : items.length < m) : parse T m s items = parseAll T s items := by
  obtain ⟨ret, h1, _⟩ := parse_stable T items.length s items le_rfl
  rw [parseAll, h1 m h, h1 _ (Nat.lt_succ_self _)]

theorem parseAll_rest (T : GoLib) (s s1 : Store) (items r : List item)
    (h : parseAll T s items = some (.nil s1 r)) : r.length < items.length := by
  obtain ⟨ret, h1, h2⟩ := parse_stable T items.length s items le_rfl
  rw [parseAll, h1 _ (Nat.lt_succ_self _)] at h
  exact h2 s1 r (Option.some.inj h)

theorem parseAll_isSome (T : GoLib) (s : Store) (items : List item) :
    ∃ ret, parseAll T s items = some ret := by
  obtain ⟨ret, h1, _⟩ := parse_stable T items.length s items le_rfl
  exact ⟨ret, h1 _ (Nat.lt_succ_self _)⟩

/-- `Parse` in terms of the scan and of the parser, free of step bounds. -/
theorem Parse_eq (T : GoLib) (input : List Char) :
    Parse T input =
      if (scan T .lexBlock ⟨[], input, 0, []⟩).panicked then some .panic
      else
        match parseAll T newStore (scan T .lexBlock ⟨[], input, 0, []⟩).items with
        | none => none
        | some (.nil s _) => some (.ok s)
        | some (.error msg) => some (.error msg)
        | some .panic => some .panic := by
  rw [Parse, lex_eq_scan]
  rfl

/-! ## Unfolding the parser -/

theorem parseAll_nil (T : GoLib) (s : Store) :
    parseAll T s [] = some (.error ("unexpected EOF for store: ".toList ++ fmtStorePtr s)) :=
  rfl

theorem parseAll_error (T : GoLib) (s : Store) (v : List Char) (items : List item) :
    parseAll T s (⟨.itemError, v⟩ :: items) = some (.error (T.Errorf v)) :=
  rfl

theorem parseAll_eof (T : GoLib) (s : Store) (v : List Char) (items : List item) :
    parseAll T s (⟨.itemEOF, v⟩ :: items) = some (.nil s items) :=
  rfl

theorem parseAll_field (T : GoLib) (s : Store) (k e v : List Char) (items : List item) :
    parseAll T s (⟨.itemKey, k⟩ :: ⟨.itemEqual, e⟩ :: ⟨.itemVal, v⟩ :: items) =
      parseAll T (.mk s.Name (setField (TrimSpace k) (TrimSpace v) s.Fields) s.Stores) items := by
  rw [parseAll, parse]
  simp only [recv, ne_eq, not_true_eq_false, if_false]
  exact parse_eq_parseAll T _ items _ (by simp only [List.length_cons]; omega)

theorem parseAll_key_error (T : GoLib) (s : Store) (k e : List Char) (items : List item) :
    parseAll T s (⟨.itemKey, k⟩ :: ⟨.itemError, e⟩ :: items) =
      some (.error ("Key: ".toList ++ k ++ " not followed by eq, but by ".toList ++ e)) := by
  rw [parseAll, parse]
  simp [recv, item.String]

theorem parseAll_open (T : GoLib) (s : Store) (v name : List Char) (items : List item)
    (h : slice v 1 (v.length - 1) = some name) :
    parseAll T s (⟨.itemLeftMeta, v⟩ :: items) =
      match parseAll T (.mk name [] []) items with
      | none => none
      | some (.error msg) => some (.error msg)
      | some .panic => some .panic
      | some (.nil ss r) => parseAll T (.mk s.Name s.Fields (s.Stores ++ [ss])) r := by
  rw [parseAll, parse]
  simp only [h]
  rw [parse_eq_parseAll T _ items _ (by simp)]
  rcases hp : parseAll T (.mk name [] []) items with _ | ret
  · rfl
  · cases ret with
    | error msg => rfl
    | panic => rfl
    | nil ss r =>
      have := parseAll_rest T _ _ _ _ hp
      simp only
      exact parse_eq_parseAll T _ r _ (by simp; omega)

theorem parseAll_close (T : GoLib) (s : Store) (v closeName : List Char) (items : List item)
    (h : slice v 2 (v.length - 1) = some closeName) :
    parseAll T s (⟨.itemRightMeta, v⟩ :: items) =
      if closeName ≠ s.Name then
        some (.error ("store ".toList ++ fmtStorePtr s ++ " closed with </".toList ++
          closeName ++ ['>']))
      else some (.nil s items) := by
  rw [parseAll, parse]
  simp only [h]

/-! ## `TrimSpace` -/

theorem rdropWhile_append_all {α : Type} (p : α → Bool) (a b : List α)
    (h : ∀ c ∈ b, p c = true) : (a ++ b).rdropWhile p = a.rdropWhile p := by
  induction b using List.reverseRecOn with
  | nil => simp
  | append_singleton b x ih =>
    rw [← List.append_assoc, List.rdropWhile_concat_pos _ _ _ (h x (by simp))]
    exact ih (fun c hc => h c (by simp [hc]))

theorem dropWhile_all_append {α : Type} (p : α → Bool) (a b : List α)
    (h : ∀ c ∈ a, p c = true) : (a ++ b).dropWhile p = b.dropWhile p := by
  induction a with
  | nil => rfl
  | cons x a ih =>
    rw [List.cons_append, List.dropWhile_cons_of_pos (h x (by simp))]
    exact ih (fun c hc => h c (by simp [hc]))

theorem TrimSpace_append_right (a b : List Char) (h : ∀ c ∈ b, IsSpace c = true) :
    TrimSpace (a ++ b) = TrimSpace a := by
  induction a with
  | nil =>
    have : List.dropWhile IsSpace b = [] := List.dropWhile_eq_nil_iff.mpr h
    simp [TrimSpace, this]
  | cons x a ih =>
    by_cases hx : IsSpace x = true
    · simpa [TrimSpace, List.dropWhile_cons_of_pos hx] using ih
    · simp only [TrimSpace, List.cons_append, List.dropWhile_cons_of_neg hx]
      rw [← List.cons_append]
      exact rdropWhile_append_all _ _ _ h

theorem TrimSpace_append_left (a b : List Char) (h : ∀ c ∈ a, IsSpace c = true) :
    TrimSpace (a ++ b) = TrimSpace b := by
  simp only [TrimSpace, dropWhile_all_append _ a b h]

theorem TrimSpace_self (s : List Char) (h1 : ∀ c ∈ s.head?, IsSpace c = false)
    (h2 : ∀ c ∈ s.getLast?, IsSpace c = false) : TrimSpace s = s := by
  have e1 : s.dropWhile IsSpace = s := by
    cases s with
    | nil => rfl
    | cons x s =>
      have := h1 x (by simp)
      simp [List.dropWhile_cons, this]
  rw [TrimSpace, e1, List.rdropWhile_eq_self_iff]
  intro hl
  have := h2 (s.getLast hl) (by simp [List.getLast?_eq_getLast, hl])
  simp [this]

theorem TrimSpace_ident (T : GoLib) (s : List Char) (h : ∀ c ∈ s, identChar T c = true) :
    TrimSpace s = s := by
  apply TrimSpace_self
  · intro c hc
    exact identChar_not_space T c (h c (List.mem_of_mem_head? hc))
  · intro c hc
    exact identChar_not_space T c (h c (List.mem_of_mem_getLast? hc))

/-! ## Text without tokens -/

theorem scan_pieces (T : GoLib) (ps : List Piece) (hps : ps.all Piece.ok = true) :
    ∀ (r : List Char) (w : Nat) (xs : List item),
      scan T .lexBlock ⟨[], piecesText ps ++ r, w, xs⟩ = scan T .lexBlock ⟨[], r, 0, xs⟩ := by
  induction ps with
  | nil =>
    intro r w xs
    exact scan_width T .lexBlock [] r w xs
  | cons q ps ih =>
    intro r w xs
    simp only [List.all_cons, Bool.and_eq_true] at hps
    have ih2 := ih hps.2
    cases q with
    | blank c =>
      have hc : c = ' ' ∨ c = '\t' ∨ c = '\r' ∨ c = '\n' := by
        have := hps.1
        simp only [Piece.ok, spTab, eolChar, Bool.or_eq_true, beq_iff_eq] at this
        tauto
      have e1 : piecesText (.blank c :: ps) ++ r = c :: (piecesText ps ++ r) := by
        simp [piecesText, Piece.text]
      rw [e1, scan_block_ws T [] c _ w xs hc]
      exact ih2 r 0 xs
    | comment body e =>
      have hb : ∀ c ∈ body, c ≠ '\r' ∧ c ≠ '\n' := by
        have := hps.1
        simp only [Piece.ok, noEOL, eolChar, Bool.and_eq_true, List.all_eq_true,
          Bool.not_eq_true', Bool.or_eq_false_iff, beq_eq_false_iff_ne] at this
        exact fun c hc => this.1 c hc
      have he : e = '\r' ∨ e = '\n' := by
        have := hps.1
        simp only [Piece.ok, eolChar, Bool.and_eq_true, Bool.or_eq_true, beq_iff_eq] at this
        exact this.2
      have e1 : piecesText (.comment body e :: ps) ++ r =
          '#' :: (body ++ e :: (piecesText ps ++ r)) := by
        simp [piecesText, Piece.text]
      rw [e1, scan_block_hash, scan_comment_run T body hb _ (e :: (piecesText ps ++ r)) 0 xs
        (by simpa using he)]
      exact ih2 r 0 xs

theorem scan_lastComment (T : GoLib) (last : Option (List Char))
    (h : ∀ b ∈ last, noEOL b = true) (w : Nat) (xs : List item) :
    scan T .lexBlock ⟨[], lastComment last, w, xs⟩ = ⟨xs ++ [⟨.itemEOF, []⟩], false⟩ := by
  cases last with
  | none => exact scan_block_nil T [] w xs
  | some body =>
    have hb : ∀ c ∈ body, c ≠ '\r' ∧ c ≠ '\n' := by
      have := h body rfl
      simp only [noEOL, eolChar, List.all_eq_true,
        Bool.not_eq_true', Bool.or_eq_false_iff, beq_eq_false_iff_ne] at this
      exact this
    have := scan_comment_run T body hb ['#'] [] 0 xs (by simp)
    simp only [List.append_nil, List.tail_nil] at this
    rw [lastComment, scan_block_hash, List.nil_append, this]
    exact scan_block_nil T [] 0 xs

/-- C3: an input made only of blanks, tabs, carriage returns, line feeds and
comments (the last of which may be closed by the end of the input), the empty
input included, parses without error to the root store with empty name, no
field and no child. -/
theorem Parse_blank (T : GoLib) (ps : List Piece) (last : Option (List Char))
    (hps : ps.all Piece.ok = true) (hlast : ∀ b ∈ last, noEOL b = true) :
    Parse T (piecesText ps ++ lastComment last) = some (.ok (.mk [] [] [])) := by
  rw [Parse_eq, scan_pieces T ps hps, scan_lastComment T last hlast]
  rfl

theorem Parse_blank_witness :
    Parse asciiLib " # one\r\n\t\n#two".toList = some (.ok (.mk [] [] [])) :=
  Parse_blank asciiLib
    [.blank ' ', .comment " one".toList '\r', .blank '\n', .blank '\t', .blank '\n']
    (some "two".toList) (by decide) (by decide)

/-! ## Fields -/

theorem identChar_eq (T : GoLib) : identChar T '=' = false := by
  rw [identChar_ascii T _ (by decide)]; decide

theorem identChar_sp (T : GoLib) : identChar T ' ' = false := by
  rw [identChar_ascii T _ (by decide)]; decide

theorem identChar_tab (T : GoLib) : identChar T '\t' = false := by
  rw [identChar_ascii T _ (by decide)]; decide

theorem identChar_slash (T : GoLib) : identChar T '/' = false := by
  rw [identChar_ascii T _ (by decide)]; decide

theorem isKeyText_ident (T : GoLib) (k : List Char) (h : isKeyText T k = true) :
    ∀ c ∈ k, identChar T c = true := by
  cases k with
  | nil => simp [isKeyText] at h
  | cons c cs =>
    simp only [isKeyText, Bool.and_eq_true, List.all_eq_true] at h
    intro d hd
    rcases List.mem_cons.mp hd with rfl | hd
    · exact identChar_of_letter T d h.1
    · exact h.2 d hd

/-- From the Block state, a key is scanned up to the first character that is
not an identifier character. -/
theorem scan_key_block (T : GoLib) (k : List Char) (hk : isKeyText T k = true)
    (r : List Char) (hr : ∀ c ∈ r.head?, identChar T c = false) (w : Nat) (xs : List item) :
    scan T .lexBlock ⟨[], k ++ r, w, xs⟩ =
      scan T (.lexEqualLoop 0) ⟨[], r, 0, xs ++ [⟨.itemKey, k⟩]⟩ := by
  have hall := isKeyText_ident T k hk
  cases k with
  | nil => simp [isKeyText] at hk
  | cons c cs =>
    simp only [isKeyText, Bool.and_eq_true] at hk
    rw [List.cons_append, scan_block_letter T [] c _ w xs hk.1, ← List.cons_append,
      scan_key_run T (c :: cs) hall [] r 0 xs hr, scan_equal_entry]
    rfl

theorem scan_field (T : GoLib) (k w v : List Char) (hk : isKeyText T k = true)
    (hw : ∀ c ∈ w, c = '=' ∨ c = ' ' ∨ c = '\t') (hw1 : w.count '=' = 1)
    (hv : noEOL v = true) (hv1 : ∀ c ∈ v.head?, c ≠ '=' ∧ c ≠ ' ' ∧ c ≠ '\t')
    (r : List Char) (w0 : Nat) (xs : List item) :
    scan T .lexBlock ⟨[], k ++ (w ++ (v ++ '\n' :: r)), w0, xs⟩ =
      scan T .lexBlock ⟨[], r, 0,
        xs ++ [⟨.itemKey, k⟩, ⟨.itemEqual, w⟩, ⟨.itemVal, v ++ ['\n']⟩]⟩ := by
  have hb : ∀ c ∈ v, c ≠ '\r' ∧ c ≠ '\n' := by
    simpa only [noEOL, eolChar, List.all_eq_true,
      Bool.not_eq_true', Bool.or_eq_false_iff, beq_eq_false_iff_ne] using hv
  have hhead : ∀ c ∈ (w ++ (v ++ '\n' :: r)).head?, identChar T c = false := by
    cases w with
    | nil => simp at hw1
    | cons c cs =>
      intro d hd
      simp only [List.cons_append, List.head?_cons, Option.mem_def, Option.some.injEq] at hd
      subst hd
      rcases hw c (by simp) with rfl | rfl | rfl
      · exact identChar_eq T
      · exact identChar_sp T
      · exact identChar_tab T
  have hhead2 : ∀ c ∈ (v ++ '\n' :: r).head?, c ≠ '=' ∧ c ≠ ' ' ∧ c ≠ '\t' := by
    cases v with
    | nil =>
      intro d hd
      simp only [List.nil_append, List.head?_cons, Option.mem_def, Option.some.injEq] at hd
      subst hd
      decide
    | cons c cs =>
      intro d hd
      exact hv1 d (by simpa using hd)
  rw [scan_key_block T k hk _ hhead w0 xs, scan_equal_run T w hw 0 [] _ 0 _ hhead2,
    if_pos (by omega), scan_val_run T v hb [] ('\n' :: r) 0 _ (by simp)]
  simp

theorem spTab_IsSpace (c : Char) (h : spTab c = true) : IsSpace c = true := by
  simp only [spTab, Bool.or_eq_true, beq_iff_eq] at h
  rcases h with rfl | rfl <;> decide

theorem TrimSpace_value (v1 v2 : List Char) (h : ∀ c ∈ v1, spTab c = true) :
    TrimSpace (v2 ++ ['\n']) = TrimSpace (v1 ++ v2) := by
  rw [TrimSpace_append_right v2 ['\n'] (by simp; decide),
    TrimSpace_append_left v1 v2 (fun c hc => spTab_IsSpace c (h c hc))]

/-- C2: a line `key = value` with any blanks and tabs around the equals sign
parses to a root store without children whose only field maps the key to the
trimmed value, whatever the blanks and tabs are. -/
theorem Parse_field (T : GoLib) (k w1 w2 v : List Char) (hk : isKeyText T k = true)
    (h1 : w1.all spTab = true) (h2 : w2.all spTab = true) (hv : noEOL v = true)
    (hv1 : (v.dropWhile spTab).head? ≠ some '=') :
    Parse T (k ++ w1 ++ ['='] ++ w2 ++ v ++ ['\n']) =
      some (.ok (.mk [] [(k, TrimSpace v)] [])) := by
  have hsplit : v = v.takeWhile spTab ++ v.dropWhile spTab := (List.takeWhile_append_dropWhile _ _).symm
  have e1 : k ++ w1 ++ ['='] ++ w2 ++ v ++ ['\n'] =
      k ++ ((w1 ++ '=' :: (w2 ++ v.takeWhile spTab)) ++ (v.dropWhile spTab ++ '\n' :: [])) := by
    have h3 : List.takeWhile spTab v ++ (List.dropWhile spTab v ++ ['\n']) = v ++ ['\n'] := by
      rw [← List.append_assoc, List.takeWhile_append_dropWhile]
    simp [h3]
  have hsp : ∀ (l : List Char), l.all spTab = true → ∀ c ∈ l, c = '=' ∨ c = ' ' ∨ c = '\t' := by
    intro l hl c hc
    have := List.all_eq_true.mp hl c hc
    simp only [spTab, Bool.or_eq_true, beq_iff_eq] at this
    tauto
  have hne : ∀ (l : List Char), l.all spTab = true → l.count '=' = 0 := by
    intro l hl
    rw [List.count_eq_zero]
    intro hc
    have := List.all_eq_true.mp hl _ hc
    simp [spTab] at this
  have htw : (v.takeWhile spTab).all spTab = true := by
    rw [List.all_eq_true]
    intro c hc
    exact List.mem_takeWhile_imp hc
  have hw : ∀ c ∈ w1 ++ '=' :: (w2 ++ v.takeWhile spTab), c = '=' ∨ c = ' ' ∨ c = '\t' := by
    intro c hc
    simp only [List.mem_append, List.mem_cons] at hc
    rcases hc with hc | rfl | hc | hc
    · exact hsp w1 h1 c hc
    · exact Or.inl rfl
    · exact hsp w2 h2 c hc
    · exact hsp _ htw c hc
  have hw1 : (w1 ++ '=' :: (w2 ++ v.takeWhile spTab)).count '=' = 1 := by
    simp [List.count_append, List.count_cons, hne w1 h1, hne w2 h2, hne _ htw]
  have hdv : noEOL (v.dropWhile spTab) = true := by
    simp only [noEOL, List.all_eq_true] at hv ⊢
    intro c hc
    exact hv c ((List.dropWhile_suffix _).subset hc)
  have hd1 : ∀ c ∈ (v.dropWhile spTab).head?, c ≠ '=' ∧ c ≠ ' ' ∧ c ≠ '\t' := by
    intro c hc
    have hc2 : (v.dropWhile spTab).head? = some c := hc
    refine ⟨?_, ?_⟩
    · rintro rfl; exact hv1 hc2
    · have := List.head?_dropWhile_not spTab v
      rw [hc2] at this
      simp only [Option.all_some, spTab, Bool.not_eq_true', Bool.or_eq_false_iff,
        beq_eq_false_iff_ne] at this
      simpa using this
  rw [Parse_eq, e1, scan_field T k _ _ hk hw hw1 hdv hd1 [] 0 [], scan_block_nil]
  simp only [List.nil_append, List.cons_append, Bool.false_eq_true, if_false]
  rw [parseAll_field, parseAll_eof]
  simp only [newStore, Store.Name, Store.Fields, Store.Stores, setField]
  rw [TrimSpace_ident T k (isKeyText_ident T k hk),
    TrimSpace_value (v.takeWhile spTab) (v.dropWhile spTab)
      (fun c hc => List.all_eq_true.mp htw c hc), ← hsplit]

theorem Parse_field_witness :
    Parse asciiLib "max_size \t= \t 30 000 \n".toList =
      some (.ok (.mk [] [("max_size".toList, "30 000".toList)] [])) :=
  Parse_field asciiLib "max_size".toList " \t".toList " \t".toList " 30 000 ".toList
    (by decide) (by decide) (by decide) (by decide) (by decide)

theorem scan_fieldLine (T : GoLib) (k v : List Char) (hk : isKeyText T k = true)
    (hv : noEOL v = true) (hv1 : plainStart v = true)
    (r : List Char) (w0 : Nat) (xs : List item) :
    scan T .lexBlock ⟨[], fieldLine (k, v) ++ r, w0, xs⟩ =
      scan T .lexBlock ⟨[], r, 0,
        xs ++ [⟨.itemKey, k⟩, ⟨.itemEqual, ['=']⟩, ⟨.itemVal, v ++ ['\n']⟩]⟩ := by
  have h1 : ∀ c ∈ v.head?, c ≠ '=' ∧ c ≠ ' ' ∧ c ≠ '\t' := by
    intro c hc
    have hc2 : v.head? = some c := hc
    simp only [plainStart, hc2, Bool.and_eq_true, bne_iff_ne] at hv1
    tauto
  have := scan_field T k ['='] v hk (by simp) (by simp) hv h1 r w0 xs
  simpa [fieldLine] using this

/-- C5: when a key is given twice, the second value is the one the store
keeps, and there is no error. -/
theorem Parse_repeated_key (T : GoLib) (k v1 v2 : List Char) (hk : isKeyText T k = true)
    (h1 : noEOL v1 = true) (h1s : plainStart v1 = true)
    (h2 : noEOL v2 = true) (h2s : plainStart v2 = true) :
    Parse T (k ++ ['='] ++ v1 ++ ['\n'] ++ k ++ ['='] ++ v2 ++ ['\n']) =
      some (.ok (.mk [] [(k, TrimSpace v2)] [])) := by
  have e1 : k ++ ['='] ++ v1 ++ ['\n'] ++ k ++ ['='] ++ v2 ++ ['\n'] =
      fieldLine (k, v1) ++ (fieldLine (k, v2) ++ []) := by
    simp [fieldLine]
  rw [Parse_eq, e1, scan_fieldLine T k v1 hk h1 h1s, scan_fieldLine T k v2 hk h2 h2s,
    scan_block_nil]
  simp only [List.nil_append, List.cons_append, Bool.false_eq_true, if_false]
  rw [parseAll_field, parseAll_field, parseAll_eof]
  simp only [newStore, Store.Name, Store.Fields, Store.Stores, setField, if_true]
  rw [TrimSpace_ident T k (isKeyText_ident T k hk),
    TrimSpace_append_right v2 ['\n'] (by simp; decide)]

theorem Parse_repeated_key_witness :
    Parse asciiLib "a=1\na=2\n".toList = some (.ok (.mk [] [("a".toList, "2".toList)] [])) :=
  Parse_repeated_key asciiLib "a".toList "1".toList "2".toList
    (by decide) (by decide) (by decide) (by decide) (by decide)

/-! ## Tags -/

theorem isName_ident (T : GoLib) (n : List Char) (h : isName T n = true) :
    ∀ c ∈ n, identChar T c = true := by
  simpa only [isName, List.all_eq_true] using h

theorem scan_open_tag (T : GoLib) (n : List Char) (hn : isName T n = true)
    (r : List Char) (w : Nat) (xs : List item) :
    scan T .lexBlock ⟨[], '<' :: (n ++ '>' :: r), w, xs⟩ =
      scan T .lexBlock ⟨[], r, 0, xs ++ [⟨.itemLeftMeta, '<' :: (n ++ ['>'])⟩]⟩ := by
  have hid := isName_ident T n hn
  obtain ⟨b, t, hb, hne⟩ : ∃ b t, n ++ '>' :: r = b :: t ∧ b ≠ '/' := by
    cases n with
    | nil => exact ⟨'>', r, rfl, by decide⟩
    | cons c cs =>
      refine ⟨c, cs ++ '>' :: r, rfl, ?_⟩
      rintro rfl
      have := hid '/' (by simp)
      rw [identChar_slash] at this
      exact Bool.false_ne_true this
  have h1 : (('<' :: n) ++ '>' :: r)[1]? = some b := by
    rw [List.cons_append, hb]; simp
  rw [scan_block_lt, hb, scan_meta_other T _ b t 0 xs hne, ← hb,
    scan_metaLoop_run T n hid _ ('>' :: r) 0 xs]
  have := scan_metaLoop_gt T ('<' :: n) b r 0 xs h1
  simpa [hne] using this

theorem scan_close_tag (T : GoLib) (n : List Char) (hn : isName T n = true)
    (r : List Char) (w : Nat) (xs : List item) :
    scan T .lexBlock ⟨[], '<' :: '/' :: (n ++ '>' :: r), w, xs⟩ =
      scan T .lexBlock ⟨[], r, 0, xs ++ [⟨.itemRightMeta, '<' :: '/' :: (n ++ ['>'])⟩]⟩ := by
  have hid := isName_ident T n hn
  rw [scan_block_lt, scan_meta_slash, scan_metaLoop_run T n hid _ ('>' :: r) 0 xs]
  have := scan_metaLoop_gt T ('<' :: '/' :: n) '/' r 0 xs (by simp)
  simpa using this

theorem slice_open (n : List Char) :
    slice ('<' :: (n ++ ['>'])) 1 ((('<' :: (n ++ ['>'])).length : Int) - 1) = some n := by
  have h : ((('<' :: (n ++ ['>'])).length : Int) - 1) = ((n.length + 1 : Nat) : Int) := by
    simp
  rw [h, slice, if_pos]
  · simp only [Int.toNat_ofNat]
    have : List.take (n.length + 1) ('<' :: (n ++ ['>'])) = '<' :: n := by
      simp [List.take_append_eq_append_take]
    rw [this]
    simp
  · simp only [List.length_cons, List.length_append, List.length_nil]
    omega

theorem slice_close (n : List Char) :
    slice ('<' :: '/' :: (n ++ ['>'])) 2 ((('<' :: '/' :: (n ++ ['>'])).length : Int) - 1) =
      some n := by
  have h : ((('<' :: '/' :: (n ++ ['>'])).length : Int) - 1) = ((n.length + 2 : Nat) : Int) := by
    simp
    omega
  rw [h, slice, if_pos]
  · simp only [Int.toNat_ofNat]
    have : List.take (n.length + 2) ('<' :: '/' :: (n ++ ['>'])) = '<' :: '/' :: n := by
      simp [List.take_append_eq_append_take]
    rw [this]
    simp
  · simp only [List.length_cons, List.length_append, List.length_nil]
    omega

/-! ## The canonical rendering of a tree -/

theorem plainStart_of_clean (v : List Char) (h : cleanValue v = true) : plainStart v = true := by
  cases v with
  | nil => rfl
  | cons c cs =>
    simp only [cleanValue, List.head?_cons, Bool.and_eq_true, Bool.not_eq_true',
      bne_iff_ne] at h
    simp only [plainStart, List.head?_cons, Bool.and_eq_true, bne_iff_ne]
    refine ⟨⟨?_, ?_⟩, h.1.2⟩
    · rintro rfl; exact absurd h.1.1 (by decide)
    · rintro rfl; exact absurd h.1.1 (by decide)

theorem TrimSpace_clean (v : List Char) (h : cleanValue v = true) :
    TrimSpace (v ++ ['\n']) = v := by
  rw [TrimSpace_append_right v ['\n'] (by simp; decide)]
  simp only [cleanValue, Bool.and_eq_true] at h
  apply TrimSpace_self
  · intro c hc
    have hc2 : v.head? = some c := hc
    have := h.1
    simp only [hc2, Bool.and_eq_true, Bool.not_eq_true'] at this
    exact this.1
  · intro c hc
    have hc2 : v.getLast? = some c := hc
    have := h.2
    simp only [hc2, Bool.not_eq_true'] at this
    exact this

theorem scan_fieldsText (T : GoLib) (fs : List (List Char × List Char))
    (h : fs.all (fieldOk T) = true) :
    ∀ (r : List Char) (w : Nat) (xs : List item),
      scan T .lexBlock ⟨[], fieldsText fs ++ r, w, xs⟩ =
        scan T .lexBlock ⟨[], r, 0, xs ++ fieldsToks fs⟩ := by
  induction fs with
  | nil =>
    intro r w xs
    simpa [fieldsText, fieldsToks] using scan_width T .lexBlock [] r w xs
  | cons kv fs ih =>
    intro r w xs
    simp only [List.all_cons, Bool.and_eq_true] at h
    obtain ⟨k, v⟩ := kv
    have hf := h.1
    simp only [fieldOk, Bool.and_eq_true] at hf
    have e1 : fieldsText ((k, v) :: fs) ++ r = fieldLine (k, v) ++ (fieldsText fs ++ r) := by
      simp [fieldsText]
    rw [e1, scan_fieldLine T k v hf.1.1 hf.1.2 (plainStart_of_clean v hf.2), ih h.2]
    simp [fieldsToks, fieldToks]

mutual
theorem scan_render (T : GoLib) : ∀ (t : Tree), t.ok T = true →
    ∀ (r : List Char) (w : Nat) (xs : List item),
      scan T .lexBlock ⟨[], t.render ++ r, w, xs⟩ = scan T .lexBlock ⟨[], r, 0, xs ++ t.toks⟩
  | .node n fs cs, h, r, w, xs => by
    simp only [Tree.ok, Bool.and_eq_true] at h
    rw [Tree.render, List.append_assoc, scan_fieldsText T fs h.1.1,
      scan_renderAll T cs h.2 r 0 _, Tree.toks, List.append_assoc]
theorem scan_renderAll (T : GoLib) : ∀ (ts : List Tree), Tree.allOk T ts = true →
    ∀ (r : List Char) (w : Nat) (xs : List item),
      scan T .lexBlock ⟨[], Tree.renderAll ts ++ r, w, xs⟩ =
        scan T .lexBlock ⟨[], r, 0, xs ++ Tree.toksAll ts⟩
  | [], _, r, w, xs => by
    simpa [Tree.renderAll, Tree.toksAll] using scan_width T .lexBlock [] r w xs
  | .node n fs cs :: ts, h, r, w, xs => by
    simp only [Tree.allOk, Bool.and_eq_true] at h
    have hn := h.1.1.2
    have e1 : Tree.renderAll (.node n fs cs :: ts) ++ r =
        '<' :: (n ++ '>' :: ('\n' :: ((Tree.node n fs cs).render ++
          ('<' :: '/' :: (n ++ '>' :: ('\n' :: (Tree.renderAll ts ++ r))))))) := by
      simp [Tree.renderAll]
    rw [e1, scan_open_tag T n hn, scan_block_ws T [] '\n' _ 0 _ (by simp),
      scan_render T (.node n fs cs) h.1.2, scan_close_tag T n hn,
      scan_block_ws T [] '\n' _ 0 _ (by simp), scan_renderAll T ts h.2 r 0 _]
    simp [Tree.toksAll]
end

theorem parse_fieldsToks (T : GoLib) (fs : List (List Char × List Char))
    (h : fs.all (fieldOk T) = true) :
    ∀ (n : List Char) (m : List (List Char × List Char)) (ss : List Store) (tail : List item),
      parseAll T (.mk n m ss) (fieldsToks fs ++ tail) =
        parseAll T (.mk n (fs.foldl (fun m kv => setField kv.1 kv.2 m) m) ss) tail := by
  induction fs with
  | nil =>
    intro n m ss tail
    rfl
  | cons kv fs ih =>
    intro n m ss tail
    simp only [List.all_cons, Bool.and_eq_true] at h
    obtain ⟨k, v⟩ := kv
    have hf := h.1
    simp only [fieldOk, Bool.and_eq_true] at hf
    have e1 : fieldsToks ((k, v) :: fs) ++ tail =
        ⟨.itemKey, k⟩ :: ⟨.itemEqual, ['=']⟩ :: ⟨.itemVal, v ++ ['\n']⟩ ::
          (fieldsToks fs ++ tail) := by
      simp [fieldsToks, fieldToks]
    rw [e1, parseAll_field, TrimSpace_ident T k (isKeyText_ident T k hf.1.1),
      TrimSpace_clean v hf.2]
    exact ih h.2 n _ ss tail

mutual
theorem parse_toks (T : GoLib) : ∀ (t : Tree), t.ok T = true →
    ∀ (nm : List Char) (ss : List Store) (tail : List item),
      parseAll T (.mk nm [] ss) (t.toks ++ tail) =
        parseAll T (.mk nm t.toStore.Fields (ss ++ t.toStore.Stores)) tail
  | .node n fs cs, h, nm, ss, tail => by
    simp only [Tree.ok, Bool.and_eq_true] at h
    rw [Tree.toks, List.append_assoc, parse_fieldsToks T fs h.1.1,
      parse_toksAll T cs h.2]
    rfl
theorem parse_toksAll (T : GoLib) : ∀ (ts : List Tree), Tree.allOk T ts = true →
    ∀ (nm : List Char) (m : List (List Char × List Char)) (ss : List Store)
      (tail : List item),
      parseAll T (.mk nm m ss) (Tree.toksAll ts ++ tail) =
        parseAll T (.mk nm m (ss ++ Tree.toStores ts)) tail
  | [], _, nm, m, ss, tail => by
    simp [Tree.toksAll, Tree.toStores]
  | .node n fs cs :: ts, h, nm, m, ss, tail => by
    simp only [Tree.allOk, Bool.and_eq_true] at h
    have e1 : Tree.toksAll (.node n fs cs :: ts) ++ tail =
        ⟨.itemLeftMeta, '<' :: (n ++ ['>'])⟩ :: ((Tree.node n fs cs).toks ++
          (⟨.itemRightMeta, '<' :: '/' :: (n ++ ['>'])⟩ :: (Tree.toksAll ts ++ tail))) := by
      simp [Tree.toksAll]
    rw [e1, parseAll_open T _ _ n _ (slice_open n), parse_toks T (.node n fs cs) h.1.2,
      parseAll_close T _ _ n _ (slice_close n)]
    simp only [Store.Name, ne_eq, not_true_eq_false, if_false, Store.Fields, Store.Stores]
    rw [parse_toksAll T ts h.2]
    simp [Tree.toStores, Tree.toStore, Store.Fields, Store.Stores]
end

/-- C1: `Parse` inverts the canonical rendering.  For a tree whose root has
the empty name, whose fields have distinct keys (a letter followed by
identifier characters) and values without line end, without white space at
either end and not beginning with an equals sign, and whose other stores have
non-empty names of identifier characters, parsing the rendering gives no error
and exactly the store the tree describes. -/
theorem Parse_render (T : GoLib) (t : Tree) (hroot : t.name = []) (h : t.ok T = true) :
    Parse T t.render = some (.ok t.toStore) := by
  have hs := scan_render T t h [] 0 []
  rw [List.append_nil, scan_block_nil] at hs
  rw [Parse_eq, hs]
  simp only [List.nil_append, Bool.false_eq_true, if_false, newStore]
  rw [parse_toks T t h, parseAll_eof]
  obtain ⟨n, fs, cs⟩ := t
  simp only [Tree.name] at hroot
  subst hroot
  simp [Tree.toStore, Store.Fields, Store.Stores]

theorem Parse_render_witness :
    Parse asciiLib "port=1463\n<store>\ncategory=ignore*\ntype=null\n</store>\n".toList =
      some (.ok (.mk [] [("port".toList, "1463".toList)]
        [.mk "store".toList
          [("category".toList, "ignore*".toList), ("type".toList, "null".toList)] []])) :=
  Parse_render asciiLib
    (.node [] [("port".toList, "1463".toList)]
      [.node "store".toList
        [("category".toList, "ignore*".toList), ("type".toList, "null".toList)] []])
    rfl (by decide)

/-! ## The map a list of fields builds -/

theorem setField_perm (k v : List Char) (m : List (List Char × List Char))
    (h : k ∉ m.map Prod.fst) : (setField k v m).Perm ((k, v) :: m) := by
  induction m with
  | nil => exact List.Perm.refl _
  | cons kv m ih =>
    obtain ⟨k1, v1⟩ := kv
    simp only [List.map_cons, List.mem_cons, not_or] at h
    simp only [setField, if_neg h.1]
    split
    · exact List.Perm.refl _
    · exact ((ih h.2).cons (k1, v1)).trans (List.Perm.swap _ _ _)

theorem foldl_setField_perm (fs : List (List Char × List Char)) :
    ∀ m : List (List Char × List Char), ((m ++ fs).map Prod.fst).Nodup →
      (fs.foldl (fun m kv => setField kv.1 kv.2 m) m).Perm (m ++ fs) := by
  induction fs with
  | nil => intro m _; simp
  | cons kv fs ih =>
    intro m h
    have hk : kv.1 ∉ m.map Prod.fst := by
      simp only [List.map_append, List.map_cons] at h
      have := (List.nodup_append.mp h).2.2
      intro hm
      exact this hm (List.mem_cons_self _ _)
    have hp := setField_perm kv.1 kv.2 m hk
    have hnd : ((setField kv.1 kv.2 m ++ fs).map Prod.fst).Nodup := by
      have hp2 : ((setField kv.1 kv.2 m ++ fs).map Prod.fst).Perm ((m ++ kv :: fs).map Prod.fst) :=
        List.Perm.map _ ((hp.append_right fs).trans (by
          simpa using (@List.perm_middle _ kv m fs).symm))
      exact hp2.nodup_iff.mpr h
    refine (ih _ hnd).trans ((hp.append_right fs).trans ?_)
    simpa using (@List.perm_middle _ kv m fs).symm

/-- With distinct keys, the map built from a list of fields holds exactly
these fields. -/
theorem mapOf_perm (fs : List (List Char × List Char)) (h : (fs.map Prod.fst).Nodup) :
    (mapOf fs).Perm fs := by
  simpa [mapOf] using foldl_setField_perm fs [] (by simpa using h)

/-! ## Empty blocks -/

theorem blocksText_eq (ns : List (List Char)) :
    blocksText ns = Tree.renderAll (ns.map fun n => .node n [] []) := by
  induction ns with
  | nil => rfl
  | cons n ns ih =>
    simp only [blocksText, List.map_cons, List.flatten_cons] at ih ⊢
    rw [ih]
    simp [Tree.renderAll, Tree.render, fieldsText]

theorem toStores_leaves (ns : List (List Char)) :
    Tree.toStores (ns.map fun n => .node n [] []) = ns.map fun n => .mk n [] [] := by
  induction ns with
  | nil => rfl
  | cons n ns ih =>
    simp only [List.map_cons, Tree.toStores, ih]
    rfl

theorem allOk_leaves (T : GoLib) (ns : List (List Char))
    (h : ns.all (fun n => !n.isEmpty && isName T n) = true) :
    Tree.allOk T (ns.map fun n => .node n [] []) = true := by
  induction ns with
  | nil => rfl
  | cons n ns ih =>
    simp only [List.all_cons, Bool.and_eq_true] at h
    simp only [List.map_cons, Tree.allOk, Tree.ok, Bool.and_eq_true]
    exact ⟨⟨h.1, by simp⟩, ih h.2⟩

/-- C4: a sequence of empty blocks with non-empty names of identifier
characters parses without error to a root store that has one child per block,
in the order of the text, the i-th child bearing the i-th name and holding
neither fields nor children. -/
theorem Parse_blocks (T : GoLib) (ns : List (List Char))
    (h : ns.all (fun n => !n.isEmpty && isName T n) = true) :
    Parse T (blocksText ns) = some (.ok (.mk [] [] (ns.map fun n => .mk n [] []))) := by
  have hs := scan_renderAll T _ (allOk_leaves T ns h) [] 0 []
  rw [List.append_nil, scan_block_nil, ← blocksText_eq] at hs
  rw [Parse_eq, hs]
  simp only [List.nil_append, Bool.false_eq_true, if_false, newStore]
  rw [parse_toksAll T _ (allOk_leaves T ns h), parseAll_eof, toStores_leaves]
  rfl

theorem Parse_blocks_witness :
    Parse asciiLib "<primary>\n</primary>\n<secondary>\n</secondary>\n".toList =
      some (.ok (.mk [] [] [.mk "primary".toList [] [], .mk "secondary".toList [] []])) :=
  Parse_blocks asciiLib ["primary".toList, "secondary".toList] (by decide)

/-! ## Blocks left open -/

theorem scan_lines (T : GoLib) (fs : List (List Char × List Char))
    (h : fs.all (lineOk T) = true) :
    ∀ (r : List Char) (w : Nat) (xs : List item),
      scan T .lexBlock ⟨[], fieldsText fs ++ r, w, xs⟩ =
        scan T .lexBlock ⟨[], r, 0, xs ++ fieldsToks fs⟩ := by
  induction fs with
  | nil =>
    intro r w xs
    simpa [fieldsText, fieldsToks] using scan_width T .lexBlock [] r w xs
  | cons kv fs ih =>
    intro r w xs
    simp only [List.all_cons, Bool.and_eq_true] at h
    obtain ⟨k, v⟩ := kv
    have hf := h.1
    simp only [lineOk, Bool.and_eq_true] at hf
    have e1 : fieldsText ((k, v) :: fs) ++ r = fieldLine (k, v) ++ (fieldsText fs ++ r) := by
      simp [fieldsText]
    rw [e1, scan_fieldLine T k v hf.1.1 hf.1.2 hf.2, ih h.2]
    simp [fieldsToks, fieldToks]

theorem scan_opens (T : GoLib) (ns : List (List Char)) (h : ns.all (isName T) = true) :
    ∀ (r : List Char) (w : Nat) (xs : List item),
      scan T .lexBlock ⟨[], opensText ns ++ r, w, xs⟩ =
        scan T .lexBlock ⟨[], r, 0, xs ++ opensToks ns⟩ := by
  induction ns with
  | nil =>
    intro r w xs
    simpa [opensText, opensToks] using scan_width T .lexBlock [] r w xs
  | cons n ns ih =>
    intro r w xs
    simp only [List.all_cons, Bool.and_eq_true] at h
    have e1 : opensText (n :: ns) ++ r = '<' :: (n ++ '>' :: ('\n' :: (opensText ns ++ r))) := by
      simp [opensText]
    rw [e1, scan_open_tag T n h.1, scan_block_ws T [] '\n' _ 0 _ (by simp), ih h.2]
    simp [opensToks]

/-- The fields of a block are stored whatever they are, and the end of the
input ends the call. -/
theorem parse_fields_eof (T : GoLib) (fs : List (List Char × List Char)) :
    ∀ (n : List Char) (m : List (List Char × List Char)) (ss : List Store),
      ∃ m1, parseAll T (.mk n m ss) (fieldsToks fs ++ [⟨.itemEOF, []⟩]) =
        some (.nil (.mk n m1 ss) []) := by
  induction fs with
  | nil =>
    intro n m ss
    exact ⟨m, rfl⟩
  | cons kv fs ih =>
    intro n m ss
    have e1 : fieldsToks (kv :: fs) ++ [⟨.itemEOF, []⟩] =
        ⟨.itemKey, kv.1⟩ :: ⟨.itemEqual, ['=']⟩ :: ⟨.itemVal, kv.2 ++ ['\n']⟩ ::
          (fieldsToks fs ++ [⟨.itemEOF, []⟩]) := by
      simp [fieldsToks, fieldToks]
    rw [e1, parseAll_field]
    exact ih n _ ss

theorem parse_opens_eof (T : GoLib) (fs : List (List Char × List Char))
    (ns : List (List Char)) :
    ∀ (n : List Char) (s : Store),
      ∃ s1, parseAll T s (opensToks (n :: ns) ++ (fieldsToks fs ++ [⟨.itemEOF, []⟩])) =
        some (.error ("unexpected EOF for store: ".toList ++ fmtStorePtr s1)) := by
  induction ns with
  | nil =>
    intro n s
    obtain ⟨m1, hm1⟩ := parse_fields_eof T fs n [] []
    refine ⟨.mk s.Name s.Fields (s.Stores ++ [.mk n m1 []]), ?_⟩
    have e1 : opensToks [n] ++ (fieldsToks fs ++ [⟨.itemEOF, []⟩]) =
        ⟨.itemLeftMeta, '<' :: (n ++ ['>'])⟩ :: (fieldsToks fs ++ [⟨.itemEOF, []⟩]) := rfl
    rw [e1, parseAll_open T _ _ n _ (slice_open n), hm1]
    rfl
  | cons n2 ns ih =>
    intro n s
    obtain ⟨s1, hs1⟩ := ih n2 (.mk n [] [])
    refine ⟨s1, ?_⟩
    have e1 : opensToks (n :: n2 :: ns) ++ (fieldsToks fs ++ [⟨.itemEOF, []⟩]) =
        ⟨.itemLeftMeta, '<' :: (n ++ ['>'])⟩ ::
          (opensToks (n2 :: ns) ++ (fieldsToks fs ++ [⟨.itemEOF, []⟩])) := rfl
    rw [e1, parseAll_open T _ _ n _ (slice_open n), hs1]

/-- C6: an input that ends while a block is open is rejected.  After one or
more opening tags (the names are strings of identifier characters) and
well-formed lines `key=value`, with no closing tag, `Parse` returns the
error "unexpected EOF for store" and no store. -/
theorem Parse_unclosed_block (T : GoLib) (n : List Char) (ns : List (List Char))
    (fs : List (List Char × List Char)) (hn : (n :: ns).all (isName T) = true)
    (hfs : fs.all (lineOk T) = true) :
    ∃ s, Parse T (opensText (n :: ns) ++ fieldsText fs) =
      some (.error ("unexpected EOF for store: ".toList ++ fmtStorePtr s)) := by
  have hs := scan_lines T fs hfs [] 0 ([] ++ opensToks (n :: ns))
  rw [List.append_nil, scan_block_nil] at hs
  obtain ⟨s, hp⟩ := parse_opens_eof T fs ns n newStore
  refine ⟨s, ?_⟩
  rw [Parse_eq, scan_opens T (n :: ns) hn, hs]
  simp only [List.nil_append, List.append_assoc, Bool.false_eq_true, if_false]
  rw [hp]

theorem Parse_unclosed_block_witness :
    ∃ s, Parse asciiLib "<store>\nkey=val\n".toList =
      some (.error ("unexpected EOF for store: ".toList ++ fmtStorePtr s)) :=
  Parse_unclosed_block asciiLib "store".toList [] [("key".toList, "val".toList)]
    (by decide) (by decide)

/-! ## Mismatched tags -/

/-- C7: a block opened as `a` and closed as `b`, for distinct names of
identifier characters, is rejected, and the message of the error holds both
names. -/
theorem Parse_mismatch (T : GoLib) (a b : List Char) (ha : isName T a = true)
    (hb : isName T b = true) (hab : a ≠ b) :
    ∃ msg, Parse T ('<' :: (a ++ '>' :: '\n' :: '<' :: '/' :: (b ++ ['>', '\n']))) =
        some (.error msg) ∧
      msg = "store ".toList ++ fmtStorePtr (.mk a [] []) ++ " closed with </".toList ++ b ++ ['>'] ∧
      a <:+: msg ∧ b <:+: msg := by
  refine ⟨_, ?_, rfl, ?_, ?_⟩
  · have e1 : '<' :: (a ++ '>' :: '\n' :: '<' :: '/' :: (b ++ ['>', '\n'])) =
        '<' :: (a ++ '>' :: ('\n' :: ('<' :: '/' :: (b ++ '>' :: ['\n'])))) := by simp
    rw [Parse_eq, e1, scan_open_tag T a ha, scan_block_ws T [] '\n' _ 0 _ (by simp),
      scan_close_tag T b hb, scan_block_ws T [] '\n' _ 0 _ (by simp), scan_block_nil]
    simp only [List.nil_append, List.cons_append, Bool.false_eq_true, if_false]
    rw [parseAll_open T _ _ a _ (slice_open a), parseAll_close T _ _ b _ (slice_close b)]
    simp only [Store.Name, ne_eq, hab.symm, not_false_eq_true, if_true]
  · refine ⟨"store &".toList ++ [Char.ofNat 123],
      " map[] []".toList ++ [Char.ofNat 125] ++ " closed with </".toList ++ b ++ ['>'], ?_⟩
    simp [fmtStorePtr, fmtStore, fmtStores, fmtMap, List.intercalate]
  · exact ⟨"store ".toList ++ fmtStorePtr (.mk a [] []) ++ " closed with </".toList, ['>'],
      by simp⟩

theorem Parse_mismatch_witness :
    ∃ msg, Parse asciiLib "<a>\n</b>\n".toList = some (.error msg) ∧
      msg = "store ".toList ++ fmtStorePtr (.mk ['a'] [] []) ++ " closed with </".toList ++
        ['b'] ++ ['>'] ∧
      ['a'] <:+: msg ∧ ['b'] <:+: msg :=
  Parse_mismatch asciiLib ['a'] ['b'] (by decide) (by decide) (by decide)

/-! ## Malformed equals signs -/

theorem Parse_ab_eq_c (T : GoLib) :
    Parse T "ab=c\n".toList = some (.ok (.mk [] [("ab".toList, "c".toList)] [])) := by
  have hk : isKeyText T "ab".toList = true := by
    simp only [isKeyText, String.toList, List.all_cons, List.all_nil, Bool.and_true,
      Bool.and_eq_true]
    refine ⟨?_, ?_⟩
    · rw [T.letter_ascii _ (by decide)]; decide
    · rw [identChar_ascii T _ (by decide)]; decide
  have hs := scan_fieldLine T "ab".toList "c".toList hk (by decide) (by decide) [] 0 []
  rw [List.append_nil, scan_block_nil] at hs
  have e1 : "ab=c\n".toList = fieldLine ("ab".toList, "c".toList) := by decide
  have e2 : TrimSpace "ab".toList = "ab".toList := by decide
  have e3 : TrimSpace ("c".toList ++ ['\n']) = "c".toList := by decide
  rw [Parse_eq, e1, hs]
  simp only [List.nil_append, List.cons_append, Bool.false_eq_true, if_false]
  rw [parseAll_field, parseAll_eof, e2, e3]
  rfl

/-- C8, as stated, fails: `a` is a key, the empty run after it is a maximal
run of equals signs, blanks and tabs (the next character is `b`) and it holds
no equals sign, yet `ab=c` parses without error: the scanner takes the longest
run of identifier characters as the key. -/
theorem Parse_equals_count_counterexample :
    isKeyText asciiLib "a".toList = true ∧
      (∀ c ∈ ([] : List Char), c = '=' ∨ c = ' ' ∨ c = '\t') ∧
      (∀ c ∈ "b=c\n".toList.head?, c ≠ '=' ∧ c ≠ ' ' ∧ c ≠ '\t') ∧
      ([] : List Char).count '=' = 0 ∧
      Parse asciiLib ("a".toList ++ [] ++ "b=c\n".toList) =
        some (.ok (.mk [] [("ab".toList, "c".toList)] [])) :=
  ⟨by decide, by decide, by decide, by decide, Parse_ab_eq_c asciiLib⟩

/-- C8, amended: after a key, a maximal run of equals signs, blanks and tabs
that holds no or several equals signs is rejected, provided that, when the run
is empty, the text after it does not begin with an identifier character; the
message of the error reports the number of equals signs. -/
theorem Parse_equals_count (T : GoLib) (k r rest : List Char) (hk : isKeyText T k = true)
    (hr : ∀ c ∈ r, c = '=' ∨ c = ' ' ∨ c = '\t')
    (hmax : ∀ c ∈ rest.head?, c ≠ '=' ∧ c ≠ ' ' ∧ c ≠ '\t')
    (hn : r.count '=' ≠ 1)
    (hkey : r = [] → ∀ c ∈ rest.head?, identChar T c = false) :
    Parse T (k ++ r ++ rest) =
      some (.error ("Key: ".toList ++ k ++
        " not followed by eq, but by error equal symbol occurrence: ".toList ++
        fmtD (r.count '='))) := by
  have hhead : ∀ c ∈ (r ++ rest).head?, identChar T c = false := by
    cases r with
    | nil => simpa using hkey rfl
    | cons c cs =>
      intro d hd
      simp only [List.cons_append, List.head?_cons, Option.mem_def, Option.some.injEq] at hd
      subst hd
      rcases hr c (by simp) with rfl | rfl | rfl
      · exact identChar_eq T
      · exact identChar_sp T
      · exact identChar_tab T
  have hs := scan_equal_run T r hr 0 [] rest 0 ([] ++ [⟨.itemKey, k⟩]) hmax
  simp only [Nat.zero_add, if_neg hn, List.nil_append, List.cons_append] at hs
  rw [Parse_eq, List.append_assoc, scan_key_block T k hk _ hhead 0 [], List.nil_append, hs]
  simp only [Bool.false_eq_true, if_false]
  rw [parseAll_key_error]
  simp

theorem Parse_equals_count_witness :
    Parse asciiLib "key == value".toList =
      some (.error ("Key: ".toList ++ "key".toList ++
        " not followed by eq, but by error equal symbol occurrence: ".toList ++ fmtD 2)) :=
  Parse_equals_count asciiLib "key".toList " == ".toList "value".toList
    (by decide) (by decide) (by decide) (by decide) (by decide)

/-! ## Tags without their closing bracket -/

theorem unclosed_of_scan (T : GoLib) (input : List Char) (r : Option Char)
    (h : scan T .lexBlock ⟨[], input, 0, []⟩ =
      ⟨[] ++ [⟨.itemError, "unclosed meta tag ".toList ++ fmtSharpU T r⟩], false⟩) :
    isUnclosedTagError (Parse T input) := by
  refine ⟨T.Errorf ("unclosed meta tag ".toList ++ fmtSharpU T r), ?_, ?_⟩
  · rw [Parse_eq, h]
    rfl
  · rw [T.errorf_plain _ _ (by decide)]
    exact ⟨[' '] ++ T.Errorf (fmtSharpU T r), by simp⟩

theorem scan_meta_name (T : GoLib) (n : List Char) (hn : isName T n = true) (r : List Char)
    (hr : n = [] → ∀ c ∈ r.head?, c ≠ '/') (p : List Char) (w : Nat) (xs : List item) :
    scan T .lexMeta ⟨p, n ++ r, w, xs⟩ = scan T .lexMetaLoop ⟨p ++ n, r, 0, xs⟩ := by
  have hid := isName_ident T n hn
  have h1 : scan T .lexMeta ⟨p, n ++ r, w, xs⟩ = scan T .lexMetaLoop ⟨p, n ++ r, 0, xs⟩ := by
    cases n with
    | nil =>
      cases r with
      | nil => exact scan_meta_nil T p w xs
      | cons c cs => exact scan_meta_other T p c cs w xs (hr rfl c (by simp))
    | cons c cs =>
      refine scan_meta_other T p c (cs ++ r) w xs ?_
      rintro rfl
      have := hid '/' (by simp)
      rw [identChar_slash] at this
      exact Bool.false_ne_true this
  rw [h1, scan_metaLoop_run T n hid]

/-- C9, as stated, fails: with the empty name and `/`, which is neither `>`
nor an identifier character, the text `</a>` is a closing tag, and the error
is that of a store closed under another name. -/
theorem Parse_unclosed_tag_counterexample :
    isName asciiLib [] = true ∧ '/' ≠ '>' ∧ identChar asciiLib '/' = false ∧
      Parse asciiLib ('<' :: ([] ++ '/' :: "a>".toList)) =
        some (.error ("store ".toList ++ fmtStorePtr (.mk [] [] []) ++
          " closed with </a>".toList)) ∧
      ¬ isUnclosedTagError (Parse asciiLib ('<' :: ([] ++ '/' :: "a>".toList))) := by
  refine ⟨by decide, by decide, by decide, rfl, ?_⟩
  rintro ⟨msg, h1, h2⟩
  have h3 : Parse asciiLib ('<' :: ([] ++ '/' :: "a>".toList)) =
      some (.error ("store ".toList ++ fmtStorePtr (.mk [] [] []) ++
        " closed with </a>".toList)) := rfl
  rw [h3] at h1
  have h4 := Outcome.error.inj (Option.some.inj h1)
  subst h4
  revert h2
  decide

/-- C9, amended: a tag that the input ends, or that a character other than
`>` and the identifier characters interrupts, is rejected with an error whose
message begins with "unclosed meta tag"; for an opening tag with the empty
name the interrupting character must not be `/`, which would begin a closing
tag. -/
theorem Parse_unclosed_tag (T : GoLib) (n : List Char) (hn : isName T n = true) (c : Char)
    (rest : List Char) (hc : c ≠ '>') (hc2 : identChar T c = false) :
    isUnclosedTagError (Parse T ('<' :: n)) ∧
      isUnclosedTagError (Parse T ('<' :: '/' :: n)) ∧
      ((n = [] → c ≠ '/') → isUnclosedTagError (Parse T ('<' :: (n ++ c :: rest)))) ∧
      isUnclosedTagError (Parse T ('<' :: '/' :: (n ++ c :: rest))) := by
  have hid := isName_ident T n hn
  refine ⟨?_, ?_, ?_, ?_⟩
  · apply unclosed_of_scan T _ none
    have := scan_meta_name T n hn [] (by simp) ['<'] 0 []
    rw [List.append_nil] at this
    rw [scan_block_lt, List.nil_append, this, scan_metaLoop_nil]
  · apply unclosed_of_scan T _ none
    have := scan_metaLoop_run T n hid (['<'] ++ ['/']) [] 0 []
    rw [List.append_nil] at this
    rw [scan_block_lt, List.nil_append, scan_meta_slash, this, scan_metaLoop_nil]
  · intro hsl
    apply unclosed_of_scan T _ (some c)
    have := scan_meta_name T n hn (c :: rest)
      (fun h d hd => by
        simp only [List.head?_cons, Option.mem_def, Option.some.injEq] at hd
        subst hd
        exact hsl h) ['<'] 0 []
    rw [scan_block_lt, List.nil_append, this, scan_metaLoop_bad T _ c rest 0 [] hc2 hc]
  · apply unclosed_of_scan T _ (some c)
    rw [scan_block_lt, List.nil_append, scan_meta_slash,
      scan_metaLoop_run T n hid _ (c :: rest) 0 [], scan_metaLoop_bad T _ c rest 0 [] hc2 hc]

theorem Parse_unclosed_tag_witness :
    isUnclosedTagError (Parse asciiLib "<store".toList) ∧
      isUnclosedTagError (Parse asciiLib "</store".toList) ∧
      isUnclosedTagError (Parse asciiLib "<store x>".toList) ∧
      isUnclosedTagError (Parse asciiLib "</store x>".toList) :=
  have h := Parse_unclosed_tag asciiLib "store".toList (by decide) ' ' "x>".toList
    (by decide) (by decide)
  ⟨h.1, h.2.1, h.2.2.1 (by decide), h.2.2.2⟩

/-! ## The closing tag with the empty name -/

theorem fmtSharpU_dollar (T : GoLib) :
    fmtSharpU T (some '$') = "U+0024 '$'".toList := by
  have h : T.IsPrint '$' = true := by
    rw [T.print_ascii _ (by decide)]; decide
  simp only [fmtSharpU, h, if_true]
  decide

/-- C10 at the input `</>$`: the token stream holds an Error token, and `Parse`
returns the root store: the closing tag with the empty name matches the name
of the root, and the call returns before the error is read. -/
theorem Parse_root_closed (T : GoLib) :
    lex T "</>$".toList =
        some ⟨[⟨.itemRightMeta, "</>".toList⟩,
          ⟨.itemError, "unrecognized character in action: U+0024 '$'".toList⟩], false⟩ ∧
      Parse T "</>$".toList = some (.ok (.mk [] [] [])) := by
  have hl : T.IsLetter '$' = false := by
    rw [T.letter_ascii _ (by decide)]; decide
  have hs : scan T .lexBlock ⟨[], "</>$".toList, 0, []⟩ =
      ⟨[⟨.itemRightMeta, "</>".toList⟩,
        ⟨.itemError, "unrecognized character in action: U+0024 '$'".toList⟩], false⟩ := by
    have h1 := scan_close_tag T [] rfl ['$'] 0 []
    rw [scan_block_bad T [] '$' [] 0 _ (by decide) (by decide) (by decide) (by decide)
      (by decide) (by decide) hl, fmtSharpU_dollar] at h1
    exact h1
  refine ⟨?_, ?_⟩
  · rw [lex_eq_scan, hs]
  · rw [Parse_eq, hs]
    rfl

/-! ## `Parse` always returns -/

theorem Parse_total (T : GoLib) (input : List Char) : ∃ o, Parse T input = some o := by
  rw [Parse_eq]
  split
  · exact ⟨_, rfl⟩
  · obtain ⟨ret, h⟩ := parseAll_isSome T newStore (scan T .lexBlock ⟨[], input, 0, []⟩).items
    rw [h]
    cases ret <;> exact ⟨_, rfl⟩

/-! ## Configurations entry by entry -/

theorem Entry.apply_Name (s : Store) (e : Entry) : (Entry.apply s e).Name = s.Name := by
  cases e <;> simp [Entry.apply, Store.Name]

theorem Entry.applyAll_Name (es : List Entry) :
    ∀ s : Store, (Entry.applyAll s es).Name = s.Name := by
  induction es with
  | nil => intro s; rfl
  | cons e es ih =>
    intro s
    rw [Entry.applyAll, ih, Entry.apply_Name]

mutual
theorem Entry.text_chunks : ∀ (e : Entry), e.text = e.chunks.flatten
  | .noise p => by simp [Entry.text, Entry.chunks]
  | .field k v => by simp [Entry.text, Entry.chunks]
  | .block n es => by
    simp [Entry.text, Entry.chunks, Entry.textAll_chunks es]
theorem Entry.textAll_chunks : ∀ (es : List Entry),
    Entry.textAll es = (Entry.chunksAll es).flatten
  | [] => rfl
  | e :: es => by
    simp [Entry.textAll, Entry.chunksAll, Entry.text_chunks e, Entry.textAll_chunks es]
end

mutual
theorem scan_entry (T : GoLib) : ∀ (e : Entry), e.ok T = true →
    ∀ (r : List Char) (w : Nat) (xs : List item),
      scan T .lexBlock ⟨[], e.text ++ r, w, xs⟩ = scan T .lexBlock ⟨[], r, 0, xs ++ e.toks⟩
  | .noise p, h, r, w, xs => by
    have := scan_pieces T [p] (by simpa [Entry.ok] using h) r w xs
    simpa [piecesText, Entry.text, Entry.toks] using this
  | .field k v, h, r, w, xs => by
    simp only [Entry.ok, fieldOk, Bool.and_eq_true] at h
    rw [Entry.text, scan_fieldLine T k v h.1.1 h.1.2 (plainStart_of_clean v h.2)]
    rfl
  | .block n es, h, r, w, xs => by
    simp only [Entry.ok, Bool.and_eq_true] at h
    have e1 : (Entry.block n es).text ++ r =
        '<' :: (n ++ '>' :: (Entry.textAll es ++ ('<' :: '/' :: (n ++ '>' :: r)))) := by
      simp [Entry.text]
    rw [e1, scan_open_tag T n h.1, scan_entries T es h.2, scan_close_tag T n h.1]
    simp [Entry.toks]
theorem scan_entries (T : GoLib) : ∀ (es : List Entry), Entry.allOk T es = true →
    ∀ (r : List Char) (w : Nat) (xs : List item),
      scan T .lexBlock ⟨[], Entry.textAll es ++ r, w, xs⟩ =
        scan T .lexBlock ⟨[], r, 0, xs ++ Entry.toksAll es⟩
  | [], _, r, w, xs => by
    simpa [Entry.textAll, Entry.toksAll] using scan_width T .lexBlock [] r w xs
  | e :: es, h, r, w, xs => by
    simp only [Entry.allOk, Bool.and_eq_true] at h
    rw [Entry.textAll, List.append_assoc, scan_entry T e h.1, scan_entries T es h.2]
    simp [Entry.toksAll]
end

mutual
theorem parse_entry (T : GoLib) : ∀ (e : Entry), e.ok T = true →
    ∀ (s : Store) (tail : List item),
      parseAll T s (e.toks ++ tail) = parseAll T (Entry.apply s e) tail
  | .noise p, _, s, tail => by
    simp [Entry.toks, Entry.apply]
  | .field k v, h, s, tail => by
    simp only [Entry.ok, fieldOk, Bool.and_eq_true] at h
    have e1 : (Entry.field k v).toks ++ tail =
        ⟨.itemKey, k⟩ :: ⟨.itemEqual, ['=']⟩ :: ⟨.itemVal, v ++ ['\n']⟩ :: tail := by
      simp [Entry.toks, fieldToks]
    rw [e1, parseAll_field, TrimSpace_ident T k (isKeyText_ident T k h.1.1),
      TrimSpace_clean v h.2]
    rfl
  | .block n es, h, s, tail => by
    simp only [Entry.ok, Bool.and_eq_true] at h
    have e1 : (Entry.block n es).toks ++ tail =
        ⟨.itemLeftMeta, '<' :: (n ++ ['>'])⟩ ::
          (Entry.toksAll es ++ (⟨.itemRightMeta, '<' :: '/' :: (n ++ ['>'])⟩ :: tail)) := by
      simp [Entry.toks]
    rw [e1, parseAll_open T _ _ n _ (slice_open n), parse_entries T es h.2,
      parseAll_close T _ _ n _ (slice_close n), Entry.applyAll_Name]
    simp [Store.Name, Entry.apply]
theorem parse_entries (T : GoLib) : ∀ (es : List Entry), Entry.allOk T es = true →
    ∀ (s : Store) (tail : List item),
      parseAll T s (Entry.toksAll es ++ tail) = parseAll T (Entry.applyAll s es) tail
  | [], _, s, tail => by
    simp [Entry.toksAll, Entry.applyAll]
  | e :: es, h, s, tail => by
    simp only [Entry.allOk, Bool.and_eq_true] at h
    rw [Entry.toksAll, List.append_assoc, parse_entry T e h.1, parse_entries T es h.2,
      Entry.applyAll]
end

/-- A well-formed configuration, with blanks, line ends and comments anywhere
between its fields and blocks, parses to the store its entries build. -/
theorem Parse_entries (T : GoLib) (es : List Entry) (h : Entry.allOk T es = true) :
    Parse T (Entry.textAll es) = some (.ok (Entry.applyAll (.mk [] [] []) es)) := by
  have hs := scan_entries T es h [] 0 []
  rw [List.append_nil, scan_block_nil] at hs
  rw [Parse_eq, hs]
  simp only [List.nil_append, Bool.false_eq_true, if_false, newStore]
  rw [parse_entries T es h, parseAll_eof]

theorem testParseDoc_chunks : Entry.chunksAll testParseDoc = testParseChunks := by
  decide

theorem testParseDoc_store : Entry.applyAll (.mk [] [] []) testParseDoc = testParseStore :=
  rfl

/-- The configuration of `TestParse` parses to the store the test expects. -/
theorem Parse_TestParse : Parse asciiLib testParseInput = some (.ok testParseStore) := by
  rw [testParseInput, ← testParseDoc_chunks, ← Entry.textAll_chunks, ← testParseDoc_store]
  exact Parse_entries asciiLib testParseDoc (by decide)

/-! ## The shape of the token stream -/

theorem scanOk_block (T : GoLib) (n : Nat) (ih : ScanOk T n) (r : List Char) (w : Nat)
    (xs : List item) (hb : 5 * r.length + 1 ≤ n + 1) :
    ∃ suf, scan T .lexBlock ⟨[], r, w, xs⟩ = ⟨xs ++ suf, false⟩ ∧ Stream T anyName suf := by
  cases r with
  | nil => exact ⟨_, scan_block_nil T [] w xs, Stream.eof⟩
  | cons c cs =>
    simp only [List.length_cons] at hb
    by_cases hws : c = ' ' ∨ c = '\t' ∨ c = '\r' ∨ c = '\n'
    · rw [scan_block_ws T [] c cs w xs hws]
      exact ih .lexBlock [] cs 0 xs (by simp only [stepsBound]; omega) rfl
    · simp only [not_or] at hws
      by_cases hlt : c = '<'
      · subst hlt
        rw [scan_block_lt]
        exact ih .lexMeta _ cs 0 xs (by simp only [stepsBound]; omega) rfl
      · by_cases hh : c = '#'
        · subst hh
          rw [scan_block_hash]
          exact ih .lexComment _ cs 0 xs (by simp only [stepsBound]; omega) trivial
        · by_cases hl : T.IsLetter c = true
          · rw [scan_block_letter T [] c cs w xs hl]
            have hid := identChar_of_letter T c hl
            have hid2 : isAlphaNumeric T (some c) = true := hid
            refine ih .lexKey [] (c :: cs) 0 xs ?_ ?_
            · simp only [stepsBound, List.head?_cons, hid2, if_true, List.length_cons]
              omega
            · simp only [Inv, List.nil_append, List.takeWhile_cons, hid, if_true, isKeyText, hl,
                Bool.true_and, List.all_eq_true]
              intro d hd
              exact (List.mem_takeWhile_imp hd)
          · simp only [Bool.not_eq_true] at hl
            exact ⟨_, scan_block_bad T [] c cs w xs hws.1 hws.2.1 hws.2.2.1 hws.2.2.2 hlt hh hl,
              Stream.error _ (ScanError.badChar c)⟩

theorem scanOk_comment (T : GoLib) (n : Nat) (ih : ScanOk T n) (p r : List Char) (w : Nat)
    (xs : List item) (hb : 5 * r.length + 2 ≤ n + 1) :
    ∃ suf, scan T .lexComment ⟨p, r, w, xs⟩ = ⟨xs ++ suf, false⟩ ∧ Stream T anyName suf := by
  cases r with
  | nil =>
    rw [scan_comment_nil]
    exact ⟨_, scan_block_nil T [] 0 xs, Stream.eof⟩
  | cons c cs =>
    simp only [List.length_cons] at hb
    by_cases he : c = '\r' ∨ c = '\n'
    · rw [scan_comment_eol p T c cs w xs he]
      exact ih .lexBlock [] cs 0 xs (by simp only [stepsBound]; omega) rfl
    · simp only [not_or] at he
      rw [scan_comment_step p T c cs w xs he.1 he.2]
      exact ih .lexComment _ cs 0 xs (by simp only [stepsBound]; omega) trivial

theorem scanOk_metaLoop (T : GoLib) (n : Nat) (ih : ScanOk T n) (p r : List Char) (w : Nat)
    (xs : List item) (hb : 5 * r.length + 4 ≤ n + 1) (hi : Inv T .lexMetaLoop p r) :
    ∃ suf, scan T .lexMetaLoop ⟨p, r, w, xs⟩ = ⟨xs ++ suf, false⟩ ∧ Stream T anyName suf := by
  obtain ⟨nm, hnm, hp⟩ := hi
  cases r with
  | nil => exact ⟨_, scan_metaLoop_nil T p w xs, Stream.error _ (ScanError.unclosed none)⟩
  | cons c cs =>
    simp only [List.length_cons] at hb
    by_cases hid : identChar T c = true
    · rw [scan_metaLoop_step T p c cs w xs hid]
      refine ih .lexMetaLoop _ cs 0 xs (by simp only [stepsBound]; omega) ?_
      refine ⟨nm ++ [c], ?_, ?_⟩
      · simp only [isName, List.all_append, List.all_cons, List.all_nil, Bool.and_true,
          Bool.and_eq_true]
        exact ⟨hnm, hid⟩
      · rcases hp with rfl | rfl
        · exact Or.inl rfl
        · exact Or.inr rfl
    · simp only [Bool.not_eq_true] at hid
      by_cases hgt : c = '>'
      · subst hgt
        rcases hp with rfl | rfl
        · obtain ⟨b, hb1, hb2⟩ : ∃ b, (('<' :: nm) ++ '>' :: cs)[1]? = some b ∧ b ≠ '/' := by
            cases nm with
            | nil => exact ⟨'>', by simp, by decide⟩
            | cons d ds =>
              refine ⟨d, by simp, ?_⟩
              rintro rfl
              have := isName_ident T _ hnm '/' (by simp)
              rw [identChar_slash] at this
              exact Bool.false_ne_true this
          rw [scan_metaLoop_gt T _ b cs w xs hb1, if_neg hb2]
          obtain ⟨suf, h1, h2⟩ :=
            ih .lexBlock [] cs 0 (xs ++ [⟨.itemLeftMeta, '<' :: nm ++ ['>']⟩])
              (by simp only [stepsBound]; omega) rfl
          refine ⟨⟨.itemLeftMeta, '<' :: (nm ++ ['>'])⟩ :: suf, ?_, Stream.openTag nm suf hnm rfl h2⟩
          rw [h1]
          simp
        · rw [scan_metaLoop_gt T _ '/' cs w xs (by simp), if_pos rfl]
          obtain ⟨suf, h1, h2⟩ :=
            ih .lexBlock [] cs 0 (xs ++ [⟨.itemRightMeta, '<' :: '/' :: nm ++ ['>']⟩])
              (by simp only [stepsBound]; omega) rfl
          refine ⟨⟨.itemRightMeta, '<' :: '/' :: (nm ++ ['>'])⟩ :: suf, ?_,
            Stream.closeTag nm suf hnm h2⟩
          rw [h1]
          simp
      · exact ⟨_, scan_metaLoop_bad T p c cs w xs hid hgt, Stream.error _ (ScanError.unclosed _)⟩

theorem scanOk_meta (T : GoLib) (n : Nat) (ih : ScanOk T n) (r : List Char) (w : Nat)
    (xs : List item) (hb : 5 * r.length + 4 ≤ n + 1) :
    ∃ suf, scan T .lexMeta ⟨['<'], r, w, xs⟩ = ⟨xs ++ suf, false⟩ ∧ Stream T anyName suf := by
  cases r with
  | nil =>
    rw [scan_meta_nil]
    exact ⟨_, scan_metaLoop_nil T _ 0 xs, Stream.error _ (ScanError.unclosed none)⟩
  | cons c cs =>
    simp only [List.length_cons] at hb
    by_cases hc : c = '/'
    · subst hc
      rw [scan_meta_slash]
      exact ih .lexMetaLoop _ cs 0 xs (by simp only [stepsBound]; omega) ⟨[], rfl, Or.inr rfl⟩
    · rw [scan_meta_other T _ c cs w xs hc]
      exact scanOk_metaLoop T n ih _ _ 0 xs (by simp only [List.length_cons]; omega)
        ⟨[], rfl, Or.inl rfl⟩

theorem scanOk_val (T : GoLib) (n : Nat) (ih : ScanOk T n) (p r : List Char) (w : Nat)
    (xs : List item) (hb : 5 * r.length + 2 ≤ n + 1) (hi : noEOL p = true) :
    ∃ suf, scan T .lexVal ⟨p, r, w, xs⟩ = ⟨xs ++ suf, false⟩ ∧ AfterEqual T suf := by
  cases r with
  | nil =>
    rw [scan_val_nil, scan_block_nil]
    refine ⟨[⟨.itemVal, p⟩, ⟨.itemEOF, []⟩], by simp, p, _, rfl, ?_, Stream.eof⟩
    simp only [valText, noEOL, List.all_eq_true] at hi ⊢
    exact fun c hc => hi c (List.dropLast_subset p hc)
  | cons c cs =>
    simp only [List.length_cons] at hb
    by_cases he : c = '\r' ∨ c = '\n'
    · rw [scan_val_eol T p c cs w xs he]
      obtain ⟨suf, h1, h2⟩ := ih .lexBlock [] cs 0 (xs ++ [⟨.itemVal, p ++ [c]⟩])
        (by simp only [stepsBound]; omega) rfl
      refine ⟨⟨.itemVal, p ++ [c]⟩ :: suf, ?_, p ++ [c], suf, rfl, ?_, h2⟩
      · rw [h1]; simp
      · simpa [valText] using hi
    · simp only [not_or] at he
      rw [scan_val_step T p c cs w xs he.1 he.2]
      refine ih .lexVal _ cs 0 xs (by simp only [stepsBound]; omega) ?_
      simp only [Inv, noEOL, List.all_append, List.all_cons, List.all_nil, Bool.and_true,
        Bool.and_eq_true, eolChar, Bool.not_eq_true', Bool.or_eq_false_iff,
        beq_eq_false_iff_ne]
      exact ⟨by simpa [noEOL, eolChar] using hi, he⟩

theorem scanOk_equalLoop (T : GoLib) (n : Nat) (ih : ScanOk T n) (m : Nat) (p r : List Char)
    (w : Nat) (xs : List item) (hb : 5 * r.length + 3 ≤ n + 1)
    (hi : Inv T (.lexEqualLoop m) p r) :
    ∃ suf, scan T (.lexEqualLoop m) ⟨p, r, w, xs⟩ = ⟨xs ++ suf, false⟩ ∧ AfterKey T suf := by
  obtain ⟨hall, hcount⟩ := hi
  have heq : m = 1 → eqRun p = true := by
    intro hm
    simp only [eqRun, Bool.and_eq_true, List.all_eq_true, Bool.or_eq_true, beq_iff_eq, spTab]
    exact ⟨hall, by omega⟩
  have fromVal : ∀ (r1 : List Char), 5 * r1.length + 2 ≤ n → m = 1 →
      ∃ suf, scan T .lexVal ⟨[], r1, 0, xs ++ [⟨.itemEqual, p⟩]⟩ = ⟨xs ++ suf, false⟩ ∧
        AfterKey T suf := by
    intro r1 hr1 hm
    obtain ⟨suf, h1, v, rest, h2, h3, h4⟩ := ih .lexVal [] r1 0 (xs ++ [⟨.itemEqual, p⟩])
      (by simp only [stepsBound]; omega) rfl
    refine ⟨⟨.itemEqual, p⟩ :: suf, ?_, Or.inr ⟨p, v, rest, by rw [h2], heq hm, h3, h4⟩⟩
    rw [h1]; simp
  cases r with
  | nil =>
    by_cases hm : m = 1
    · subst hm
      rw [scan_equal_stop_nil]
      exact fromVal [] (by simp only [List.length_nil]; omega) rfl
    · exact ⟨_, scan_equal_bad_nil T m p w xs hm, Or.inl ⟨m, hm, rfl⟩⟩
  | cons c cs =>
    simp only [List.length_cons] at hb
    by_cases hc : c = '='
    · subst hc
      rw [scan_equal_eq]
      refine ih (.lexEqualLoop (m + 1)) _ cs 0 xs (by simp only [stepsBound]; omega) ⟨?_, ?_⟩
      · intro d hd
        rcases List.mem_append.mp hd with hd | hd
        · exact hall d hd
        · simp only [List.mem_singleton] at hd
          exact Or.inl hd
      · simp [List.count_append, hcount]
    · by_cases hw : c = ' ' ∨ c = '\t'
      · rw [scan_equal_ws T m p c cs w xs hw]
        refine ih (.lexEqualLoop m) _ cs 0 xs (by simp only [stepsBound]; omega) ⟨?_, ?_⟩
        · intro d hd
          rcases List.mem_append.mp hd with hd | hd
          · exact hall d hd
          · simp only [List.mem_singleton] at hd
            subst hd
            exact Or.inr hw
        · simp [List.count_append, hcount, List.count_cons, hc, Ne.symm hc]
      · simp only [not_or] at hw
        by_cases hm : m = 1
        · subst hm
          rw [scan_equal_stop T p c cs w xs hc hw.1 hw.2]
          exact fromVal (c :: cs) (by simp only [List.length_cons]; omega) rfl
        · exact ⟨_, scan_equal_bad T m p c cs w xs hc hw.1 hw.2 hm, Or.inl ⟨m, hm, rfl⟩⟩

theorem stream_of_afterKey (T : GoLib) (k : List Char) (suf : List item)
    (hk : isKeyText T k = true) (h : AfterKey T suf) :
    Stream T anyName (⟨.itemKey, k⟩ :: suf) := by
  rcases h with ⟨n, hn, rfl⟩ | ⟨e, v, rest, rfl, h1, h2, h3⟩
  · exact Stream.keyError k n hk hn
  · exact Stream.field k e v rest hk h1 h2 h3

theorem scanOk_key (T : GoLib) (n : Nat) (ih : ScanOk T n) (p r : List Char) (w : Nat)
    (xs : List item) (hb : stepsBound T .lexKey ⟨p, r, w, xs⟩ ≤ n + 1)
    (hi : Inv T .lexKey p r) :
    ∃ suf, scan T .lexKey ⟨p, r, w, xs⟩ = ⟨xs ++ suf, false⟩ ∧ Stream T anyName suf := by
  have fromEqual : ∀ (r1 : List Char), 5 * r1.length + 3 ≤ n → isKeyText T p = true →
      ∃ suf, scan T .lexEqual ⟨[], r1, 0, xs ++ [⟨.itemKey, p⟩]⟩ = ⟨xs ++ suf, false⟩ ∧
        Stream T anyName suf := by
    intro r1 hr1 hk
    obtain ⟨suf, h1, h2⟩ := ih .lexEqual [] r1 0 (xs ++ [⟨.itemKey, p⟩])
      (by simp only [stepsBound]; omega) rfl
    refine ⟨⟨.itemKey, p⟩ :: suf, ?_, stream_of_afterKey T p suf hk h2⟩
    rw [h1]; simp
  cases r with
  | nil =>
    simp only [stepsBound, List.length_nil, List.head?_nil, isAlphaNumeric, isLetter, isDigit]
      at hb
    rw [scan_key_nil]
    exact fromEqual [] (by simp only [List.length_nil]; simpa using hb)
      (by simpa [Inv] using hi)
  | cons c cs =>
    by_cases hid : identChar T c = true
    · have hid2 : isAlphaNumeric T (some c) = true := hid
      simp only [stepsBound, List.length_cons, List.head?_cons, hid2, if_true] at hb
      rw [scan_key_step T p c cs w xs hid]
      refine ih .lexKey _ cs 0 xs ?_ ?_
      · simp only [stepsBound]
        split <;> omega
      · simpa [Inv, List.takeWhile_cons, hid] using hi
    · simp only [Bool.not_eq_true] at hid
      have hid2 : isAlphaNumeric T (some c) = false := hid
      simp only [stepsBound, List.length_cons, List.head?_cons, hid2, Bool.false_eq_true,
        if_false] at hb
      rw [scan_key_stop T p c cs w xs hid]
      exact fromEqual (c :: cs) (by simp only [List.length_cons]; omega)
        (by simpa [Inv, List.takeWhile_cons, hid] using hi)

theorem scanOk_all (T : GoLib) : ∀ n, ScanOk T n := by
  intro n
  induction n with
  | zero =>
    intro f p r w xs hb _
    have := stepsBound_pos T f ⟨p, r, w, xs⟩
    omega
  | succ n ih =>
    intro f p r w xs hb hi
    cases f with
    | lexBlock =>
      cases hi
      exact scanOk_block T n ih r w xs (by simpa only [stepsBound] using hb)
    | lexMeta =>
      cases hi
      exact scanOk_meta T n ih r w xs (by simpa only [stepsBound] using hb)
    | lexMetaLoop => exact scanOk_metaLoop T n ih p r w xs (by simpa only [stepsBound] using hb) hi
    | lexComment => exact scanOk_comment T n ih p r w xs (by simpa only [stepsBound] using hb)
    | lexKey => exact scanOk_key T n ih p r w xs hb hi
    | lexEqual =>
      cases hi
      rw [scan_equal_entry]
      exact scanOk_equalLoop T n ih 0 [] r w xs (by simpa only [stepsBound] using hb)
        ⟨by simp, rfl⟩
    | lexEqualLoop m =>
      exact scanOk_equalLoop T n ih m p r w xs (by simpa only [stepsBound] using hb) hi
    | lexVal => exact scanOk_val T n ih p r w xs (by simpa only [stepsBound] using hb) hi

/-- The tokens of every input: the scan ends without panic, and the stream has
the shape `Stream`. -/
theorem lex_stream (T : GoLib) (input : List Char) :
    ∃ toks, lex T input = some ⟨toks, false⟩ ∧ Stream T anyName toks := by
  obtain ⟨suf, h1, h2⟩ := scanOk_all T _ .lexBlock [] input 0 [] le_rfl rfl
  exact ⟨suf, by rw [lex_eq_scan, h1]; rfl, h2⟩

/-! ## The order of the keys -/

theorem char_toNat_inj (a b : Char) (h : a.toNat = b.toNat) : a = b := by
  apply Char.ext
  apply UInt32.ext
  exact h

theorem strLt_irrefl : ∀ a : List Char, strLt a a = false
  | [] => rfl
  | c :: cs => by simp [strLt, strLt_irrefl cs]

theorem strLt_asymm : ∀ a b : List Char, strLt a b = true → strLt b a = false
  | [], [], h => by simp [strLt] at h
  | [], _ :: _, _ => rfl
  | _ :: _, [], h => by simp [strLt] at h
  | c :: cs, d :: ds, h => by
    simp only [strLt, Bool.or_eq_true, decide_eq_true_eq, Bool.and_eq_true, beq_iff_eq] at h
    simp only [strLt, Bool.or_eq_false_iff, decide_eq_false_iff_not, Bool.and_eq_false_imp,
      beq_iff_eq]
    rcases h with h | ⟨rfl, h⟩
    · refine ⟨by omega, ?_⟩
      rintro rfl
      omega
    · exact ⟨by omega, fun _ => strLt_asymm cs ds h⟩

theorem strLt_trans : ∀ a b c : List Char, strLt a b = true → strLt b c = true →
    strLt a c = true
  | [], [], _, h, _ => by simp [strLt] at h
  | [], _ :: _, [], _, h => by simp [strLt] at h
  | [], _ :: _, _ :: _, _, _ => rfl
  | _ :: _, [], _, h, _ => by simp [strLt] at h
  | _ :: _, _ :: _, [], _, h => by simp [strLt] at h
  | x :: xs, y :: ys, z :: zs, h1, h2 => by
    simp only [strLt, Bool.or_eq_true, decide_eq_true_eq, Bool.and_eq_true, beq_iff_eq]
      at h1 h2 ⊢
    rcases h1 with h1 | ⟨rfl, h1⟩
    · rcases h2 with h2 | ⟨rfl, _⟩
      · exact Or.inl (by omega)
      · exact Or.inl h1
    · rcases h2 with h2 | ⟨rfl, h2⟩
      · exact Or.inl h2
      · exact Or.inr ⟨rfl, strLt_trans xs ys zs h1 h2⟩

theorem strLt_total : ∀ a b : List Char, a ≠ b → strLt a b = false → strLt b a = true
  | [], [], h, _ => absurd rfl h
  | [], _ :: _, _, h => by simp [strLt] at h
  | _ :: _, [], _, _ => rfl
  | c :: cs, d :: ds, hne, h => by
    simp only [strLt, Bool.or_eq_false_iff, decide_eq_false_iff_not, Bool.and_eq_false_imp,
      beq_iff_eq] at h
    simp only [strLt, Bool.or_eq_true, decide_eq_true_eq, Bool.and_eq_true, beq_iff_eq]
    by_cases hcd : c = d
    · subst hcd
      exact Or.inr ⟨rfl, strLt_total cs ds (by rintro rfl; exact hne rfl) (h.2 rfl)⟩
    · left
      have : c.toNat ≠ d.toNat := fun e => hcd (char_toNat_inj c d e)
      omega

theorem mem_setField (k v : List Char) (m : List (List Char × List Char))
    (x : List Char × List Char) (h : x ∈ setField k v m) : x = (k, v) ∨ x ∈ m := by
  induction m with
  | nil => simpa [setField] using h
  | cons kv m ih =>
    obtain ⟨k1, v1⟩ := kv
    simp only [setField] at h
    split at h
    · rcases List.mem_cons.mp h with h | h
      · exact Or.inl h
      · exact Or.inr (List.mem_cons_of_mem _ h)
    · split at h
      · rcases List.mem_cons.mp h with h | h
        · exact Or.inl h
        · exact Or.inr h
      · rcases List.mem_cons.mp h with h | h
        · exact Or.inr (h ▸ List.mem_cons_self _ _)
        · rcases ih h with h | h
          · exact Or.inl h
          · exact Or.inr (List.mem_cons_of_mem _ h)

theorem setField_sorted (k v : List Char) (m : List (List Char × List Char))
    (h : Sorted m) : Sorted (setField k v m) := by
  induction m with
  | nil => simp [setField, Sorted]
  | cons kv m ih =>
    obtain ⟨k1, v1⟩ := kv
    have h1 := List.pairwise_cons.mp h
    simp only [setField]
    split
    · rename_i hk
      subst hk
      exact List.pairwise_cons.mpr ⟨h1.1, h1.2⟩
    · split
      · rename_i hk hlt
        refine List.pairwise_cons.mpr ⟨?_, h⟩
        intro x hx
        rcases List.mem_cons.mp hx with rfl | hx
        · exact hlt
        · exact strLt_trans _ _ _ hlt (h1.1 x hx)
      · rename_i hk hlt
        refine List.pairwise_cons.mpr ⟨?_, ih h1.2⟩
        intro x hx
        rcases mem_setField k v m x hx with rfl | hx
        · exact strLt_total k k1 hk (by simpa using hlt)
        · exact h1.1 x hx

theorem setField_append (k v : List Char) (m : List (List Char × List Char))
    (h : ∀ x ∈ m, strLt x.1 k = true) : setField k v m = m ++ [(k, v)] := by
  induction m with
  | nil => rfl
  | cons kv m ih =>
    obtain ⟨k1, v1⟩ := kv
    have h1 := h (k1, v1) (List.mem_cons_self _ _)
    have hne : k ≠ k1 := by
      rintro rfl
      rw [strLt_irrefl] at h1
      exact Bool.false_ne_true h1
    have hlt : strLt k k1 = false := strLt_asymm _ _ h1
    simp only [setField, if_neg hne, hlt, Bool.false_eq_true, if_false, List.cons_append]
    rw [ih (fun x hx => h x (List.mem_cons_of_mem _ hx))]

theorem foldl_setField_sorted (fs : List (List Char × List Char)) :
    ∀ acc : List (List Char × List Char), Sorted (acc ++ fs) →
      fs.foldl (fun m kv => setField kv.1 kv.2 m) acc = acc ++ fs := by
  induction fs with
  | nil => intro acc _; simp
  | cons kv fs ih =>
    intro acc h
    have h1 : ∀ x ∈ acc, strLt x.1 kv.1 = true := by
      intro x hx
      exact (List.pairwise_append.mp h).2.2 x hx kv (List.mem_cons_self _ _)
    simp only [List.foldl_cons]
    rw [setField_append kv.1 kv.2 acc h1, ih (acc ++ [kv]) (by simpa using h)]
    simp

/-- A map in increasing order of keys is the map its own entries build. -/
theorem mapOf_sorted (fs : List (List Char × List Char)) (h : Sorted fs) : mapOf fs = fs := by
  simpa [mapOf] using foldl_setField_sorted fs [] (by simpa using h)

/-! ## What the parser returns on a token stream -/

theorem TrimSpace_subset (s : List Char) : TrimSpace s ⊆ s :=
  fun _ hc => (List.dropWhile_suffix _).subset ((List.rdropWhile_prefix IsSpace _).subset hc)

theorem TrimSpace_idem (s : List Char) : TrimSpace (TrimSpace s) = TrimSpace s := by
  apply TrimSpace_self
  · intro c hc
    obtain ⟨u, hu⟩ : TrimSpace s <+: s.dropWhile IsSpace := List.rdropWhile_prefix IsSpace _
    have h1 : (s.dropWhile IsSpace).head? = some c := by
      rw [← hu]
      cases ht : TrimSpace s with
      | nil => rw [ht] at hc; cases hc
      | cons d ds =>
        rw [ht] at hc
        simpa using hc
    have h2 := List.head?_dropWhile_not IsSpace s
    rw [h1] at h2
    simpa using h2
  · intro c hc
    have hne : List.rdropWhile IsSpace (s.dropWhile IsSpace) ≠ [] := by
      intro h
      rw [TrimSpace, h] at hc
      cases hc
    have h1 := List.rdropWhile_last_not IsSpace (s.dropWhile IsSpace) hne
    have h2 : (TrimSpace s).getLast? = some ((TrimSpace s).getLast hne) :=
      List.getLast?_eq_getLast _ hne
    have h3 : c = (TrimSpace s).getLast hne := by
      have : (TrimSpace s).getLast? = some c := hc
      rw [h2] at this
      exact (Option.some.inj this).symm
    rw [h3]
    simpa [TrimSpace] using h1

theorem eol_IsSpace (c : Char) (h : eolChar c = true) : IsSpace c = true := by
  simp only [eolChar, Bool.or_eq_true, beq_iff_eq] at h
  rcases h with rfl | rfl <;> decide

theorem noEOL_TrimSpace (v : List Char) (h : valText v = true) : noEOL (TrimSpace v) = true := by
  rcases List.eq_nil_or_concat v with rfl | ⟨v0, c, rfl⟩
  · rfl
  · simp only [List.concat_eq_append] at h ⊢
    simp only [valText, List.dropLast_concat] at h
    by_cases hc : IsSpace c = true
    · rw [TrimSpace_append_right v0 [c] (by simpa using hc)]
      simp only [noEOL, List.all_eq_true] at h ⊢
      exact fun d hd => h d (TrimSpace_subset v0 hd)
    · have hc2 : eolChar c = false := by
        by_contra hx
        simp only [Bool.not_eq_false] at hx
        exact hc (eol_IsSpace c hx)
      simp only [noEOL, List.all_eq_true] at h ⊢
      intro d hd
      have hd2 := TrimSpace_subset _ hd
      rcases List.mem_append.mp hd2 with hd3 | hd3
      · exact h d hd3
      · simp only [List.mem_singleton] at hd3
        subst hd3
        simp [hc2]

theorem entryGood_field (T : GoLib) (k v : List Char) (hk : isKeyText T k = true)
    (hv : valText v = true) : entryGood T (TrimSpace k, TrimSpace v) = true := by
  simp only [entryGood, trimmed, Bool.and_eq_true, decide_eq_true_eq]
  rw [TrimSpace_ident T k (isKeyText_ident T k hk)]
  exact ⟨⟨hk, noEOL_TrimSpace v hv⟩, TrimSpace_idem v⟩

theorem FieldsGood_setField (T : GoLib) (k v : List Char) (f : List (List Char × List Char))
    (hf : FieldsGood T f) (hkv : entryGood T (k, v) = true) :
    FieldsGood T (setField k v f) := by
  refine ⟨setField_sorted k v f hf.1, ?_⟩
  intro x hx
  rcases mem_setField k v f x hx with rfl | hx
  · exact hkv
  · exact hf.2 x hx

theorem goodAll_append (T : GoLib) (N : List Char → Bool) (ss : List Store) (c : Store)
    (h : Store.goodAll T N ss) (h1 : N c.Name = true) (h2 : isName T c.Name = true)
    (h3 : Store.good T N c) : Store.goodAll T N (ss ++ [c]) := by
  induction ss with
  | nil => exact ⟨h1, h2, h3, trivial⟩
  | cons s ss ih =>
    simp only [List.cons_append, Store.goodAll] at h ⊢
    exact ⟨h.1, h.2.1, h.2.2.1, ih h.2.2.2⟩

/-- On a token stream of the lexer, `parse` never panics, its errors are of
the four reachable kinds, and when it returns `nil` the tokens left are again
such a stream (or none), the name of the store is unchanged and the store is
well formed if it was. -/
theorem parse_inv (T : GoLib) (N : List Char → Bool) :
    ∀ (k : Nat) (items : List item) (s : Store), items.length ≤ k → Stream T N items →
      ∃ ret, parseAll T s items = some ret ∧ RetOk T N s ret := by
  intro k
  induction k with
  | zero =>
    intro items s hlen hst
    have : items = [] := List.length_eq_zero.mp (by omega)
    subst this
    cases hst
  | succ k ih =>
    intro items s hlen hst
    obtain ⟨sn, sf, sc⟩ := s
    cases hst with
    | eof => exact ⟨_, parseAll_eof T _ [] [], Or.inl rfl, rfl, id⟩
    | error msg hmsg => exact ⟨_, parseAll_error T _ msg [], ParseError.scan msg hmsg⟩
    | keyError key n hk hn =>
      exact ⟨_, parseAll_key_error T _ key (equalError n) [], ParseError.noEqual key n hk hn⟩
    | field key e v rest hk he hv hrest =>
      simp only [List.length_cons] at hlen
      obtain ⟨ret, h1, h2⟩ := ih rest
        (.mk sn (setField (TrimSpace key) (TrimSpace v) sf) sc) (by omega) hrest
      refine ⟨ret, by rw [parseAll_field]; exact h1, ?_⟩
      cases ret with
      | panic => exact h2
      | error msg => exact h2
      | nil s1 r =>
        refine ⟨h2.1, h2.2.1, fun hg => h2.2.2 ?_⟩
        simp only [Store.good] at hg ⊢
        exact ⟨FieldsGood_setField T _ _ sf hg.1 (entryGood_field T key v hk hv), hg.2⟩
    | openTag n rest hn hN hrest =>
      simp only [List.length_cons] at hlen
      obtain ⟨ret1, h1, h2⟩ := ih rest (.mk n [] []) (by omega) hrest
      rw [parseAll_open T _ _ n _ (slice_open n), h1]
      cases ret1 with
      | panic => exact absurd h2 id
      | error msg => exact ⟨_, rfl, h2⟩
      | nil ss r =>
        have hr := parseAll_rest T _ _ _ _ h1
        obtain ⟨htail, hname, hgood⟩ := h2
        have hss : Store.good T N ss := hgood ⟨⟨List.Pairwise.nil, by simp⟩, trivial⟩
        have hname2 : ss.Name = n := hname
        rcases htail with rfl | htail
        · exact ⟨_, parseAll_nil T _, ParseError.eof _⟩
        · obtain ⟨ret2, h3, h4⟩ := ih r (.mk sn sf (sc ++ [ss])) (by omega) htail
          refine ⟨ret2, h3, ?_⟩
          cases ret2 with
          | panic => exact h4
          | error msg => exact h4
          | nil s1 r1 =>
            refine ⟨h4.1, h4.2.1, fun hg => h4.2.2 ?_⟩
            simp only [Store.good] at hg ⊢
            exact ⟨hg.1, goodAll_append T N sc ss hg.2 (by rw [hname2]; exact hN)
              (by rw [hname2]; exact hn) hss⟩
    | closeTag n rest hn hrest =>
      rw [parseAll_close T _ _ n _ (slice_close n)]
      by_cases hc : n = sn
      · subst hc
        exact ⟨.nil (.mk n sf sc) rest, by simp [Store.Name], Or.inr hrest, rfl, id⟩
      · exact ⟨.error ("store ".toList ++ fmtStorePtr (.mk sn sf sc) ++ " closed with </".toList ++
          n ++ ['>']), by simp only [Store.Name, ne_eq, hc, not_false_eq_true, if_true],
          ParseError.closed _ n⟩

/-! ## Names of stores -/

theorem Parse_of_stream (T : GoLib) (N : List Char → Bool) (input : List Char)
    (toks : List item) (h1 : lex T input = some ⟨toks, false⟩) (h2 : Stream T N toks) :
    (∃ t, Parse T input = some (.ok t) ∧ t.Name = [] ∧ t.good T N) ∨
      (∃ msg, Parse T input = some (.error msg) ∧ ParseError T msg) := by
  obtain ⟨ret, h3, h4⟩ := parse_inv T N _ toks newStore le_rfl h2
  have h5 : Parse T input =
      match parseAll T newStore toks with
      | none => none
      | some (.nil s _) => some (.ok s)
      | some (.error msg) => some (.error msg)
      | some .panic => some .panic := by
    simp only [Parse, h1, Bool.false_eq_true, if_false]
    rfl
  rw [h3] at h5
  cases ret with
  | panic => exact absurd h4 id
  | error msg => exact Or.inr ⟨msg, h5, h4⟩
  | nil s1 r =>
    refine Or.inl ⟨s1, h5, h4.2.1, h4.2.2 ?_⟩
    exact ⟨⟨List.Pairwise.nil, by simp⟩, trivial⟩

theorem stream_named (T : GoLib) (toks : List item) (h : Stream T anyName toks)
    (hne : ∀ i ∈ toks, i ≠ ⟨.itemLeftMeta, ['<', '>']⟩) : Stream T nonEmptyName toks := by
  induction h with
  | eof => exact Stream.eof
  | error msg hm => exact Stream.error msg hm
  | keyError k n hk hn => exact Stream.keyError k n hk hn
  | field k e v rest hk he hv _ ih =>
    exact Stream.field k e v rest hk he hv (ih fun i hi => hne i (by simp [hi]))
  | openTag n rest hn _ _ ih =>
    refine Stream.openTag n rest hn ?_ (ih fun i hi => hne i (by simp [hi]))
    cases n with
    | nil => exact absurd rfl (hne _ (List.mem_cons_self _ _))
    | cons c cs => rfl
  | closeTag n rest hn _ ih =>
    exact Stream.closeTag n rest hn (ih fun i hi => hne i (by simp [hi]))

mutual
theorem named_of_good (T : GoLib) : ∀ s : Store, s.good T nonEmptyName → s.named = true
  | .mk _ _ ss, h => by
    simp only [Store.good] at h
    simpa only [Store.named] using namedAll_of_good T ss h.2
theorem namedAll_of_good (T : GoLib) :
    ∀ ss : List Store, Store.goodAll T nonEmptyName ss → Store.namedAll ss = true
  | [], _ => rfl
  | s :: ss, h => by
    simp only [Store.goodAll] at h
    simp only [Store.namedAll, Bool.and_eq_true]
    exact ⟨⟨h.1, named_of_good T s h.2.2.1⟩, namedAll_of_good T ss h.2.2.2⟩
end

theorem Parse_empty_name (T : GoLib) :
    Parse T "<>\n</>\n".toList = some (.ok (.mk [] [] [.mk [] [] []])) :=
  Parse_entries T [.block [] [.noise (.blank '\n')], .noise (.blank '\n')] rfl

/-- C11, as stated, fails: `<>` is an opening tag, and the block it opens is
a store with the empty name. -/
theorem Parse_named_counterexample :
    Parse asciiLib "<>\n</>\n".toList = some (.ok (.mk [] [] [.mk [] [] []])) ∧
      Store.named (.mk [] [] [.mk [] [] []]) = false :=
  ⟨Parse_empty_name asciiLib, by decide⟩

/-- C11, amended: when `Parse` succeeds on an input whose token stream holds
no opening tag `<>`, every store of the returned tree other than the root has
a non-empty name. -/
theorem Parse_named (T : GoLib) (input : List Char) (t : Store)
    (h : Parse T input = some (.ok t)) (hne : noEmptyTag T input = true) :
    t.named = true := by
  obtain ⟨toks, h1, h2⟩ := lex_stream T input
  have h3 : ∀ i ∈ toks, i ≠ ⟨.itemLeftMeta, ['<', '>']⟩ := by
    intro i hi he
    subst he
    simp only [noEmptyTag, h1, Bool.not_eq_true', List.contains_eq_any_beq,
      List.any_eq_false, beq_iff_eq] at hne
    exact hne _ hi rfl
  rcases Parse_of_stream T nonEmptyName input toks h1 (stream_named T toks h2 h3) with
    ⟨t1, h4, _, h5⟩ | ⟨msg, h4, _⟩
  · rw [h] at h4
    cases h4
    exact named_of_good T t h5
  · rw [h] at h4
    cases h4

theorem Parse_named_witness :
    Store.named (.mk [] [] [.mk "a".toList [] [.mk "b".toList [] []]]) = true :=
  Parse_named asciiLib "<a>\n<b>\n</b>\n</a>\n".toList _ rfl (by decide)

/-! ## The end of the token stream -/

theorem stream_end (T : GoLib) (N : List Char → Bool) (toks : List item)
    (h : Stream T N toks) :
    ∃ init last, toks = init ++ [last] ∧ (last.typ = .itemEOF ∨ last.typ = .itemError) ∧
      ∀ i ∈ init, i.typ ≠ .itemEOF ∧ i.typ ≠ .itemError := by
  induction h with
  | eof => exact ⟨[], _, rfl, Or.inl rfl, by simp⟩
  | error msg _ => exact ⟨[], _, rfl, Or.inr rfl, by simp⟩
  | keyError k n _ _ => exact ⟨[⟨.itemKey, k⟩], _, rfl, Or.inr rfl, by simp⟩
  | field k e v rest _ _ _ _ ih =>
    obtain ⟨init, last, h1, h2, h3⟩ := ih
    refine ⟨⟨.itemKey, k⟩ :: ⟨.itemEqual, e⟩ :: ⟨.itemVal, v⟩ :: init, last, by simp [h1], h2, ?_⟩
    intro i hi
    simp only [List.mem_cons] at hi
    rcases hi with rfl | rfl | rfl | hi
    · simp
    · simp
    · simp
    · exact h3 i hi
  | openTag n rest _ _ _ ih =>
    obtain ⟨init, last, h1, h2, h3⟩ := ih
    refine ⟨⟨.itemLeftMeta, '<' :: (n ++ ['>'])⟩ :: init, last, by simp [h1], h2, ?_⟩
    intro i hi
    rcases List.mem_cons.mp hi with rfl | hi
    · simp
    · exact h3 i hi
  | closeTag n rest _ _ ih =>
    obtain ⟨init, last, h1, h2, h3⟩ := ih
    refine ⟨⟨.itemRightMeta, '<' :: '/' :: (n ++ ['>'])⟩ :: init, last, by simp [h1], h2, ?_⟩
    intro i hi
    rcases List.mem_cons.mp hi with rfl | hi
    · simp
    · exact h3 i hi

/-- C14: for every input the lexer sends finitely many tokens and at least
one, the last one is EndOfStream or Error, and no token before it is. -/
theorem lex_ends (T : GoLib) (input : List Char) :
    ∃ init last, lex T input = some ⟨init ++ [last], false⟩ ∧
      (last.typ = .itemEOF ∨ last.typ = .itemError) ∧
      ∀ i ∈ init, i.typ ≠ .itemEOF ∧ i.typ ≠ .itemError := by
  obtain ⟨toks, h1, h2⟩ := lex_stream T input
  obtain ⟨init, last, h3, h4, h5⟩ := stream_end T anyName toks h2
  exact ⟨init, last, by rw [h1, h3], h4, h5⟩

/-! ## Parsed trees -/

theorem fieldTidy_of_good (T : GoLib) (kv : List Char × List Char)
    (h : entryGood T kv = true) : fieldTidy T kv = true := by
  simp only [entryGood, trimmed, Bool.and_eq_true, decide_eq_true_eq] at h
  simp only [fieldTidy, Bool.and_eq_true, decide_eq_true_eq]
  exact ⟨⟨⟨TrimSpace_ident T _ (isKeyText_ident T _ h.1.1), h.2⟩, h.1.1⟩, h.1.2⟩

mutual
theorem tidy_of_good (T : GoLib) :
    ∀ s : Store, isName T s.Name = true → s.good T anyName → s.tidy T = true
  | .mk n f ss, hn, h => by
    simp only [Store.good] at h
    simp only [Store.tidy, Bool.and_eq_true, List.all_eq_true]
    exact ⟨⟨hn, fun kv hkv => fieldTidy_of_good T kv (h.1.2 kv hkv)⟩, tidyAll_of_good T ss h.2⟩
theorem tidyAll_of_good (T : GoLib) :
    ∀ ss : List Store, Store.goodAll T anyName ss → Store.tidyAll T ss = true
  | [], _ => rfl
  | s :: ss, h => by
    simp only [Store.goodAll] at h
    simp only [Store.tidyAll, Bool.and_eq_true]
    exact ⟨tidy_of_good T s h.2.1 h.2.2.1, tidyAll_of_good T ss h.2.2.2⟩
end

theorem Parse_good (T : GoLib) (input : List Char) (t : Store)
    (h : Parse T input = some (.ok t)) : t.Name = [] ∧ t.good T anyName := by
  obtain ⟨toks, h1, h2⟩ := lex_stream T input
  rcases Parse_of_stream T anyName input toks h1 h2 with ⟨t1, h4, h5, h6⟩ | ⟨msg, h4, _⟩
  · rw [h] at h4
    cases h4
    exact ⟨h5, h6⟩
  · rw [h] at h4
    cases h4

/-- C15: when `Parse` succeeds, in every store of the returned tree
`TrimSpace` leaves each key and each value unchanged, each key is a letter
followed by identifier characters, each value has no carriage return or line
feed, and each name consists of identifier characters. -/
theorem Parse_tidy (T : GoLib) (input : List Char) (t : Store)
    (h : Parse T input = some (.ok t)) : t.tidy T = true := by
  obtain ⟨h1, h2⟩ := Parse_good T input t h
  exact tidy_of_good T t (by rw [h1]; rfl) h2

theorem Parse_tidy_witness :
    Store.tidy asciiLib (.mk [] [("a".toList, "b c".toList)]
      [.mk "x".toList [("k".toList, "v".toList)] []]) = true :=
  Parse_tidy asciiLib " a = b c \t\r\n<x>\nk=v\n</x>\n".toList _ rfl

/-! ## Termination -/

/-- C16: the lexer terminates on every input.  From the Block state, `run`
reaches the nil state within `5 * len + 1` steps, whatever larger bound it is
given, without panic; the token stream is a total function of the input. -/
theorem lex_terminates (T : GoLib) (input : List Char) :
    ∃ toks, (∀ m, 5 * input.length + 1 ≤ m →
        run T m .lexBlock ⟨[], input, 0, []⟩ = some ⟨toks, false⟩) ∧
      lex T input = some ⟨toks, false⟩ := by
  obtain ⟨toks, h1, _⟩ := lex_stream T input
  refine ⟨toks, fun m hm => ?_, h1⟩
  rw [lex_eq_scan] at h1
  rw [run_eq_scan T .lexBlock _ m (by simpa only [stepsBound] using hm)]
  exact h1

/-! ## What follows a Key token and an Equals token -/

theorem stream_after_key (T : GoLib) (N : List Char → Bool) (toks : List item)
    (h : Stream T N toks) :
    ∀ (pre : List item) (k : List Char) (rest : List item),
      toks = pre ++ ⟨.itemKey, k⟩ :: rest →
      (∃ e v rest1, rest = ⟨.itemEqual, e⟩ :: ⟨.itemVal, v⟩ :: rest1) ∨
        ∃ msg, rest = [⟨.itemError, msg⟩] := by
  induction h with
  | eof =>
    intro pre k rest h
    rcases pre with _ | ⟨x, pre⟩ <;> simp at h
  | error msg _ =>
    intro pre k rest h
    rcases pre with _ | ⟨x, pre⟩ <;> simp at h
  | keyError k0 n _ _ =>
    intro pre k rest h
    rcases pre with _ | ⟨x, _ | ⟨y, pre⟩⟩ <;> simp at h
    exact Or.inr ⟨_, h.2.symm⟩
  | field k0 e v rest0 _ _ _ _ ih =>
    intro pre k rest h
    rcases pre with _ | ⟨x, _ | ⟨y, _ | ⟨z, pre⟩⟩⟩ <;> simp at h
    · exact Or.inl ⟨e, v, rest0, h.2.symm⟩
    · exact ih pre k rest h.2.2.2
  | openTag n rest0 _ _ _ ih =>
    intro pre k rest h
    rcases pre with _ | ⟨x, pre⟩ <;> simp at h
    exact ih pre k rest h.2
  | closeTag n rest0 _ _ ih =>
    intro pre k rest h
    rcases pre with _ | ⟨x, pre⟩ <;> simp at h
    exact ih pre k rest h.2

theorem stream_after_equal (T : GoLib) (N : List Char → Bool) (toks : List item)
    (h : Stream T N toks) :
    ∀ (pre : List item) (e : List Char) (rest : List item),
      toks = pre ++ ⟨.itemEqual, e⟩ :: rest → ∃ v rest1, rest = ⟨.itemVal, v⟩ :: rest1 := by
  induction h with
  | eof =>
    intro pre k rest h
    rcases pre with _ | ⟨x, pre⟩ <;> simp at h
  | error msg _ =>
    intro pre k rest h
    rcases pre with _ | ⟨x, pre⟩ <;> simp at h
  | keyError k0 n _ _ =>
    intro pre k rest h
    rcases pre with _ | ⟨x, _ | ⟨y, pre⟩⟩ <;> simp at h
  | field k0 e v rest0 _ _ _ _ ih =>
    intro pre k rest h
    rcases pre with _ | ⟨x, _ | ⟨y, _ | ⟨z, pre⟩⟩⟩ <;> simp at h
    · exact ⟨v, rest0, h.2.2.symm⟩
    · exact ih pre k rest h.2.2.2
  | openTag n rest0 _ _ _ ih =>
    intro pre k rest h
    rcases pre with _ | ⟨x, pre⟩ <;> simp at h
    exact ih pre k rest h.2
  | closeTag n rest0 _ _ ih =>
    intro pre k rest h
    rcases pre with _ | ⟨x, pre⟩ <;> simp at h
    exact ih pre k rest h.2

/-- C19: in the token stream of every input a Key token is followed by an
Equals token and a Value token, or by an Error token that ends the stream, and
an Equals token is followed by a Value token; so the parser finds a token in
both slots after a key, and every error `Parse` returns comes from one of the
other four `return` statements of `parse`, not from "not followed by a
value". -/
theorem lex_key_equal_value (T : GoLib) (input : List Char) :
    ∃ toks, lex T input = some ⟨toks, false⟩ ∧
      (∀ (pre : List item) (k : List Char) (rest : List item),
        toks = pre ++ ⟨.itemKey, k⟩ :: rest →
        (∃ e v rest1, rest = ⟨.itemEqual, e⟩ :: ⟨.itemVal, v⟩ :: rest1) ∨
          ∃ msg, rest = [⟨.itemError, msg⟩]) ∧
      (∀ (pre : List item) (e : List Char) (rest : List item),
        toks = pre ++ ⟨.itemEqual, e⟩ :: rest → ∃ v rest1, rest = ⟨.itemVal, v⟩ :: rest1) ∧
      (∀ msg, Parse T input = some (.error msg) → ParseError T msg) := by
  obtain ⟨toks, h1, h2⟩ := lex_stream T input
  refine ⟨toks, h1, stream_after_key T anyName toks h2, stream_after_equal T anyName toks h2, ?_⟩
  intro msg hmsg
  rcases Parse_of_stream T anyName input toks h1 h2 with ⟨t1, h4, _⟩ | ⟨msg1, h4, h5⟩
  · rw [hmsg] at h4
    cases h4
  · rw [hmsg] at h4
    cases h4
    exact h5

/-! ## Tags stay in range -/

theorem stream_tags (T : GoLib) (N : List Char → Bool) (toks : List item)
    (h : Stream T N toks) :
    ∀ i ∈ toks,
      (i.typ = .itemLeftMeta → ∃ n, isName T n = true ∧ i.val = '<' :: (n ++ ['>'])) ∧
      (i.typ = .itemRightMeta → ∃ n, isName T n = true ∧ i.val = '<' :: '/' :: (n ++ ['>'])) := by
  induction h with
  | eof => intro i hi; simp at hi; subst hi; simp
  | error msg _ => intro i hi; simp at hi; subst hi; simp
  | keyError k n _ _ =>
    intro i hi
    simp at hi
    rcases hi with rfl | rfl <;> simp
  | field k e v rest _ _ _ _ ih =>
    intro i hi
    simp only [List.mem_cons] at hi
    rcases hi with rfl | rfl | rfl | hi
    · simp
    · simp
    · simp
    · exact ih i hi
  | openTag n rest hn _ _ ih =>
    intro i hi
    rcases List.mem_cons.mp hi with rfl | hi
    · exact ⟨fun _ => ⟨n, hn, rfl⟩, by simp⟩
    · exact ih i hi
  | closeTag n rest hn _ ih =>
    intro i hi
    rcases List.mem_cons.mp hi with rfl | hi
    · exact ⟨by simp, fun _ => ⟨n, hn, rfl⟩⟩
    · exact ih i hi

theorem open_second (T : GoLib) (n : List Char) (hn : isName T n = true) :
    ('<' :: (n ++ ['>']))[1]? ≠ some '/' := by
  cases n with
  | nil => decide
  | cons c cs =>
    simp only [List.cons_append, List.getElem?_cons_succ, List.getElem?_cons_zero, ne_eq,
      Option.some.injEq]
    rintro rfl
    have := isName_ident T _ hn '/' (by simp)
    rw [identChar_slash] at this
    exact Bool.false_ne_true this

/-- C20: no index or slice of a tag goes out of range.  For every input the
scan ends without panic; every BlockOpen token is `<`, a name of identifier
characters, `>`, at least 2 long, its second character is not `/`, and
`val[1:len-1]` is the name; every BlockClose token is `</`, a name, `>`, at
least 3 long, and `val[2:len-1]` is the name; `Parse` does not panic. -/
theorem tags_in_range (T : GoLib) (input : List Char) :
    ∃ toks, lex T input = some ⟨toks, false⟩ ∧
      (∀ i ∈ toks, i.typ = .itemLeftMeta →
        ∃ n, isName T n = true ∧ i.val = '<' :: (n ++ ['>']) ∧ 2 ≤ i.val.length ∧
          i.val[1]? ≠ some '/' ∧ slice i.val 1 ((i.val.length : Int) - 1) = some n) ∧
      (∀ i ∈ toks, i.typ = .itemRightMeta →
        ∃ n, isName T n = true ∧ i.val = '<' :: '/' :: (n ++ ['>']) ∧ 3 ≤ i.val.length ∧
          slice i.val 2 ((i.val.length : Int) - 1) = some n) ∧
      Parse T input ≠ some .panic := by
  obtain ⟨toks, h1, h2⟩ := lex_stream T input
  have h3 := stream_tags T anyName toks h2
  refine ⟨toks, h1, ?_, ?_, ?_⟩
  · intro i hi ht
    obtain ⟨n, hn, hv⟩ := (h3 i hi).1 ht
    refine ⟨n, hn, hv, ?_, ?_, ?_⟩
    · rw [hv]; simp
    · rw [hv]; exact open_second T n hn
    · rw [hv]; exact slice_open n
  · intro i hi ht
    obtain ⟨n, hn, hv⟩ := (h3 i hi).2 ht
    refine ⟨n, hn, hv, ?_, ?_⟩
    · rw [hv]; simp
    · rw [hv]; exact slice_close n
  · intro hp
    rcases Parse_of_stream T anyName input toks h1 h2 with ⟨t1, h4, _⟩ | ⟨msg1, h4, _⟩
    · rw [hp] at h4
      cases h4
    · rw [hp] at h4
      cases h4

/-! ## Characters the Block state rejects -/

theorem scan_blanks (T : GoLib) (ws : List Char)
    (hws : ws.all (fun c => spTab c || eolChar c) = true) (r : List Char) (w : Nat)
    (xs : List item) :
    scan T .lexBlock ⟨[], ws ++ r, w, xs⟩ = scan T .lexBlock ⟨[], r, 0, xs⟩ := by
  have h1 : piecesText (ws.map Piece.blank) = ws := by
    induction ws with
    | nil => rfl
    | cons c cs ih =>
      simp only [List.all_cons, Bool.and_eq_true] at hws
      have := ih hws.2
      simp only [piecesText, List.map_cons, List.flatten_cons, Piece.text] at this ⊢
      rw [this]
      rfl
  have h2 : (ws.map Piece.blank).all Piece.ok = true := by
    rw [List.all_eq_true] at hws ⊢
    intro p hp
    obtain ⟨c, hc, rfl⟩ := List.mem_map.mp hp
    exact hws c hc
  have := scan_pieces T _ h2 r w xs
  rwa [h1] at this

/-- C18: after any blanks, tabs and line ends, a character that is none of
blank, tab, carriage return, line feed, `#`, `<` and letter makes `Parse`
return an error whose message begins with "unrecognized character in action";
a digit or an underscore in the place of a key is such a character. -/
theorem Parse_bad_char (T : GoLib) (ws : List Char) (c : Char) (rest : List Char)
    (hws : ws.all (fun c => spTab c || eolChar c) = true) (hc : blockStart T c = false) :
    ∃ msg, Parse T (ws ++ c :: rest) = some (.error msg) ∧
      "unrecognized character in action".toList <+: msg := by
  simp only [blockStart, spTab, eolChar, Bool.or_eq_false_iff, beq_eq_false_iff_ne] at hc
  obtain ⟨⟨⟨⟨⟨h1, h2⟩, h3, h4⟩, h6⟩, h5⟩, hl⟩ := hc
  refine ⟨T.Errorf ("unrecognized character in action: ".toList ++ fmtSharpU T (some c)), ?_, ?_⟩
  · rw [Parse_eq, scan_blanks T ws hws, scan_block_bad T [] c rest 0 [] h1 h2 h3 h4 h5 h6 hl]
    rfl
  · rw [T.errorf_plain _ _ (by decide)]
    exact ⟨[':', ' '] ++ T.Errorf (fmtSharpU T (some c)), by simp⟩

theorem Parse_bad_char_witness :
    (∃ msg, Parse asciiLib " \n1a=2".toList = some (.error msg) ∧
      "unrecognized character in action".toList <+: msg) ∧
    (∃ msg, Parse asciiLib "_a=2".toList = some (.error msg) ∧
      "unrecognized character in action".toList <+: msg) :=
  ⟨Parse_bad_char asciiLib " \n".toList '1' "a=2".toList (by decide) (by decide),
    Parse_bad_char asciiLib [] '_' "a=2".toList (by decide) (by decide)⟩

/-! ## The percent sign in an error text -/

theorem fmtSharpU_percent (T : GoLib) :
    fmtSharpU T (some '%') = "U+0025 '%'".toList := by
  have h : T.IsPrint '%' = true := by
    rw [T.print_ascii _ (by decide)]; decide
  simp only [fmtSharpU, h, if_true]
  decide

/-- C12 at the input `%`: the Error token carries the text
`unrecognized character in action: U+0025 '%'`, and the message `Parse` returns
is another one: the parser passes the text to `fmt.Errorf` as a format, and
the percent sign in it is read as a verb without operand. -/
theorem Parse_percent (T : GoLib) :
    lex T "%".toList =
        some ⟨[⟨.itemError, "unrecognized character in action: U+0025 '%'".toList⟩], false⟩ ∧
      Parse T "%".toList =
        some (.error "unrecognized character in action: U+0025 '%!'(MISSING)".toList) ∧
      "unrecognized character in action: U+0025 '%!'(MISSING)".toList ≠
        "unrecognized character in action: U+0025 '%'".toList := by
  have hl : T.IsLetter '%' = false := by
    rw [T.letter_ascii _ (by decide)]; decide
  have hs : scan T .lexBlock ⟨[], "%".toList, 0, []⟩ =
      ⟨[⟨.itemError, "unrecognized character in action: U+0025 '%'".toList⟩], false⟩ := by
    have h1 := scan_block_bad T [] '%' [] 0 [] (by decide) (by decide) (by decide) (by decide)
      (by decide) (by decide) hl
    rw [fmtSharpU_percent] at h1
    exact h1
  refine ⟨?_, ?_, by decide⟩
  · rw [lex_eq_scan, hs]
  · rw [Parse_eq, hs]
    simp only [Bool.false_eq_true, if_false]
    rw [parseAll_error]
    have e1 : "unrecognized character in action: U+0025 '%'".toList =
        "unrecognized character in action: U+0025 '".toList ++ ['%', Char.ofNat 39] := by decide
    rw [e1, T.errorf_plain _ _ (by decide), T.errorf_missing]
    rfl

/-! ## Parsing a rendering again -/

theorem sorted_nodup (f : List (List Char × List Char)) (h : Sorted f) :
    (f.map Prod.fst).Nodup := by
  rw [List.Nodup, List.pairwise_map]
  refine List.Pairwise.imp ?_ h
  intro a b hab he
  rw [he, strLt_irrefl] at hab
  exact Bool.false_ne_true hab

mutual
theorem tree_toStore (T : GoLib) (N : List Char → Bool) :
    ∀ s : Store, s.good T N → s.tree.toStore = s ∧ s.tree.distinct = true
  | .mk n f ss, h => by
    simp only [Store.good] at h
    obtain ⟨h1, h2⟩ := trees_toStores T N ss h.2
    simp only [Store.tree, Tree.toStore, Tree.distinct, mapOf_sorted f h.1.1, h1, h2,
      Bool.and_true, decide_eq_true_eq, true_and]
    exact sorted_nodup f h.1.1
theorem trees_toStores (T : GoLib) (N : List Char → Bool) :
    ∀ ss : List Store, Store.goodAll T N ss →
      Tree.toStores (Store.trees ss) = ss ∧ Tree.distinctAll (Store.trees ss) = true
  | [], _ => ⟨rfl, rfl⟩
  | s :: ss, h => by
    simp only [Store.goodAll] at h
    obtain ⟨h1, h2⟩ := tree_toStore T N s h.2.2.1
    obtain ⟨h3, h4⟩ := trees_toStores T N ss h.2.2.2
    simp only [Store.trees, Tree.toStores, Tree.distinctAll, h1, h2, h3, h4, Bool.and_self,
      and_self]
end

theorem rdropWhile_last {α : Type} (p : α → Bool) (w u : List α) (h : w.rdropWhile p = u) :
    ∀ c ∈ u.getLast?, p c = false := by
  subst h
  intro c hc
  by_cases hn : w.rdropWhile p = []
  · rw [hn] at hc
    simp at hc
  · have h1 := List.rdropWhile_last_not p w hn
    rw [List.getLast?_eq_getLast _ hn] at hc
    simp only [Option.mem_def, Option.some.injEq] at hc
    rw [← hc]
    simpa using h1

theorem cleanValue_of_trimmed (v : List Char) (h : TrimSpace v = v)
    (hp : v.head? ≠ some '=') : cleanValue v = true := by
  cases v with
  | nil => rfl
  | cons c cs =>
    have h1 : IsSpace c = false := by
      by_contra hc
      have hc1 : IsSpace c = true := by simpa using hc
      have e1 : (TrimSpace (c :: cs)).length ≤ cs.length := by
        rw [TrimSpace, List.dropWhile_cons_of_pos hc1]
        exact ((List.rdropWhile_prefix IsSpace _).length_le).trans
          (List.dropWhile_suffix IsSpace).length_le
      rw [h] at e1
      simp at e1
    have h2 := rdropWhile_last IsSpace _ _ h
    have h3 : c ≠ '=' := by
      rintro rfl
      exact hp rfl
    simp only [cleanValue, List.head?_cons, h1, Bool.not_false, Bool.true_and, bne_iff_ne, ne_eq,
      h3, not_false_eq_true, decide_True, Bool.and_eq_true]
    refine ⟨by simp [h3], ?_⟩
    cases hl : (c :: cs).getLast? with
    | none => rfl
    | some d => simp [h2 d hl]

theorem fieldOk_of_good (T : GoLib) (kv : List Char × List Char)
    (h1 : entryGood T kv = true) (h2 : plainValue kv = true) : fieldOk T kv = true := by
  simp only [entryGood, trimmed, Bool.and_eq_true, decide_eq_true_eq] at h1
  simp only [plainValue, bne_iff_ne, ne_eq] at h2
  simp only [fieldOk, Bool.and_eq_true]
  exact ⟨⟨h1.1.1, h1.1.2⟩, cleanValue_of_trimmed kv.2 h1.2 h2⟩

mutual
theorem fit_of_good (T : GoLib) (N : List Char → Bool) : ∀ (tr : Tree),
    tr.distinct = true → tr.toStore.good T N → tr.toStore.plain = true → tr.fit T = true
  | .node n fs cs, hd, hg, hp => by
    simp only [Tree.distinct, Bool.and_eq_true, decide_eq_true_eq] at hd
    simp only [Tree.toStore, Store.good] at hg
    simp only [Tree.toStore, Store.plain, Bool.and_eq_true] at hp
    simp only [Tree.fit, Bool.and_eq_true]
    refine ⟨?_, fitAll_of_good T N cs hd.2 hg.2 hp.2⟩
    rw [List.all_eq_true]
    intro kv hkv
    have hm : kv ∈ mapOf fs := (mapOf_perm fs hd.1).mem_iff.mpr hkv
    exact fieldOk_of_good T kv (hg.1.2 kv hm) (List.all_eq_true.mp hp.1 kv hm)
theorem fitAll_of_good (T : GoLib) (N : List Char → Bool) : ∀ (ts : List Tree),
    Tree.distinctAll ts = true → Store.goodAll T N (Tree.toStores ts) →
    Store.plainAll (Tree.toStores ts) = true → Tree.fitAll T ts = true
  | [], _, _, _ => rfl
  | .node n fs cs :: ts, hd, hg, hp => by
    simp only [Tree.distinctAll, Bool.and_eq_true] at hd
    simp only [Tree.toStores, Store.goodAll] at hg
    simp only [Tree.toStores, Store.plainAll, Bool.and_eq_true] at hp
    simp only [Tree.fitAll, Bool.and_eq_true]
    refine ⟨⟨?_, fit_of_good T N (.node n fs cs) hd.1 hg.2.2.1 hp.1⟩,
      fitAll_of_good T N ts hd.2 hg.2.2.2 hp.2⟩
    simpa [Tree.toStore, Store.Name] using hg.2.1
end

mutual
theorem scan_fit (T : GoLib) : ∀ (t : Tree), t.fit T = true →
    ∀ (r : List Char) (w : Nat) (xs : List item),
      scan T .lexBlock ⟨[], t.render ++ r, w, xs⟩ = scan T .lexBlock ⟨[], r, 0, xs ++ t.toks⟩
  | .node n fs cs, h, r, w, xs => by
    simp only [Tree.fit, Bool.and_eq_true] at h
    rw [Tree.render, List.append_assoc, scan_fieldsText T fs h.1,
      scan_fitAll T cs h.2 r 0 _, Tree.toks, List.append_assoc]
theorem scan_fitAll (T : GoLib) : ∀ (ts : List Tree), Tree.fitAll T ts = true →
    ∀ (r : List Char) (w : Nat) (xs : List item),
      scan T .lexBlock ⟨[], Tree.renderAll ts ++ r, w, xs⟩ =
        scan T .lexBlock ⟨[], r, 0, xs ++ Tree.toksAll ts⟩
  | [], _, r, w, xs => by
    simpa [Tree.renderAll, Tree.toksAll] using scan_width T .lexBlock [] r w xs
  | .node n fs cs :: ts, h, r, w, xs => by
    simp only [Tree.fitAll, Bool.and_eq_true] at h
    have hn := h.1.1
    have e1 : Tree.renderAll (.node n fs cs :: ts) ++ r =
        '<' :: (n ++ '>' :: ('\n' :: ((Tree.node n fs cs).render ++
          ('<' :: '/' :: (n ++ '>' :: ('\n' :: (Tree.renderAll ts ++ r))))))) := by
      simp [Tree.renderAll]
    rw [e1, scan_open_tag T n hn, scan_block_ws T [] '\n' _ 0 _ (by simp),
      scan_fit T (.node n fs cs) h.1.2, scan_close_tag T n hn,
      scan_block_ws T [] '\n' _ 0 _ (by simp), scan_fitAll T ts h.2 r 0 _]
    simp [Tree.toksAll]
end

mutual
theorem parse_fit (T : GoLib) : ∀ (t : Tree), t.fit T = true →
    ∀ (nm : List Char) (ss : List Store) (tail : List item),
      parseAll T (.mk nm [] ss) (t.toks ++ tail) =
        parseAll T (.mk nm t.toStore.Fields (ss ++ t.toStore.Stores)) tail
  | .node n fs cs, h, nm, ss, tail => by
    simp only [Tree.fit, Bool.and_eq_true] at h
    rw [Tree.toks, List.append_assoc, parse_fieldsToks T fs h.1,
      parse_fitAll T cs h.2]
    rfl
theorem parse_fitAll (T : GoLib) : ∀ (ts : List Tree), Tree.fitAll T ts = true →
    ∀ (nm : List Char) (m : List (List Char × List Char)) (ss : List Store)
      (tail : List item),
      parseAll T (.mk nm m ss) (Tree.toksAll ts ++ tail) =
        parseAll T (.mk nm m (ss ++ Tree.toStores ts)) tail
  | [], _, nm, m, ss, tail => by
    simp [Tree.toksAll, Tree.toStores]
  | .node n fs cs :: ts, h, nm, m, ss, tail => by
    simp only [Tree.fitAll, Bool.and_eq_true] at h
    have e1 : Tree.toksAll (.node n fs cs :: ts) ++ tail =
        ⟨.itemLeftMeta, '<' :: (n ++ ['>'])⟩ :: ((Tree.node n fs cs).toks ++
          (⟨.itemRightMeta, '<' :: '/' :: (n ++ ['>'])⟩ :: (Tree.toksAll ts ++ tail))) := by
      simp [Tree.toksAll]
    rw [e1, parseAll_open T _ _ n _ (slice_open n), parse_fit T (.node n fs cs) h.1.2,
      parseAll_close T _ _ n _ (slice_close n)]
    simp only [Store.Name, ne_eq, not_true_eq_false, if_false, Store.Fields, Store.Stores]
    rw [parse_fitAll T ts h.2]
    simp [Tree.toStores, Tree.toStore, Store.Fields, Store.Stores]
end

theorem Parse_fit (T : GoLib) (t : Tree) (hroot : t.name = []) (h : t.fit T = true) :
    Parse T t.render = some (.ok t.toStore) := by
  have hs := scan_fit T t h [] 0 []
  rw [List.append_nil, scan_block_nil] at hs
  rw [Parse_eq, hs]
  simp only [List.nil_append, Bool.false_eq_true, if_false, newStore]
  rw [parse_fit T t h, parseAll_eof]
  obtain ⟨n, fs, cs⟩ := t
  simp only [Tree.name] at hroot
  subst hroot
  simp [Tree.toStore, Store.Fields, Store.Stores]

theorem Parse_vt : Parse asciiLib ['a', '=', Char.ofNat 11, '=', 'b'] =
    some (.ok (.mk [] [("a".toList, "=b".toList)] [])) := by
  rfl

/-- C13, as stated, fails: `a=`, a vertical tab, `=b` parses to the store with
the one field `a` of value `=b`; its serialization is the line `a==b`, and
parsing that line gives an error. -/
theorem Parse_roundtrip_counterexample :
    Parse asciiLib ['a', '=', Char.ofNat 11, '=', 'b'] =
      some (.ok (.mk [] [("a".toList, "=b".toList)] [])) ∧
    (Tree.node [] [("a".toList, "=b".toList)] []).toStore =
      .mk [] [("a".toList, "=b".toList)] [] ∧
    (Tree.node [] [("a".toList, "=b".toList)] []).render = "a==b\n".toList ∧
    Parse asciiLib "a==b\n".toList =
      some (.error "Key: a not followed by eq, but by error equal symbol occurrence: 2".toList) :=
  ⟨Parse_vt, rfl, rfl, rfl⟩

/-- C13, amended: for every input on which `Parse` succeeds with a tree `t`
none of whose field values begins with an equals sign, `t` can be written
down, and for every way `tr` of writing `t` down (the fields of each store in
any order, each key once, the children in order), parsing the serialization
of `tr` (each field as `key=value` LF, each child as `<name>` LF, its
serialization, `</name>` LF) succeeds and gives exactly `t`. -/
theorem Parse_roundtrip (T : GoLib) (input : List Char) (t : Store)
    (h : Parse T input = some (.ok t)) (hp : t.plain = true) :
    (∃ tr : Tree, tr.toStore = t ∧ tr.distinct = true) ∧
      ∀ tr : Tree, tr.toStore = t → tr.distinct = true →
        Parse T tr.render = some (.ok t) := by
  obtain ⟨hn, hg⟩ := Parse_good T input t h
  refine ⟨⟨t.tree, tree_toStore T anyName t hg⟩, ?_⟩
  intro tr htr hd
  subst htr
  have hroot : tr.name = [] := by
    obtain ⟨n, fs, cs⟩ := tr
    simpa [Tree.toStore, Store.Name, Tree.name] using hn
  exact Parse_fit T tr hroot (fit_of_good T anyName tr hd hg hp)

theorem Parse_roundtrip_witness :
    Parse asciiLib "b=2\na=x y\n<s>\nk=v\n</s>\n<>\n</>\n".toList =
      some (.ok (.mk [] [("a".toList, "x y".toList), ("b".toList, "2".toList)]
        [.mk "s".toList [("k".toList, "v".toList)] [], .mk [] [] []])) :=
  (Parse_roundtrip asciiLib " a = x y \n#c\nb=2\n<s>k=v\n</s><></>".toList
    (.mk [] [("a".toList, "x y".toList), ("b".toList, "2".toList)]
        [.mk "s".toList [("k".toList, "v".toList)] [], .mk [] [] []]) rfl rfl).2
    (.node [] [("b".toList, "2".toList), ("a".toList, "x y".toList)]
      [.node "s".toList [("k".toList, "v".toList)] [], .node [] [] []]) rfl rfl

/-! ## Comments carry nothing -/

theorem eolChar_iff (c : Char) : eolChar c = true ↔ c = '\r' ∨ c = '\n' := by
  simp [eolChar]

theorem eolChar_false (c : Char) (h : eolChar c = false) : c ≠ '\r' ∧ c ≠ '\n' := by
  constructor <;> rintro rfl <;> simp [eolChar] at h

theorem identChar_not_eol (T : GoLib) (c : Char) (h : identChar T c = true) :
    eolChar c = false := by
  have h1 := identChar_ne T c '\r' (by decide) (by decide) h
  have h2 := identChar_ne T c '\n' (by decide) (by decide) h
  simp [eolChar, h1, h2]

theorem second_char (p a r1 r2 : List Char) (ha : a ≠ []) :
    ∃ b, (p ++ '>' :: (a ++ r1))[1]? = some b ∧ (p ++ '>' :: (a ++ r2))[1]? = some b := by
  cases a with
  | nil => exact absurd rfl ha
  | cons y a =>
    rcases p with _ | ⟨q, _ | ⟨q2, p⟩⟩
    · exact ⟨y, by simp, by simp⟩
    · exact ⟨'>', by simp, by simp⟩
    · exact ⟨q2, by simp, by simp⟩

/-- Two remainders that are scanned alike from the start of a line are scanned
alike after every text that ends a line, from every state of the lexer. -/
theorem scan_congr (T : GoLib) (r1 r2 : List Char)
    (H : ∀ (w : Nat) (xs : List item),
      scan T .lexBlock ⟨[], r1, w, xs⟩ = scan T .lexBlock ⟨[], r2, w, xs⟩) :
    ∀ (a : List Char), a ≠ [] → (∀ e ∈ a.getLast?, eolChar e = true) →
      ∀ (f : stateFn) (p : List Char) (w : Nat) (xs : List item),
        scan T f ⟨p, a ++ r1, w, xs⟩ = scan T f ⟨p, a ++ r2, w, xs⟩ := by
  intro a
  induction a with
  | nil => intro h; exact absurd rfl h
  | cons x a ih =>
    intro _ hlast
    have K : ∀ (w : Nat) (xs : List item),
        scan T .lexBlock ⟨[], a ++ r1, w, xs⟩ = scan T .lexBlock ⟨[], a ++ r2, w, xs⟩ := by
      intro w xs
      cases a with
      | nil => exact H w xs
      | cons y a =>
        exact ih (List.cons_ne_nil _ _)
          (fun e he => hlast e (by simpa [List.getLast?_cons_cons] using he)) .lexBlock [] w xs
    have hne : eolChar x = false → a ≠ [] := by
      intro hx ha
      subst ha
      have := hlast x (by simp)
      rw [hx] at this
      exact Bool.false_ne_true this
    have J : eolChar x = false → ∀ (f : stateFn) (p : List Char) (w : Nat) (xs : List item),
        scan T f ⟨p, a ++ r1, w, xs⟩ = scan T f ⟨p, a ++ r2, w, xs⟩ := by
      intro hx
      have ha := hne hx
      cases a with
      | nil => exact absurd rfl ha
      | cons y a =>
        exact ih (List.cons_ne_nil _ _)
          (fun e he => hlast e (by simpa [List.getLast?_cons_cons] using he))
    simp only [List.cons_append]
    have hVal : ∀ (p : List Char) (w : Nat) (xs : List item),
        scan T .lexVal ⟨p, x :: (a ++ r1), w, xs⟩ = scan T .lexVal ⟨p, x :: (a ++ r2), w, xs⟩ := by
      intro p w xs
      by_cases hx : eolChar x = true
      · have hx1 := (eolChar_iff x).mp hx
        rw [scan_val_eol T p x _ w xs hx1, scan_val_eol T p x _ w xs hx1]
        exact K _ _
      · have hx0 : eolChar x = false := by simpa using hx
        have hx1 := eolChar_false x hx0
        rw [scan_val_step T p x _ w xs hx1.1 hx1.2, scan_val_step T p x _ w xs hx1.1 hx1.2]
        exact J hx0 _ _ _ _
    have hComment : ∀ (p : List Char) (w : Nat) (xs : List item),
        scan T .lexComment ⟨p, x :: (a ++ r1), w, xs⟩ =
          scan T .lexComment ⟨p, x :: (a ++ r2), w, xs⟩ := by
      intro p w xs
      by_cases hx : eolChar x = true
      · have hx1 := (eolChar_iff x).mp hx
        rw [scan_comment_eol p T x _ w xs hx1, scan_comment_eol p T x _ w xs hx1]
        exact K _ _
      · have hx0 : eolChar x = false := by simpa using hx
        have hx1 := eolChar_false x hx0
        rw [scan_comment_step p T x _ w xs hx1.1 hx1.2,
          scan_comment_step p T x _ w xs hx1.1 hx1.2]
        exact J hx0 _ _ _ _
    have hLoop : ∀ (n : Nat) (p : List Char) (w : Nat) (xs : List item),
        scan T (.lexEqualLoop n) ⟨p, x :: (a ++ r1), w, xs⟩ =
          scan T (.lexEqualLoop n) ⟨p, x :: (a ++ r2), w, xs⟩ := by
      intro n p w xs
      by_cases h1 : x = '='
      · subst h1
        rw [scan_equal_eq, scan_equal_eq]
        exact J (by decide) _ _ _ _
      · by_cases h2 : x = ' ' ∨ x = '\t'
        · rw [scan_equal_ws T n p x _ w xs h2, scan_equal_ws T n p x _ w xs h2]
          refine J ?_ _ _ _ _
          rcases h2 with rfl | rfl <;> decide
        · have h3 : x ≠ ' ' := fun h => h2 (Or.inl h)
          have h4 : x ≠ '\t' := fun h => h2 (Or.inr h)
          by_cases hn : n = 1
          · subst hn
            rw [scan_equal_stop T p x _ w xs h1 h3 h4, scan_equal_stop T p x _ w xs h1 h3 h4]
            exact hVal _ _ _
          · rw [scan_equal_bad T n p x _ w xs h1 h3 h4 hn,
              scan_equal_bad T n p x _ w xs h1 h3 h4 hn]
    have hEqual : ∀ (p : List Char) (w : Nat) (xs : List item),
        scan T .lexEqual ⟨p, x :: (a ++ r1), w, xs⟩ =
          scan T .lexEqual ⟨p, x :: (a ++ r2), w, xs⟩ := by
      intro p w xs
      rw [scan_equal_entry, scan_equal_entry]
      exact hLoop 0 p w xs
    have hKey : ∀ (p : List Char) (w : Nat) (xs : List item),
        scan T .lexKey ⟨p, x :: (a ++ r1), w, xs⟩ = scan T .lexKey ⟨p, x :: (a ++ r2), w, xs⟩ := by
      intro p w xs
      by_cases hx : identChar T x = true
      · rw [scan_key_step T p x _ w xs hx, scan_key_step T p x _ w xs hx]
        exact J (identChar_not_eol T x hx) _ _ _ _
      · have hx0 : identChar T x = false := by simpa using hx
        rw [scan_key_stop T p x _ w xs hx0, scan_key_stop T p x _ w xs hx0]
        exact hEqual _ _ _
    have hMetaLoop : ∀ (p : List Char) (w : Nat) (xs : List item),
        scan T .lexMetaLoop ⟨p, x :: (a ++ r1), w, xs⟩ =
          scan T .lexMetaLoop ⟨p, x :: (a ++ r2), w, xs⟩ := by
      intro p w xs
      by_cases hx : identChar T x = true
      · rw [scan_metaLoop_step T p x _ w xs hx, scan_metaLoop_step T p x _ w xs hx]
        exact J (identChar_not_eol T x hx) _ _ _ _
      · have hx0 : identChar T x = false := by simpa using hx
        by_cases h1 : x = '>'
        · subst h1
          obtain ⟨b, hb1, hb2⟩ := second_char p a r1 r2 (hne (by decide))
          rw [scan_metaLoop_gt T p b _ w xs hb1, scan_metaLoop_gt T p b _ w xs hb2]
          exact K _ _
        · rw [scan_metaLoop_bad T p x _ w xs hx0 h1, scan_metaLoop_bad T p x _ w xs hx0 h1]
    have hMeta : ∀ (p : List Char) (w : Nat) (xs : List item),
        scan T .lexMeta ⟨p, x :: (a ++ r1), w, xs⟩ =
          scan T .lexMeta ⟨p, x :: (a ++ r2), w, xs⟩ := by
      intro p w xs
      by_cases h1 : x = '/'
      · subst h1
        rw [scan_meta_slash, scan_meta_slash]
        exact J (by decide) _ _ _ _
      · rw [scan_meta_other T p x _ w xs h1, scan_meta_other T p x _ w xs h1]
        exact hMetaLoop _ _ _
    have hBlock : ∀ (p : List Char) (w : Nat) (xs : List item),
        scan T .lexBlock ⟨p, x :: (a ++ r1), w, xs⟩ =
          scan T .lexBlock ⟨p, x :: (a ++ r2), w, xs⟩ := by
      intro p w xs
      by_cases h1 : x = ' ' ∨ x = '\t' ∨ x = '\r' ∨ x = '\n'
      · rw [scan_block_ws T p x _ w xs h1, scan_block_ws T p x _ w xs h1]
        exact K _ _
      · by_cases h2 : x = '<'
        · subst h2
          rw [scan_block_lt, scan_block_lt]
          exact J (by decide) _ _ _ _
        · by_cases h3 : x = '#'
          · subst h3
            rw [scan_block_hash, scan_block_hash]
            exact J (by decide) _ _ _ _
          · by_cases h4 : T.IsLetter x = true
            · rw [scan_block_letter T p x _ w xs h4, scan_block_letter T p x _ w xs h4]
              exact hKey _ _ _
            · have h5 : T.IsLetter x = false := by simpa using h4
              have e1 : x ≠ ' ' := fun h => h1 (Or.inl h)
              have e2 : x ≠ '\t' := fun h => h1 (Or.inr (Or.inl h))
              have e3 : x ≠ '\r' := fun h => h1 (Or.inr (Or.inr (Or.inl h)))
              have e4 : x ≠ '\n' := fun h => h1 (Or.inr (Or.inr (Or.inr h)))
              rw [scan_block_bad T p x _ w xs e1 e2 e3 e4 h2 h3 h5,
                scan_block_bad T p x _ w xs e1 e2 e3 e4 h2 h3 h5]
    intro f p w xs
    cases f with
    | lexBlock => exact hBlock p w xs
    | lexMeta => exact hMeta p w xs
    | lexMetaLoop => exact hMetaLoop p w xs
    | lexComment => exact hComment p w xs
    | lexKey => exact hKey p w xs
    | lexEqual => exact hEqual p w xs
    | lexEqualLoop n => exact hLoop n p w xs
    | lexVal => exact hVal p w xs

theorem scan_comment_line (T : GoLib) (c b : List Char) (hc : noEOL c = true)
    (w : Nat) (xs : List item) :
    scan T .lexBlock ⟨[], '#' :: (c ++ '\n' :: b), w, xs⟩ = scan T .lexBlock ⟨[], b, w, xs⟩ := by
  rw [scan_block_hash, scan_comment_run T c ?_ _ ('\n' :: b) 0 xs (by simp)]
  · exact (scan_width T .lexBlock [] b w xs).symm
  · intro d hd
    simp only [noEOL, List.all_eq_true, Bool.not_eq_true'] at hc
    exact eolChar_false d (hc d hd)

/-- C17: comments are pure noise.  For every text `a` that is empty or ends
with a carriage return or a line feed, every comment body `c` without
carriage return and line feed, and every text `b`, `Parse` returns on
`a ++ "#" ++ c ++ LF ++ b` what it returns on `a ++ b`: the same tree or the
same error. -/
theorem Parse_comment (T : GoLib) (a c b : List Char)
    (ha : ∀ e ∈ a.getLast?, eolChar e = true) (hc : noEOL c = true) :
    Parse T (a ++ '#' :: (c ++ '\n' :: b)) = Parse T (a ++ b) := by
  have h : scan T .lexBlock ⟨[], a ++ '#' :: (c ++ '\n' :: b), 0, []⟩ =
      scan T .lexBlock ⟨[], a ++ b, 0, []⟩ := by
    by_cases hn : a = []
    · subst hn
      exact scan_comment_line T c b hc 0 []
    · exact scan_congr T _ _ (scan_comment_line T c b hc) a hn ha .lexBlock [] 0 []
  rw [Parse_eq, Parse_eq, h]

theorem Parse_comment_witness :
    Parse asciiLib "a=1\n# b=2 <x>\nc=3".toList = Parse asciiLib "a=1\nc=3".toList ∧
    Parse asciiLib "a=1\nc=3".toList =
      some (.ok (.mk [] [("a".toList, "1".toList), ("c".toList, "3".toList)] [])) ∧
    Parse asciiLib "# <x\n<y>".toList = Parse asciiLib "<y>".toList :=
  ⟨Parse_comment asciiLib "a=1\n".toList " b=2 <x>".toList "c=3".toList (by decide) (by decide),
    rfl,
    Parse_comment asciiLib [] " <x".toList "<y>".toList (by decide) (by decide)⟩

end Scribeconf
